import Mathlib

/-!
# VisionDecision (decision_igvc)

A shallow embedding of `src/decision_igvc/src/VisionDecision.cpp`.

Conventions of the embedding.

* `int` values are `Int`; the image dimensions (`uint32_t`) are `Nat`.
  Images are taken in the range where the 32-bit counters of the source
  (`row`, `col`, `whiteCount`, `row * width + column`) do not overflow.
* `double` values are rationals (`ℚ`).  Where a statement does not depend on
  rounding the arithmetic is exact; where it does (the value of the confidence,
  the cap on the turn rate) the functions are embedded a second time with every
  operation rounded to binary64 (`fl`, `getConfidence64`, `angularZ64`).
  The only non-finite value the code can produce from finite inputs in the
  normal range is the NaN of `0 / 0` in `mapRange`; it is `none` in
  `Option ℚ`, and every comparison with it is false, as in IEEE 754.
* `atan` comes from the C math library and is a parameter of the functions
  that call it.
* `getVerticalEdgePixel` has no `return` after its loop.  The value a caller
  then obtains is indeterminate and is a parameter (`Indeterminate`); statements
  about returned values hold for every such value.  The behaviour of the program
  is undefined from that point on: the list of the reads of a run
  (`getDesiredAngleEvents`) ends there.
-/

namespace VisionDecision

/-- The constant `NOISE_MAX` of `VisionDecision.h`. -/
def NOISE_MAX : Int := 10

/-- The constant `STOP_SIGNAL_ANGLE` of `VisionDecision.h`. -/
def STOP_SIGNAL_ANGLE : Int := 90

/-- The double constant `M_PI` (`0x1.921fb54442d18p+1`), an exact dyadic rational. -/
def M_PI : ℚ := 884279719003555 / 281474976710656

/-- The fields of `sensor_msgs::Image` the node reads: `height`, `width` and the
row-major byte buffer `data`. -/
structure Image where
  height : Nat
  width : Nat
  data : List Nat

/-- The read `image_scan->data[row * image_scan->width + column]`. -/
def Image.pixel (img : Image) (row column : Int) : Nat :=
  img.data.getD (row * (img.width : Int) + column).toNat 0

/-- Values the C++ program leaves indeterminate: `fallOff column` is what a caller
of `getVerticalEdgePixel(image, column)` receives when control reaches the end of
the function without a `return`; `leftSidePixel` is the initial content of the
uninitialised local of `isPerpendicular`. -/
structure Indeterminate where
  fallOff : Int → Int
  leftSidePixel : Int

/-- The conversion `(int) x` of a double: truncation toward zero. -/
def truncToInt (x : ℚ) : Int :=
  if 0 ≤ x then Int.floor x else Int.ceil x

/-- The loop of `getEdgePixel`.  The first argument bounds the number of
iterations; with an incrementer of `1` or `-1` the column leaves `[0, width)`
after at most `width` iterations, so `width` iterations are all the loop has
(theorem `getEdgePixelLoop_fuel`). -/
def getEdgePixelLoop (img : Image) (incrementer row : Int) (isStartPixel : Bool) :
    Nat → Int → Int → Int → Int → Int
  | 0, _, _, _, _ => -1
  | fuel + 1, column, whiteVerificationCount, blackVerificationCount, toBeChecked =>
    if column < (img.width : Int) ∧ column ≥ 0 then
      if (img.pixel row column ≠ 0 ∧ isStartPixel = true) ∨
          (img.pixel row column = 0 ∧ isStartPixel = false) then
        if whiteVerificationCount + 1 = NOISE_MAX then
          (if toBeChecked = -1 then column else toBeChecked)
        else
          getEdgePixelLoop img incrementer row isStartPixel fuel (column + incrementer)
            (whiteVerificationCount + 1) 0 (if toBeChecked = -1 then column else toBeChecked)
      else
        if blackVerificationCount + 1 ≥ NOISE_MAX then
          getEdgePixelLoop img incrementer row isStartPixel fuel (column + incrementer)
            0 (blackVerificationCount + 1) (-1)
        else
          getEdgePixelLoop img incrementer row isStartPixel fuel (column + incrementer)
            whiteVerificationCount (blackVerificationCount + 1) toBeChecked
    else -1

/-- The function `VisionDecision::getEdgePixel`. -/
def getEdgePixel (img : Image) (startingPos incrementer row : Int) (isStartPixel : Bool) : Int :=
  getEdgePixelLoop img incrementer row isStartPixel img.width startingPos 0 0 (-1)

/-- The function `VisionDecision::getMiddle`; `/` on `int` truncates toward zero. -/
def getMiddle (img : Image) (startingPos row : Int) (rightSide : Bool) : Int :=
  let incrementer : Int := if rightSide then -1 else 1
  let startPixel := getEdgePixel img startingPos incrementer row true
  let endPixel := getEdgePixel img startPixel incrementer row false
  Int.tdiv (startPixel + endPixel) 2

/-- The function `VisionDecision::initializeIncrementerPosition`: the incrementer it
returns and the starting position it stores through its pointer argument. -/
def initializeIncrementerPosition (rightSide : Bool) (img : Image) : Int × Int :=
  if rightSide then (-1, (img.width : Int) - 1) else (1, 0)

/-- The first loop of `getAngleOfLine`, `for (int i = imageHeight - 1; i > 0; i--)`,
entered with `i` as its argument: the pair `(bottomRow, x1)` it leaves. -/
def anchorLoop (img : Image) (startingPos incrementer : Int) (rightSide : Bool) :
    Nat → Int × ℚ
  | 0 => (-1, -1)
  | i + 1 =>
    if getEdgePixel img startingPos incrementer ((i + 1 : Nat) : Int) true ≠ -1 then
      (((i + 1 : Nat) : Int), (getMiddle img startingPos ((i + 1 : Nat) : Int) rightSide : ℚ))
    else anchorLoop img startingPos incrementer rightSide i

/-- The second loop of `getAngleOfLine`, over `division`: the pair
`(currentAngle, validSamples)` it leaves.  The first argument bounds the number of
iterations; the loop makes fewer than `bottomRow` of them (theorem `sampleLoop_fuel`). -/
def sampleLoop (atan : ℚ → ℚ) (img : Image) (startingPos : Int) (rightSide : Bool)
    (numSamples rolling_average_constant : ℚ) (bottomRow : Int) (x1 : ℚ) :
    Nat → ℚ → ℚ → ℚ → ℚ × ℚ
  | 0, _, currentAngle, validSamples => (currentAngle, validSamples)
  | fuel + 1, division, currentAngle, validSamples =>
    if division < numSamples ∧ (bottomRow : ℚ) - division > 0 then
      let yCompared : ℚ := (bottomRow : ℚ) - division
      let xCompared : ℚ := (getMiddle img startingPos (truncToInt yCompared) rightSide : ℚ)
      if xCompared ≠ -1 ∧ x1 ≠ -1 then
        let foundSlope : ℚ := -(xCompared - x1) / (yCompared - (bottomRow : ℚ))
        let foundAngle : ℚ := atan foundSlope
        if |currentAngle - foundAngle| * 180 / M_PI < 90 then
          sampleLoop atan img startingPos rightSide numSamples rolling_average_constant
            bottomRow x1 fuel (division + 1)
            (rolling_average_constant * foundAngle +
              (1 - rolling_average_constant) * currentAngle)
            (validSamples + 1)
        else
          sampleLoop atan img startingPos rightSide numSamples rolling_average_constant
            bottomRow x1 fuel (division + 1) currentAngle (validSamples + 1 - 1)
      else
        sampleLoop atan img startingPos rightSide numSamples rolling_average_constant
          bottomRow x1 fuel (division + 1) currentAngle validSamples
    else (currentAngle, validSamples)

/-- The function `VisionDecision::getAngleOfLine`: the returned angle in degrees and
the value stored in `validSamples`. -/
def getAngleOfLine (atan : ℚ → ℚ) (rightSide : Bool) (numSamples : ℚ) (img : Image)
    (rolling_average_constant percent_of_samples_needed : ℚ) : Int × ℚ :=
  let init := initializeIncrementerPosition rightSide img
  let incrementer := init.1
  let startingPos := init.2
  let anchor := anchorLoop img startingPos incrementer rightSide (img.height - 1)
  let bottomRow := anchor.1
  let x1 := anchor.2
  let r := sampleLoop atan img startingPos rightSide numSamples rolling_average_constant
    bottomRow x1 bottomRow.toNat 1 0 0
  (truncToInt (r.1 * 180 / M_PI), if x1 = -1 then 0 else r.2)

/-- The function `VisionDecision::mapRange`, in exact arithmetic (`mapRange64` rounds);
`none` is the NaN of a division `0 / 0` and, more generally, stands for "no finite
value" when `inMax = inMin`. -/
def mapRange (x inMin inMax outMin outMax : ℚ) : Option ℚ :=
  if inMax - inMin = 0 then none
  else some ((x - inMin) * (outMax - outMin) / (inMax - inMin) + outMin)

/-- The function `VisionDecision::getConfidence`, in exact arithmetic
(`getConfidence64` rounds). -/
def getConfidence (img : Image) (percent_of_image_sampled percent_of_samples_needed
    valid_samples : ℚ) : Option ℚ :=
  let samples_needed : ℚ := (img.height : ℚ) * percent_of_samples_needed
  let valid_samples := if valid_samples > samples_needed then samples_needed else valid_samples
  mapRange valid_samples 0 samples_needed 0 100

/-- The loop of `getVerticalEdgePixel`, `for (row = height - 1; row >= 0; row--)`,
entered with `row + 1` as its argument.  When the loop ends the function has no
`return`: the caller gets the indeterminate `fall`. -/
def getVerticalEdgePixelLoop (img : Image) (column : Int) (fall : Int) :
    Nat → Int → Int → Int → Int
  | 0, _, _, _ => fall
  | row + 1, whiteVerificationCount, blackVerificationCount, toBeChecked =>
    if img.pixel (row : Int) column ≠ 0 then
      if whiteVerificationCount + 1 = NOISE_MAX then
        (if toBeChecked = -1 then (row : Int) else toBeChecked)
      else
        getVerticalEdgePixelLoop img column fall row (whiteVerificationCount + 1) 0
          (if toBeChecked = -1 then (row : Int) else toBeChecked)
    else
      if blackVerificationCount + 1 = NOISE_MAX then
        getVerticalEdgePixelLoop img column fall row 0 (blackVerificationCount + 1) (-1)
      else
        getVerticalEdgePixelLoop img column fall row whiteVerificationCount
          (blackVerificationCount + 1) toBeChecked

/-- The function `VisionDecision::getVerticalEdgePixel`. -/
def getVerticalEdgePixel (ind : Indeterminate) (img : Image) (column : Int) : Int :=
  getVerticalEdgePixelLoop img column (ind.fallOff column) img.height 0 0 (-1)

/-- The first loop of `isPerpendicular`, `for (i = 0; i < width; i++)`, with
`remaining = width - i` iterations left: the pair `(i, leftSidePixel)` it leaves. -/
def leftSearch (ind : Indeterminate) (img : Image) : Nat → Int → Int → Int × Int
  | 0, i, leftSidePixel => (i, leftSidePixel)
  | remaining + 1, i, _ =>
    if getVerticalEdgePixel ind img i ≠ -1 then (i, getVerticalEdgePixel ind img i)
    else leftSearch ind img remaining (i + 1) (getVerticalEdgePixel ind img i)

/-- The second loop of `isPerpendicular`, `for (j = width - 1; j > 0; j--)`, entered
with `j + 1` as its argument (`j = -1` when the width is `0`): the pair
`(j, rightSidePixel)` it leaves. -/
def rightSearch (ind : Indeterminate) (img : Image) : Nat → Int → Int × Int
  | 0, rightSidePixel => (-1, rightSidePixel)
  | 1, rightSidePixel => (0, rightSidePixel)
  | j + 2, _ =>
    if getVerticalEdgePixel ind img ((j + 1 : Nat) : Int) ≠ -1 then
      (((j + 1 : Nat) : Int), getVerticalEdgePixel ind img ((j + 1 : Nat) : Int))
    else rightSearch ind img (j + 1) (getVerticalEdgePixel ind img ((j + 1 : Nat) : Int))

/-- The function `VisionDecision::isPerpendicular`. -/
def isPerpendicular (ind : Indeterminate) (img : Image) : Bool :=
  let l := leftSearch ind img img.width 0 ind.leftSidePixel
  let r := rightSearch ind img img.width (-1)
  let i := l.1
  let leftSidePixel := l.2
  let j := r.1
  let rightSidePixel := r.2
  if rightSidePixel = 0 ∧ leftSidePixel = 0 then false
  else decide (|rightSidePixel - leftSidePixel| < ((img.height / 10 : Nat) : Int) ∧
    |j - i| > ((img.width / 10 : Nat) : Int))

/-- The number of pixels of the image, scanned row by row and column by column, that
are non-zero and whose column satisfies `p`. -/
def countPixels (img : Image) (p : Nat → Bool) : Int :=
  (((List.range img.height).map fun (row : Nat) =>
    ((List.range img.width).filter fun (column : Nat) =>
      decide (img.pixel (row : Int) (column : Int) ≠ 0) && p column).length).sum : Nat)

/-- The counter `leftCount` of `getLeftToRightPixelRatio`: non-zero pixels with
`column <= width / 2`. -/
def leftCount (img : Image) : Int :=
  countPixels img fun column => decide (column ≤ img.width / 2)

/-- The counter `rightCount` of `getLeftToRightPixelRatio`: non-zero pixels with
`column > width / 2`. -/
def rightCount (img : Image) : Int :=
  countPixels img fun column => decide (column > img.width / 2)

/-- The function `VisionDecision::getLeftToRightPixelRatio`: `rightCount - leftCount`. -/
def getLeftToRightPixelRatio (img : Image) : Int :=
  rightCount img - leftCount img

/-- The function `VisionDecision::moveAwayFromLine`. -/
def moveAwayFromLine (img : Image) : Int :=
  if getLeftToRightPixelRatio img < 0 then 45 else -45

/-- The counter `whiteCount` after the first loop nest of `getDesiredAngle`. -/
def whiteCount (img : Image) : Int :=
  countPixels img fun _ => true

/-- The comparison `a > b` of two doubles, false when either is NaN. -/
def dgt (a b : Option ℚ) : Bool :=
  match a, b with
  | some x, some y => decide (x > y)
  | _, _ => false

/-- The pair `(desiredAngle, confidence_value)` after the selection
`if (rightConfidence > leftConfidence) ... else ...` of `getDesiredAngle`. -/
def selectPair (atan : ℚ → ℚ) (numSamples : ℚ) (img : Image)
    (rolling_average_constant percent_of_image_sampled percent_of_samples_needed : ℚ) :
    Int × Option ℚ :=
  let left := getAngleOfLine atan false numSamples img rolling_average_constant
    percent_of_samples_needed
  let leftToRightAngle := left.1
  let leftConfidence := getConfidence img percent_of_image_sampled
    percent_of_samples_needed left.2
  let right := getAngleOfLine atan true numSamples img rolling_average_constant
    percent_of_samples_needed
  let rightToLeftAngle := right.1
  let rightConfidence := getConfidence img percent_of_image_sampled
    percent_of_samples_needed right.2
  if dgt rightConfidence leftConfidence then (rightToLeftAngle, rightConfidence)
  else (leftToRightAngle, leftConfidence)

/-- The function `VisionDecision::getDesiredAngle`: the returned angle and the value
stored in `confidence_value`. -/
def getDesiredAngle (atan : ℚ → ℚ) (ind : Indeterminate) (numSamples : ℚ) (img : Image)
    (rolling_average_constant percent_of_image_sampled percent_of_samples_needed
      move_away_threshold percent_of_white_needed : ℚ) : Int × Option ℚ :=
  let sel := selectPair atan numSamples img rolling_average_constant
    percent_of_image_sampled percent_of_samples_needed
  let desiredAngle := if ((|sel.1| : Int) : ℚ) ≤ move_away_threshold then moveAwayFromLine img
    else sel.1
  let confidence_value := if isPerpendicular ind img then some 0 else sel.2
  let num_of_white_needed : ℚ :=
    ((img.height * img.width : Nat) : ℚ) * percent_of_white_needed
  let desiredAngle := if (whiteCount img : ℚ) < num_of_white_needed then moveAwayFromLine img
    else desiredAngle
  (desiredAngle, confidence_value)

/-- The function `VisionDecision::getDesiredAngularSpeed`; `pow(desiredAngle, 2.0)` is
the square. -/
def getDesiredAngularSpeed (desiredAngle : ℚ) : ℚ :=
  if desiredAngle = ((STOP_SIGNAL_ANGLE : Int) : ℚ) then 0
  else if desiredAngle < 0 then desiredAngle ^ 2 / 10000 * (-1)
  else desiredAngle ^ 2 / 10000

/-- The function `VisionDecision::getDesiredLinearSpeed`; `speedToMap` is
`abs((int) desiredAngle)`. -/
def getDesiredLinearSpeed (desiredAngle : ℚ) : Option ℚ :=
  if desiredAngle = ((STOP_SIGNAL_ANGLE : Int) : ℚ) then some 0
  else (mapRange ((|truncToInt desiredAngle| : Int) : ℚ) 0 90 0 1).map fun mapped =>
    1 - mapped

/-- The parameters the constructor of the node reads with `SB_getParam`. -/
structure Params where
  angular_velocity_multiplier : ℚ
  angular_velocity_cap : ℚ
  rolling_average_constant : ℚ
  percent_of_samples_needed : ℚ
  percent_of_image_sampled : ℚ
  move_away_threshold : ℚ
  confidence_threshold : ℚ
  percent_of_white_needed : ℚ

/-- The fields of `geometry_msgs::Twist` that `imageCallBack` sets; `linear.x` comes
from `mapRange`. -/
structure Twist where
  linear_x : Option ℚ
  linear_y : ℚ
  linear_z : ℚ
  angular_x : ℚ
  angular_y : ℚ
  angular_z : ℚ

/-- Rounding to the nearest integer, a tie to the even one. -/
def roundHalfEven (x : ℚ) : Int :=
  if x - (Int.floor x : ℚ) < 1 / 2 then Int.floor x
  else if x - (Int.floor x : ℚ) > 1 / 2 then Int.floor x + 1
  else if Int.floor x % 2 = 0 then Int.floor x else Int.floor x + 1

/-- The binary64 rounding of an exact result, to nearest with ties to even: `x` is
scaled by the power of two that brings it into `[2^52, 2^53)`, rounded to an integer,
and scaled back.  The exponent is not bounded: the value is the IEEE 754 `double`
result whenever `x` is zero or `2^-1022 ≤ |x| ≤ 2^1023` (no overflow, no subnormal
result). -/
def fl (x : ℚ) : ℚ :=
  if x = 0 then 0
  else (roundHalfEven (x / 2 ^ (Int.log 2 |x| - 52)) : ℚ) * 2 ^ (Int.log 2 |x| - 52)

/-- The function `VisionDecision::mapRange` in binary64: each of the six operations of
`(x - inMin) * (outMax - outMin) / (inMax - inMin) + outMin` is rounded.  As in
`mapRange`, `none` stands for the result of a division by zero. -/
def mapRange64 (x inMin inMax outMin outMax : ℚ) : Option ℚ :=
  if fl (inMax - inMin) = 0 then none
  else some (fl (fl (fl (fl (x - inMin) * fl (outMax - outMin)) / fl (inMax - inMin)) +
    outMin))

/-- The function `VisionDecision::getConfidence` in binary64; the conversion of the
`uint32_t` height to `double` is exact. -/
def getConfidence64 (img : Image) (percent_of_image_sampled percent_of_samples_needed
    valid_samples : ℚ) : Option ℚ :=
  let samples_needed : ℚ := fl ((img.height : ℚ) * percent_of_samples_needed)
  let valid_samples := if valid_samples > samples_needed then samples_needed else valid_samples
  mapRange64 valid_samples 0 samples_needed 0 100

/-- The function `VisionDecision::getDesiredAngularSpeed` in binary64;
`pow(desiredAngle, 2.0)` is taken as the correctly rounded square. -/
def getDesiredAngularSpeed64 (desiredAngle : ℚ) : ℚ :=
  if desiredAngle = ((STOP_SIGNAL_ANGLE : Int) : ℚ) then 0
  else if desiredAngle < 0 then fl (fl (fl (desiredAngle ^ 2) / 10000) * (-1))
  else fl (fl (desiredAngle ^ 2) / 10000)

/-- The value `imageCallBack` gives `twistMsg.angular.z` in binary64: the product
`-angular_velocity_multiplier * getDesiredAngularSpeed(relativeAngle)`, then, when its
magnitude is above the cap, `angular_velocity_cap * angular.z / fabs(angular.z)`, the
product and the quotient rounded.  The conversion of the `int` angle to `double` is
exact. -/
def angularZ64 (angular_velocity_multiplier angular_velocity_cap : ℚ) (relativeAngle : Int) :
    ℚ :=
  let z := fl (-angular_velocity_multiplier * getDesiredAngularSpeed64 (relativeAngle : ℚ))
  if |z| > angular_velocity_cap then fl (fl (angular_velocity_cap * z) / |z|) else z

/-- The function `VisionDecision::imageCallBack`: the twist message it publishes. -/
def imageCallBack (atan : ℚ → ℚ) (ind : Indeterminate) (params : Params) (img : Image) :
    Twist :=
  let relativeAngle : Int :=
    (getDesiredAngle atan ind ((img.height : ℚ) * params.percent_of_image_sampled) img
      params.rolling_average_constant params.percent_of_image_sampled
      params.percent_of_samples_needed params.move_away_threshold
      params.percent_of_white_needed).1
  { linear_x := getDesiredLinearSpeed (relativeAngle : ℚ)
    linear_y := 0
    linear_z := 0
    angular_x := 0
    angular_y := 0
    angular_z := angularZ64 params.angular_velocity_multiplier params.angular_velocity_cap
      relativeAngle }

/-! ## Vocabulary of the statements -/

/-- The angle `getAngleOfLine` returns to `getDesiredAngle` for one scan direction. -/
def sampledAngle (atan : ℚ → ℚ) (rightSide : Bool) (numSamples : ℚ) (img : Image)
    (rolling_average_constant percent_of_samples_needed : ℚ) : Int :=
  (getAngleOfLine atan rightSide numSamples img rolling_average_constant
    percent_of_samples_needed).1

/-- The confidence `getDesiredAngle` computes for one scan direction: `getConfidence`
of the valid samples `getAngleOfLine` counted. -/
def sampledConfidence (atan : ℚ → ℚ) (rightSide : Bool) (numSamples : ℚ) (img : Image)
    (rolling_average_constant percent_of_image_sampled percent_of_samples_needed : ℚ) :
    Option ℚ :=
  getConfidence img percent_of_image_sampled percent_of_samples_needed
    (getAngleOfLine atan rightSide numSamples img rolling_average_constant
      percent_of_samples_needed).2

/-- The maximum of two doubles in the sense of C `fmax`: a NaN operand is ignored. -/
def fmax : Option ℚ → Option ℚ → Option ℚ
  | some x, some y => some (max x y)
  | some x, none => some x
  | none, some y => some y
  | none, none => none

/-- The coverage guard of `getDesiredAngle` passes: `whiteCount` is not below
`height * width * percent_of_white_needed`. -/
def hasEnoughLine (img : Image) (percent_of_white_needed : ℚ) : Prop :=
  ¬ ((whiteCount img : ℚ) < ((img.height * img.width : Nat) : ℚ) * percent_of_white_needed)

instance hasEnoughLineDecidable (img : Image) (percent_of_white_needed : ℚ) :
    Decidable (hasEnoughLine img percent_of_white_needed) := by
  unfold hasEnoughLine; infer_instance

/-- Every byte of the image is background. -/
def allBackground (img : Image) : Prop :=
  ∀ x ∈ img.data, x = 0

instance allBackgroundDecidable (img : Image) : Decidable (allBackground img) := by
  unfold allBackground; infer_instance

/-- The pixel test of `getEdgePixel`: line-coloured when `isStartPixel`, background
otherwise. -/
def matching (img : Image) (row : Int) (isStartPixel : Bool) (column : Int) : Prop :=
  (img.pixel row column ≠ 0 ∧ isStartPixel = true) ∨
    (img.pixel row column = 0 ∧ isStartPixel = false)

instance matchingDecidable (img : Image) (row : Int) (isStartPixel : Bool) (column : Int) :
    Decidable (matching img row isStartPixel column) := by
  unfold matching; infer_instance

/-- The column is inside the row: `0 <= column < width`. -/
def inBounds (img : Image) (column : Int) : Prop :=
  0 ≤ column ∧ column < (img.width : Int)

instance inBoundsDecidable (img : Image) (column : Int) : Decidable (inBounds img column) := by
  unfold inBounds; infer_instance

/-- The number of matching pixels among the `n` pixels `c, c + incrementer, ...`. -/
def countMatching (img : Image) (incrementer row : Int) (isStartPixel : Bool) (c : Int) :
    Nat → Nat
  | 0 => 0
  | n + 1 => countMatching img incrementer row isStartPixel c n +
      (if matching img row isStartPixel (c + (n : Int) * incrementer) then 1 else 0)

/-- The first `m` pixels `c, c + incrementer, ...` of a scan, all in bounds, start
with a matching pixel, hold `white` matching pixels, have a matching pixel followed by
`black < NOISE_MAX` further pixels at their end, and every `NOISE_MAX` consecutive ones
of them hold a matching pixel. -/
structure Scanned (img : Image) (incrementer row : Int) (isStartPixel : Bool) (c : Int)
    (m : Nat) (white : Int) (black : Nat) : Prop where
  bounds : ∀ j : Nat, j < m → inBounds img (c + (j : Int) * incrementer)
  first : matching img row isStartPixel c
  count : (countMatching img incrementer row isStartPixel c m : Int) = white
  black_lt : black < m
  black_small : black < 10
  last : matching img row isStartPixel (c + ((m - 1 - black : Nat) : Int) * incrementer)
  window : ∀ j : Nat, j + 10 ≤ m → ∃ i : Nat, i < 10 ∧
    matching img row isStartPixel (c + ((j + i : Nat) : Int) * incrementer)

/-- The pixels `c, c + incrementer, ..., c + k * incrementer` confirm the candidate
`c`: they are in bounds, the first and the last are matching, exactly `NOISE_MAX` of
them are matching, and every `NOISE_MAX` consecutive ones hold a matching pixel. -/
structure Confirmed (img : Image) (incrementer row : Int) (isStartPixel : Bool) (c : Int)
    (k : Nat) : Prop where
  bounds : ∀ j : Nat, j ≤ k → inBounds img (c + (j : Int) * incrementer)
  first : matching img row isStartPixel c
  last : matching img row isStartPixel (c + (k : Int) * incrementer)
  count : countMatching img incrementer row isStartPixel c (k + 1) = 10
  window : ∀ j : Nat, j + 10 ≤ k + 1 → ∃ i : Nat, i < 10 ∧
    matching img row isStartPixel (c + ((j + i : Nat) : Int) * incrementer)

/-- A rational stand-in for the library arctangent, used to run the functions on
concrete images: `x / (1 + 9/32 x²)` on `[-1, 1]` and its reflection outside; it is
exact at `0`. -/
def atanModel (x : ℚ) : ℚ :=
  if |x| ≤ 1 then x / (1 + (9 / 32) * x ^ 2)
  else if 0 < x then M_PI / 2 - x / (x ^ 2 + 9 / 32)
  else -(M_PI / 2) - x / (x ^ 2 + 9 / 32)

/-- One assignment of the indeterminate values, at which statements that hold for every
assignment are instantiated.  The source does not determine these values, and nothing
says a run produces this assignment. -/
def notFoundRun : Indeterminate := ⟨fun _ => -1, -1⟩

/-- An image of `height` copies of one row. -/
def rowsImage (height : Nat) (row : List Nat) : Image :=
  ⟨height, row.length, (List.replicate height row).flatten⟩

/-- An image given by its rows, bottom row last. -/
def ofRows (width : Nat) (rows : List (List Nat)) : Image :=
  ⟨rows.length, width, rows.flatten⟩

/-- A row of `a` background pixels, `b` line pixels and `c` background pixels. -/
def bandRow (a b c : Nat) : List Nat :=
  List.replicate a 0 ++ List.replicate b 255 ++ List.replicate c 0

/-- A line ten pixels wide that moves two columns to the right per row going up. -/
def slantImage : Image :=
  ofRows 40 [bandRow 16 10 14, bandRow 14 10 16, bandRow 12 10 18, bandRow 10 10 20]

/-- Twelve rows of a vertical band ten pixels wide at the horizontal centre of an
image thirty pixels wide. -/
def bandImage : Image := rowsImage 12 (bandRow 10 10 10)

/-- A background image of two rows and three columns. -/
def blankImage : Image := ⟨2, 3, List.replicate 6 0⟩

/-- One row of four pixels whose only line pixel is the rightmost. -/
def rightDotImage : Image := ⟨1, 4, [0, 0, 0, 1]⟩

/-- A row of twelve pixels: a line pixel, a background pixel, nine line pixels and a
background pixel. -/
def gapImage : Image := ⟨1, 12, [1, 0, 1, 1, 1, 1, 1, 1, 1, 1, 1, 0]⟩

/-- A row of twenty pixels whose line runs from column 10 to the right border. -/
def borderImage : Image := rowsImage 1 (bandRow 10 10 0)

/-- All rows of the image show the same line pixels. -/
def SameRows (img : Image) : Prop :=
  ∀ row row' column : Nat, row < img.height → row' < img.height → column < img.width →
    (img.pixel (row : Int) (column : Int) = 0 ↔ img.pixel (row' : Int) (column : Int) = 0)

/-- The line pixels of the image are a vertical band spanning all rows, the columns
`a ≤ column < b`, at least `NOISE_MAX` pixels wide. -/
def VerticalBand (img : Image) (a b : Nat) : Prop :=
  a + 10 ≤ b ∧ b ≤ img.width ∧
    ∀ row : Nat, row < img.height → ∀ column : Nat, column < img.width →
      (img.pixel (row : Int) (column : Int) ≠ 0 ↔ a ≤ column ∧ column < b)

instance verticalBandDecidable (img : Image) (a b : Nat) : Decidable (VerticalBand img a b) := by
  unfold VerticalBand; infer_instance

/-- The pair `(bottomRow, x1)` the anchor search of `getAngleOfLine` leaves. -/
def anchor (rightSide : Bool) (img : Image) : Int × ℚ :=
  anchorLoop img (initializeIncrementerPosition rightSide img).2
    (initializeIncrementerPosition rightSide img).1 rightSide (img.height - 1)

/-- The pair `(currentAngle, validSamples)` of the sampling loop of `getAngleOfLine`
after its first `n` iterations (after its last one, when it has fewer than `n`). -/
def sampleState (atan : ℚ → ℚ) (rightSide : Bool) (numSamples : ℚ) (img : Image)
    (rolling_average_constant : ℚ) (n : Nat) : ℚ × ℚ :=
  sampleLoop atan img (initializeIncrementerPosition rightSide img).2 rightSide numSamples
    rolling_average_constant (anchor rightSide img).1 (anchor rightSide img).2 n 1 0 0

/-- The running estimate `currentAngle`, in radians, when the sampling loop of
`getAngleOfLine` ends. -/
def runningEstimate (atan : ℚ → ℚ) (rightSide : Bool) (numSamples : ℚ) (img : Image)
    (rolling_average_constant : ℚ) : ℚ :=
  (sampleState atan rightSide numSamples img rolling_average_constant
    (anchor rightSide img).1.toNat).1

/-- The value `getAngleOfLine` stores in `validSamples`. -/
def validSampleCount (atan : ℚ → ℚ) (rightSide : Bool) (numSamples : ℚ) (img : Image)
    (rolling_average_constant percent_of_samples_needed : ℚ) : ℚ :=
  (getAngleOfLine atan rightSide numSamples img rolling_average_constant
    percent_of_samples_needed).2

/-- The line pixels of the image are a level horizontal band: the rows
`r0 ≤ row < r1`, at least `NOISE_MAX` of them, of the columns `c0 ≤ column < c1`; the
rest of the image is background. -/
def HorizontalBand (img : Image) (r0 r1 c0 c1 : Nat) : Prop :=
  r0 + 10 ≤ r1 ∧ r1 ≤ img.height ∧ c0 < c1 ∧ c1 ≤ img.width ∧
    ∀ row : Nat, row < img.height → ∀ column : Nat, column < img.width →
      (img.pixel (row : Int) (column : Int) ≠ 0 ↔
        (r0 ≤ row ∧ row < r1) ∧ (c0 ≤ column ∧ column < c1))

instance horizontalBandDecidable (img : Image) (r0 r1 c0 c1 : Nat) :
    Decidable (HorizontalBand img r0 r1 c0 c1) := by
  unfold HorizontalBand; infer_instance

/-- A background image of ten rows and ten columns. -/
def darkImage : Image := ⟨10, 10, List.replicate 100 0⟩


/-- The rows of an image all have `width` pixels and show a level band: the check of
`HorizontalBand` made row by row on the list of rows. -/
def RowsBand (width : Nat) (rows : List (List Nat)) (r0 r1 c0 c1 : Nat) : Prop :=
  (∀ r ∈ rows, r.length = width) ∧ r0 + 10 ≤ r1 ∧ r1 ≤ rows.length ∧ c0 < c1 ∧
    c1 ≤ width ∧
    ∀ row : Nat, row < rows.length → ∀ column : Nat, column < width →
      ((rows.getD row []).getD column 0 ≠ 0 ↔
        (r0 ≤ row ∧ row < r1) ∧ (c0 ≤ column ∧ column < c1))

instance rowsBandDecidable (width : Nat) (rows : List (List Nat)) (r0 r1 c0 c1 : Nat) :
    Decidable (RowsBand width rows r0 r1 c0 c1) := by
  unfold RowsBand; infer_instance

/-- The rows of twelve rows of thirty pixels: a band ten rows thick (rows 1 to 10) and
ten columns wide (columns 10 to 19) on a background. -/
def crossingRows : List (List Nat) :=
  List.replicate 1 (List.replicate 30 0) ++ List.replicate 10 (bandRow 10 10 10) ++
    List.replicate 1 (List.replicate 30 0)

/-- The image of `crossingRows`. -/
def crossingImage : Image := ofRows 30 crossingRows

/-- The number of integers `d` with `1 ≤ d < numSamples` and `d < height - 1`: the rows
the sampling loop of `getAngleOfLine` reads above the anchor row `height - 1`. -/
def sampledRows (numSamples : ℚ) (height : Nat) : Nat :=
  ((List.range' 1 (height - 2)).filter fun (d : Nat) => decide ((d : ℚ) < numSamples)).length

/-- Four rows of a vertical band ten pixels wide in an image fourteen pixels wide. -/
def smallBandImage : Image := rowsImage 4 (bandRow 2 10 2)

/-- The transposed image: its pixel at row `c`, column `r` is the pixel of `img` at row
`r`, column `c`. -/
def transpose (img : Image) : Image :=
  ⟨img.width, img.height,
    (List.range (img.width * img.height)).map fun (i : Nat) =>
      img.data.getD ((i % img.height) * img.width + i / img.height) 0⟩

/-- What the statements about memory safety observe of a run: a read of
`image_scan->data[row * image_scan->width + column]`, a division by the slope
denominator `yCompared - bottomRow`, or control reaching the end of
`getVerticalEdgePixel`, a function returning `int` that has no `return` there.  After
the last the behaviour of the program is undefined, and the run is described no
further. -/
inductive Event where
  | read (row column : Int)
  | slope (denominator : ℚ)
  | missingReturn

/-- The event is the end of `getVerticalEdgePixel` reached without a `return`. -/
def Event.isMissingReturn : Event → Bool
  | Event.missingReturn => true
  | _ => false

/-- A read is safe when `0 <= row < height`, `0 <= column < width` and the index
`row * width + column` is inside the buffer; a division when its denominator is not
zero; reaching the missing `return` is not. -/
def Event.safe (img : Image) : Event → Prop
  | Event.read row column =>
    0 ≤ row ∧ row < (img.height : Int) ∧ 0 ≤ column ∧ column < (img.width : Int) ∧
      (row * (img.width : Int) + column).toNat < img.data.length
  | Event.slope denominator => denominator ≠ 0
  | Event.missingReturn => False

/-- The events of `first`, followed by those of `next` unless `first` has reached the
missing `return`. -/
def andThen (first next : List Event) : List Event :=
  if first.any Event.isMissingReturn then first else first ++ next

/-- The events of the loop of `getEdgePixel`, in order: each evaluation of the loop
condition's pixel test reads the index `row * width + column` (once or twice, the same
index; it is listed once). -/
def getEdgePixelLoopEvents (img : Image) (incrementer row : Int) (isStartPixel : Bool) :
    Nat → Int → Int → Int → Int → List Event
  | 0, _, _, _, _ => []
  | fuel + 1, column, whiteVerificationCount, blackVerificationCount, toBeChecked =>
    if column < (img.width : Int) ∧ column ≥ 0 then
      Event.read row column ::
      if (img.pixel row column ≠ 0 ∧ isStartPixel = true) ∨
          (img.pixel row column = 0 ∧ isStartPixel = false) then
        if whiteVerificationCount + 1 = NOISE_MAX then []
        else
          getEdgePixelLoopEvents img incrementer row isStartPixel fuel (column + incrementer)
            (whiteVerificationCount + 1) 0 (if toBeChecked = -1 then column else toBeChecked)
      else
        if blackVerificationCount + 1 ≥ NOISE_MAX then
          getEdgePixelLoopEvents img incrementer row isStartPixel fuel (column + incrementer)
            0 (blackVerificationCount + 1) (-1)
        else
          getEdgePixelLoopEvents img incrementer row isStartPixel fuel (column + incrementer)
            whiteVerificationCount (blackVerificationCount + 1) toBeChecked
    else []

/-- The events of `VisionDecision::getEdgePixel`. -/
def getEdgePixelEvents (img : Image) (startingPos incrementer row : Int)
    (isStartPixel : Bool) : List Event :=
  getEdgePixelLoopEvents img incrementer row isStartPixel img.width startingPos 0 0 (-1)

/-- The events of `VisionDecision::getMiddle`: those of its two scans. -/
def getMiddleEvents (img : Image) (startingPos row : Int) (rightSide : Bool) : List Event :=
  let incrementer : Int := if rightSide then -1 else 1
  let startPixel := getEdgePixel img startingPos incrementer row true
  getEdgePixelEvents img startingPos incrementer row true ++
    getEdgePixelEvents img startPixel incrementer row false

/-- The events of the first loop of `getAngleOfLine`. -/
def anchorLoopEvents (img : Image) (startingPos incrementer : Int) (rightSide : Bool) :
    Nat → List Event
  | 0 => []
  | i + 1 =>
    getEdgePixelEvents img startingPos incrementer ((i + 1 : Nat) : Int) true ++
      if getEdgePixel img startingPos incrementer ((i + 1 : Nat) : Int) true ≠ -1 then
        getMiddleEvents img startingPos ((i + 1 : Nat) : Int) rightSide
      else anchorLoopEvents img startingPos incrementer rightSide i

/-- The events of the second loop of `getAngleOfLine`: the reads of `getMiddle` on the
sampled row and, for a valid sample, the division by `yCompared - bottomRow`. -/
def sampleLoopEvents (atan : ℚ → ℚ) (img : Image) (startingPos : Int) (rightSide : Bool)
    (numSamples rolling_average_constant : ℚ) (bottomRow : Int) (x1 : ℚ) :
    Nat → ℚ → ℚ → ℚ → List Event
  | 0, _, _, _ => []
  | fuel + 1, division, currentAngle, validSamples =>
    if division < numSamples ∧ (bottomRow : ℚ) - division > 0 then
      let yCompared : ℚ := (bottomRow : ℚ) - division
      let xCompared : ℚ := (getMiddle img startingPos (truncToInt yCompared) rightSide : ℚ)
      getMiddleEvents img startingPos (truncToInt yCompared) rightSide ++
      if xCompared ≠ -1 ∧ x1 ≠ -1 then
        let foundSlope : ℚ := -(xCompared - x1) / (yCompared - (bottomRow : ℚ))
        let foundAngle : ℚ := atan foundSlope
        Event.slope (yCompared - (bottomRow : ℚ)) ::
        if |currentAngle - foundAngle| * 180 / M_PI < 90 then
          sampleLoopEvents atan img startingPos rightSide numSamples rolling_average_constant
            bottomRow x1 fuel (division + 1)
            (rolling_average_constant * foundAngle +
              (1 - rolling_average_constant) * currentAngle)
            (validSamples + 1)
        else
          sampleLoopEvents atan img startingPos rightSide numSamples rolling_average_constant
            bottomRow x1 fuel (division + 1) currentAngle (validSamples + 1 - 1)
      else
        sampleLoopEvents atan img startingPos rightSide numSamples rolling_average_constant
          bottomRow x1 fuel (division + 1) currentAngle validSamples
    else []

/-- The events of `VisionDecision::getAngleOfLine`. -/
def getAngleOfLineEvents (atan : ℚ → ℚ) (rightSide : Bool) (numSamples : ℚ) (img : Image)
    (rolling_average_constant : ℚ) : List Event :=
  let init := initializeIncrementerPosition rightSide img
  let incrementer := init.1
  let startingPos := init.2
  let anchor := anchorLoop img startingPos incrementer rightSide (img.height - 1)
  let bottomRow := anchor.1
  let x1 := anchor.2
  anchorLoopEvents img startingPos incrementer rightSide (img.height - 1) ++
    sampleLoopEvents atan img startingPos rightSide numSamples rolling_average_constant
      bottomRow x1 bottomRow.toNat 1 0 0

/-- The loop of `getVerticalEdgePixel` again, with the row it returns when it returns
from inside the loop, and `none` when control reaches the end of the function. -/
def getVerticalEdgePixelLoopReturned (img : Image) (column : Int) :
    Nat → Int → Int → Int → Option Int
  | 0, _, _, _ => none
  | row + 1, whiteVerificationCount, blackVerificationCount, toBeChecked =>
    if img.pixel (row : Int) column ≠ 0 then
      if whiteVerificationCount + 1 = NOISE_MAX then
        some (if toBeChecked = -1 then (row : Int) else toBeChecked)
      else
        getVerticalEdgePixelLoopReturned img column row (whiteVerificationCount + 1) 0
          (if toBeChecked = -1 then (row : Int) else toBeChecked)
    else
      if blackVerificationCount + 1 = NOISE_MAX then
        getVerticalEdgePixelLoopReturned img column row 0 (blackVerificationCount + 1) (-1)
      else
        getVerticalEdgePixelLoopReturned img column row whiteVerificationCount
          (blackVerificationCount + 1) toBeChecked

/-- What `getVerticalEdgePixel` returns, when it returns. -/
def getVerticalEdgePixelReturned (img : Image) (column : Int) : Option Int :=
  getVerticalEdgePixelLoopReturned img column img.height 0 0 (-1)

/-- The events of the loop of `getVerticalEdgePixel`: a read per iteration, and the
missing `return` when the loop ends. -/
def getVerticalEdgePixelLoopEvents (img : Image) (column : Int) :
    Nat → Int → Int → Int → List Event
  | 0, _, _, _ => [Event.missingReturn]
  | row + 1, whiteVerificationCount, blackVerificationCount, toBeChecked =>
    Event.read (row : Int) column ::
    if img.pixel (row : Int) column ≠ 0 then
      if whiteVerificationCount + 1 = NOISE_MAX then []
      else
        getVerticalEdgePixelLoopEvents img column row (whiteVerificationCount + 1) 0
          (if toBeChecked = -1 then (row : Int) else toBeChecked)
    else
      if blackVerificationCount + 1 = NOISE_MAX then
        getVerticalEdgePixelLoopEvents img column row 0 (blackVerificationCount + 1) (-1)
      else
        getVerticalEdgePixelLoopEvents img column row whiteVerificationCount
          (blackVerificationCount + 1) toBeChecked

/-- The events of `VisionDecision::getVerticalEdgePixel`. -/
def getVerticalEdgePixelEvents (img : Image) (column : Int) : List Event :=
  getVerticalEdgePixelLoopEvents img column img.height 0 0 (-1)

/-- The events of the first loop of `isPerpendicular`, up to the first scan that
reaches the missing `return`. -/
def leftSearchEvents (img : Image) : Nat → Int → List Event
  | 0, _ => []
  | remaining + 1, i =>
    getVerticalEdgePixelEvents img i ++
      match getVerticalEdgePixelReturned img i with
      | none => []
      | some leftSidePixel =>
        if leftSidePixel ≠ -1 then [] else leftSearchEvents img remaining (i + 1)

/-- The events of the second loop of `isPerpendicular`, up to the first scan that
reaches the missing `return`. -/
def rightSearchEvents (img : Image) : Nat → List Event
  | 0 => []
  | 1 => []
  | j + 2 =>
    getVerticalEdgePixelEvents img ((j + 1 : Nat) : Int) ++
      match getVerticalEdgePixelReturned img ((j + 1 : Nat) : Int) with
      | none => []
      | some rightSidePixel =>
        if rightSidePixel ≠ -1 then [] else rightSearchEvents img (j + 1)

/-- The events of `VisionDecision::isPerpendicular`. -/
def isPerpendicularEvents (img : Image) : List Event :=
  andThen (leftSearchEvents img img.width 0) (rightSearchEvents img img.width)

/-- The events of `VisionDecision::getLeftToRightPixelRatio`: each of its two tests reads
the pixel `(row, column)`. -/
def getLeftToRightPixelRatioEvents (img : Image) : List Event :=
  (List.range img.height).flatMap fun (row : Nat) =>
    (List.range img.width).flatMap fun (column : Nat) =>
      [Event.read (row : Int) (column : Int), Event.read (row : Int) (column : Int)]

/-- The events of `VisionDecision::moveAwayFromLine`. -/
def moveAwayFromLineEvents (img : Image) : List Event :=
  getLeftToRightPixelRatioEvents img

/-- The events of the first loop nest of `getDesiredAngle`, which counts the white
pixels. -/
def whiteCountEvents (img : Image) : List Event :=
  (List.range img.height).flatMap fun (row : Nat) =>
    (List.range img.width).map fun (column : Nat) => Event.read (row : Int) (column : Int)

/-- The events of `VisionDecision::getDesiredAngle`, in the order of its body, up to the
first scan of `isPerpendicular` that reaches the missing `return`. -/
def getDesiredAngleEvents (atan : ℚ → ℚ) (numSamples : ℚ) (img : Image)
    (rolling_average_constant percent_of_image_sampled percent_of_samples_needed
      move_away_threshold percent_of_white_needed : ℚ) : List Event :=
  let sel := selectPair atan numSamples img rolling_average_constant
    percent_of_image_sampled percent_of_samples_needed
  let num_of_white_needed : ℚ :=
    ((img.height * img.width : Nat) : ℚ) * percent_of_white_needed
  andThen
    (whiteCountEvents img ++
      getAngleOfLineEvents atan false numSamples img rolling_average_constant ++
      getAngleOfLineEvents atan true numSamples img rolling_average_constant ++
      (if ((|sel.1| : Int) : ℚ) ≤ move_away_threshold then moveAwayFromLineEvents img
        else []) ++
      isPerpendicularEvents img)
    (if (whiteCount img : ℚ) < num_of_white_needed then moveAwayFromLineEvents img else [])

/-- Every event of the list is safe, the missing `return` apart. -/
def AllSafe (img : Image) (events : List Event) : Prop :=
  ∀ e ∈ events, e = Event.missingReturn ∨ e.safe img

/-- The unit roundoff of binary64, `2^-53`. -/
def unitRoundoff : ℚ := 1 / 2 ^ 53

/-- The exact result is zero or in the range of the normal binary64 numbers, where `fl`
is the rounding the hardware performs. -/
def Normal64 (x : ℚ) : Prop :=
  x = 0 ∨ ((2 : ℚ) ^ (-1022 : Int) ≤ |x| ∧ |x| ≤ (2 : ℚ) ^ (1023 : Int))

/-- The exact results that `getConfidence64` rounds are zero or in the normal range of
binary64: the product `height * percent_of_samples_needed`, the product by `100` and the
quotient by `samples_needed`. -/
def ConfidenceNormal (img : Image) (percent_of_samples_needed valid_samples : ℚ) : Prop :=
  Normal64 ((img.height : ℚ) * percent_of_samples_needed) ∧
  Normal64 (min valid_samples (fl ((img.height : ℚ) * percent_of_samples_needed)) * 100) ∧
  Normal64 (fl (min valid_samples (fl ((img.height : ℚ) * percent_of_samples_needed)) * 100) /
    fl ((img.height : ℚ) * percent_of_samples_needed))

/-- The exact results that `angularZ64` rounds are zero or in the normal range of
binary64: the square, the quotient by `10000`, the product by the multiplier, the
product by the cap and the quotient by `fabs(angular.z)`. -/
def AngularNormal (angular_velocity_multiplier angular_velocity_cap : ℚ)
    (relativeAngle : Int) : Prop :=
  Normal64 ((relativeAngle : ℚ) ^ 2) ∧
  Normal64 (fl ((relativeAngle : ℚ) ^ 2) / 10000) ∧
  Normal64 (-angular_velocity_multiplier * getDesiredAngularSpeed64 (relativeAngle : ℚ)) ∧
  Normal64 (angular_velocity_cap *
    fl (-angular_velocity_multiplier * getDesiredAngularSpeed64 (relativeAngle : ℚ))) ∧
  Normal64 (fl (angular_velocity_cap *
      fl (-angular_velocity_multiplier * getDesiredAngularSpeed64 (relativeAngle : ℚ))) /
    |fl (-angular_velocity_multiplier * getDesiredAngularSpeed64 (relativeAngle : ℚ))|)

/-- The binary64 number nearest to `0.1`, `0x1.999999999999ap-4`. -/
def tenth64 : ℚ := 3602879701896397 / 36028797018963968

/-- An image of twenty-nine rows. -/
def tallImage : Image := rowsImage 29 (bandRow 10 10 10)

/-! ## DecisionAggregator: selection and vetoes -/

/-- The two values of `moveAwayFromLine`. -/
theorem moveAwayFromLine_cases (img : Image) :
    moveAwayFromLine img = 45 ∨ moveAwayFromLine img = -45 := by
  unfold moveAwayFromLine
  split <;> simp

/-- The selection of `getDesiredAngle`, in terms of the sampled angles and confidences. -/
theorem selectPair_eq (atan : ℚ → ℚ) (numSamples : ℚ) (img : Image)
    (rolling_average_constant percent_of_image_sampled percent_of_samples_needed : ℚ) :
    selectPair atan numSamples img rolling_average_constant percent_of_image_sampled
        percent_of_samples_needed =
      if dgt (sampledConfidence atan true numSamples img rolling_average_constant
            percent_of_image_sampled percent_of_samples_needed)
          (sampledConfidence atan false numSamples img rolling_average_constant
            percent_of_image_sampled percent_of_samples_needed) = true then
        (sampledAngle atan true numSamples img rolling_average_constant
            percent_of_samples_needed,
          sampledConfidence atan true numSamples img rolling_average_constant
            percent_of_image_sampled percent_of_samples_needed)
      else
        (sampledAngle atan false numSamples img rolling_average_constant
            percent_of_samples_needed,
          sampledConfidence atan false numSamples img rolling_average_constant
            percent_of_image_sampled percent_of_samples_needed) := rfl

/-- The angle `getDesiredAngle` returns: a function of the selection, the threshold and
the coverage guard. -/
theorem getDesiredAngle_angle (atan : ℚ → ℚ) (ind : Indeterminate) (numSamples : ℚ)
    (img : Image) (rolling_average_constant percent_of_image_sampled
      percent_of_samples_needed move_away_threshold percent_of_white_needed : ℚ) :
    (getDesiredAngle atan ind numSamples img rolling_average_constant
        percent_of_image_sampled percent_of_samples_needed move_away_threshold
        percent_of_white_needed).1 =
      if hasEnoughLine img percent_of_white_needed then
        if (((|(selectPair atan numSamples img rolling_average_constant
            percent_of_image_sampled percent_of_samples_needed).1| : Int)) : ℚ) ≤
            move_away_threshold then moveAwayFromLine img
        else (selectPair atan numSamples img rolling_average_constant
          percent_of_image_sampled percent_of_samples_needed).1
      else moveAwayFromLine img := by
  unfold getDesiredAngle hasEnoughLine
  dsimp only
  by_cases h : (whiteCount img : ℚ) <
      ((img.height * img.width : Nat) : ℚ) * percent_of_white_needed
  · rw [if_pos h, if_neg (not_not.mpr h)]
  · rw [if_neg h, if_pos h]

/-- The confidence `getDesiredAngle` stores. -/
theorem getDesiredAngle_confidence (atan : ℚ → ℚ) (ind : Indeterminate) (numSamples : ℚ)
    (img : Image) (rolling_average_constant percent_of_image_sampled
      percent_of_samples_needed move_away_threshold percent_of_white_needed : ℚ) :
    (getDesiredAngle atan ind numSamples img rolling_average_constant
        percent_of_image_sampled percent_of_samples_needed move_away_threshold
        percent_of_white_needed).2 =
      if isPerpendicular ind img = true then some 0
      else (selectPair atan numSamples img rolling_average_constant
        percent_of_image_sampled percent_of_samples_needed).2 := rfl

/-- C1: before the vetoes `getDesiredAngle` holds the right-to-left pair exactly when
`rightConfidence > leftConfidence` and the left-to-right pair otherwise (ties favour
left-to-right); when the right confidence is not greater, `|angleL|` exceeds
`move_away_threshold` and the coverage guard passes, the returned angle is `angleL`. -/
theorem getDesiredAngle_selection (atan : ℚ → ℚ) (ind : Indeterminate) (numSamples : ℚ)
    (img : Image) (rolling_average_constant percent_of_image_sampled
      percent_of_samples_needed move_away_threshold percent_of_white_needed : ℚ) :
    (selectPair atan numSamples img rolling_average_constant percent_of_image_sampled
        percent_of_samples_needed =
      if dgt (sampledConfidence atan true numSamples img rolling_average_constant
            percent_of_image_sampled percent_of_samples_needed)
          (sampledConfidence atan false numSamples img rolling_average_constant
            percent_of_image_sampled percent_of_samples_needed) = true then
        (sampledAngle atan true numSamples img rolling_average_constant
            percent_of_samples_needed,
          sampledConfidence atan true numSamples img rolling_average_constant
            percent_of_image_sampled percent_of_samples_needed)
      else
        (sampledAngle atan false numSamples img rolling_average_constant
            percent_of_samples_needed,
          sampledConfidence atan false numSamples img rolling_average_constant
            percent_of_image_sampled percent_of_samples_needed)) ∧
    (dgt (sampledConfidence atan true numSamples img rolling_average_constant
            percent_of_image_sampled percent_of_samples_needed)
          (sampledConfidence atan false numSamples img rolling_average_constant
            percent_of_image_sampled percent_of_samples_needed) = false →
      move_away_threshold < ((|sampledAngle atan false numSamples img
        rolling_average_constant percent_of_samples_needed| : Int) : ℚ) →
      hasEnoughLine img percent_of_white_needed →
      (getDesiredAngle atan ind numSamples img rolling_average_constant
        percent_of_image_sampled percent_of_samples_needed move_away_threshold
        percent_of_white_needed).1 =
        sampledAngle atan false numSamples img rolling_average_constant
          percent_of_samples_needed) := by
  refine ⟨selectPair_eq _ _ _ _ _ _, ?_⟩
  intro hgt hthr hcov
  rw [getDesiredAngle_angle, selectPair_eq, if_pos hcov]
  simp only [hgt, Bool.false_eq_true, if_false]
  rw [if_neg (not_le.mpr hthr)]

/-- C2: when the selected angle satisfies `|selectedAngle| <= move_away_threshold`,
`getDesiredAngle` returns `moveAwayFromLine`; hence every returned angle is `45`, `-45`
or of magnitude strictly greater than `move_away_threshold`. -/
theorem getDesiredAngle_move_away (atan : ℚ → ℚ) (ind : Indeterminate) (numSamples : ℚ)
    (img : Image) (rolling_average_constant percent_of_image_sampled
      percent_of_samples_needed move_away_threshold percent_of_white_needed : ℚ) :
    ((((|(selectPair atan numSamples img rolling_average_constant
          percent_of_image_sampled percent_of_samples_needed).1| : Int)) : ℚ) ≤
        move_away_threshold →
      (getDesiredAngle atan ind numSamples img rolling_average_constant
        percent_of_image_sampled percent_of_samples_needed move_away_threshold
        percent_of_white_needed).1 = moveAwayFromLine img) ∧
    ((getDesiredAngle atan ind numSamples img rolling_average_constant
        percent_of_image_sampled percent_of_samples_needed move_away_threshold
        percent_of_white_needed).1 = 45 ∨
      (getDesiredAngle atan ind numSamples img rolling_average_constant
        percent_of_image_sampled percent_of_samples_needed move_away_threshold
        percent_of_white_needed).1 = -45 ∨
      move_away_threshold < ((|(getDesiredAngle atan ind numSamples img
        rolling_average_constant percent_of_image_sampled percent_of_samples_needed
        move_away_threshold percent_of_white_needed).1| : Int) : ℚ)) := by
  rw [getDesiredAngle_angle]
  constructor
  · intro h
    rw [if_pos h]
    simp
  · by_cases hcov : hasEnoughLine img percent_of_white_needed
    · rw [if_pos hcov]
      by_cases h : (((|(selectPair atan numSamples img rolling_average_constant
          percent_of_image_sampled percent_of_samples_needed).1| : Int)) : ℚ) ≤
          move_away_threshold
      · rw [if_pos h]
        rcases moveAwayFromLine_cases img with h45 | h45
        · exact Or.inl h45
        · exact Or.inr (Or.inl h45)
      · rw [if_neg h]
        exact Or.inr (Or.inr (not_le.mp h))
    · rw [if_neg hcov]
      rcases moveAwayFromLine_cases img with h45 | h45
      · exact Or.inl h45
      · exact Or.inr (Or.inl h45)

set_option maxRecDepth 100000 in
/-- The selection at `slantImage` under the default configuration: the confidences tie, the
left-to-right angle `27` exceeds the threshold and is returned. -/
theorem getDesiredAngle_selection_witness :
    (getDesiredAngle atanModel notFoundRun 4 slantImage (1 / 4) (1 / 4) (1 / 8) 25
        (1 / 20)).1 = sampledAngle atanModel false 4 slantImage (1 / 4) (1 / 8) ∧
      sampledAngle atanModel false 4 slantImage (1 / 4) (1 / 8) = 27 :=
  ⟨(getDesiredAngle_selection atanModel notFoundRun 4 slantImage (1 / 4) (1 / 4) (1 / 8) 25
      (1 / 20)).2 (by decide!) (by decide!) (by decide!), by decide!⟩

set_option maxRecDepth 100000 in
/-- The move-away guard at `bandImage`: the selected angle is `0`. -/
theorem getDesiredAngle_move_away_witness :
    (getDesiredAngle atanModel notFoundRun 3 bandImage (1 / 4) (1 / 4) (1 / 8) 25
        (1 / 20)).1 = moveAwayFromLine bandImage :=
  (getDesiredAngle_move_away atanModel notFoundRun 3 bandImage (1 / 4) (1 / 4) (1 / 8) 25
    (1 / 20)).1 (by decide!)

theorem pixel_eq_zero_of_allBackground {img : Image} (h : allBackground img)
    (row column : Int) : img.pixel row column = 0 := by
  unfold Image.pixel
  rw [List.getD_eq_getElem?_getD]
  cases hx : img.data[(row * (img.width : Int) + column).toNat]? with
  | none => rfl
  | some x => exact h x (List.getElem?_mem hx)

theorem countPixels_eq_zero_of_allBackground {img : Image} (h : allBackground img)
    (p : Nat → Bool) : countPixels img p = 0 := by
  unfold countPixels
  have hrow : ∀ row : Nat, ((List.range img.width).filter fun (column : Nat) =>
      decide (img.pixel (row : Int) (column : Int) ≠ 0) && p column) = [] := by
    intro row
    rw [List.filter_eq_nil_iff]
    intro column _
    simp [pixel_eq_zero_of_allBackground h]
  have hfun : (fun (row : Nat) => ((List.range img.width).filter fun (column : Nat) =>
      decide (img.pixel (row : Int) (column : Int) ≠ 0) && p column).length) =
      fun _ => 0 := by
    funext row
    rw [hrow row]
    rfl
  rw [hfun]
  simp

/-- C3: when the number of non-zero pixels is strictly below
`height * width * percent_of_white_needed`, `getDesiredAngle` returns
`moveAwayFromLine`, which is `45` or `-45`, whatever the sampled angles; in particular
an all-background image of positive dimensions with a positive
`percent_of_white_needed` yields that angle. -/
theorem getDesiredAngle_coverage_veto (atan : ℚ → ℚ) (ind : Indeterminate)
    (numSamples : ℚ) (img : Image) (rolling_average_constant percent_of_image_sampled
      percent_of_samples_needed move_away_threshold percent_of_white_needed : ℚ) :
    ((whiteCount img : ℚ) <
        ((img.height * img.width : Nat) : ℚ) * percent_of_white_needed →
      (getDesiredAngle atan ind numSamples img rolling_average_constant
        percent_of_image_sampled percent_of_samples_needed move_away_threshold
        percent_of_white_needed).1 = moveAwayFromLine img ∧
      (moveAwayFromLine img = 45 ∨ moveAwayFromLine img = -45)) ∧
    (0 < img.height → 0 < img.width → allBackground img → 0 < percent_of_white_needed →
      (getDesiredAngle atan ind numSamples img rolling_average_constant
        percent_of_image_sampled percent_of_samples_needed move_away_threshold
        percent_of_white_needed).1 = moveAwayFromLine img ∧
      (moveAwayFromLine img = 45 ∨ moveAwayFromLine img = -45)) := by
  have key : (whiteCount img : ℚ) <
        ((img.height * img.width : Nat) : ℚ) * percent_of_white_needed →
      (getDesiredAngle atan ind numSamples img rolling_average_constant
        percent_of_image_sampled percent_of_samples_needed move_away_threshold
        percent_of_white_needed).1 = moveAwayFromLine img ∧
      (moveAwayFromLine img = 45 ∨ moveAwayFromLine img = -45) := by
    intro h
    refine ⟨?_, moveAwayFromLine_cases img⟩
    rw [getDesiredAngle_angle, if_neg]
    exact fun hc => hc h
  refine ⟨key, ?_⟩
  intro hh hw hbg hp
  apply key
  have h0 : whiteCount img = 0 := countPixels_eq_zero_of_allBackground hbg _
  rw [h0]
  have hpos : (0 : ℚ) < ((img.height * img.width : Nat) : ℚ) := by
    exact_mod_cast Nat.mul_pos hh hw
  simpa using mul_pos hpos hp

/-- The coverage veto at `blankImage`. -/
theorem getDesiredAngle_coverage_veto_witness :
    (getDesiredAngle atanModel notFoundRun 1 blankImage (1 / 4) (1 / 4) (1 / 8) 25
        (1 / 20)).1 = moveAwayFromLine blankImage ∧
      (moveAwayFromLine blankImage = 45 ∨ moveAwayFromLine blankImage = -45) :=
  (getDesiredAngle_coverage_veto atanModel notFoundRun 1 blankImage (1 / 4) (1 / 4) (1 / 8)
    25 (1 / 20)).2 (by decide) (by decide) (by decide) (by norm_num)

/-- The value of `getConfidence` is NaN exactly when `samples_needed` is `0`. -/
theorem getConfidence_eq_none_iff (img : Image) (percent_of_image_sampled
    percent_of_samples_needed valid_samples : ℚ) :
    getConfidence img percent_of_image_sampled percent_of_samples_needed valid_samples =
      none ↔ (img.height : ℚ) * percent_of_samples_needed = 0 := by
  unfold getConfidence mapRange
  simp only [sub_zero]
  split_ifs with h <;> simp_all

/-- For two confidences that are NaN together, the selection keeps their maximum. -/
theorem select_eq_fmax {a b : Option ℚ} (h : a = none ↔ b = none) :
    (if dgt b a = true then b else a) = fmax a b := by
  cases a with
  | none =>
    have hb : b = none := h.mp rfl
    subst hb
    rfl
  | some x =>
    cases b with
    | none => simp at h
    | some y =>
      simp only [dgt, fmax, decide_eq_true_eq]
      by_cases hxy : y > x
      · rw [if_pos hxy, max_eq_right (le_of_lt hxy)]
      · rw [if_neg hxy, max_eq_left (not_lt.mp hxy)]

/-- C4: when `isPerpendicular` holds `getDesiredAngle` outputs confidence exactly `0`,
and otherwise the maximum of the two confidences; the returned angle is a function of
the selection, the threshold and the coverage guard alone, so it is the same whatever
`isPerpendicular` answers. -/
theorem getDesiredAngle_perpendicular_veto (atan : ℚ → ℚ) (ind ind' : Indeterminate)
    (numSamples : ℚ) (img : Image) (rolling_average_constant percent_of_image_sampled
      percent_of_samples_needed move_away_threshold percent_of_white_needed : ℚ) :
    (isPerpendicular ind img = true →
      (getDesiredAngle atan ind numSamples img rolling_average_constant
        percent_of_image_sampled percent_of_samples_needed move_away_threshold
        percent_of_white_needed).2 = some 0) ∧
    (isPerpendicular ind img = false →
      (getDesiredAngle atan ind numSamples img rolling_average_constant
        percent_of_image_sampled percent_of_samples_needed move_away_threshold
        percent_of_white_needed).2 =
        fmax (sampledConfidence atan false numSamples img rolling_average_constant
            percent_of_image_sampled percent_of_samples_needed)
          (sampledConfidence atan true numSamples img rolling_average_constant
            percent_of_image_sampled percent_of_samples_needed)) ∧
    (getDesiredAngle atan ind numSamples img rolling_average_constant
        percent_of_image_sampled percent_of_samples_needed move_away_threshold
        percent_of_white_needed).1 =
      (getDesiredAngle atan ind' numSamples img rolling_average_constant
        percent_of_image_sampled percent_of_samples_needed move_away_threshold
        percent_of_white_needed).1 := by
  refine ⟨?_, ?_, ?_⟩
  · intro h
    rw [getDesiredAngle_confidence, if_pos h]
  · intro h
    rw [getDesiredAngle_confidence, if_neg (by simp [h]), selectPair_eq]
    rw [← select_eq_fmax]
    · split <;> rfl
    · unfold sampledConfidence
      rw [getConfidence_eq_none_iff, getConfidence_eq_none_iff]
  · rw [getDesiredAngle_angle, getDesiredAngle_angle]

/-- The perpendicular veto at `bandImage`, whose band is read as a stop line. -/
theorem getDesiredAngle_perpendicular_veto_witness :
    (getDesiredAngle atanModel notFoundRun 3 bandImage (1 / 4) (1 / 4) (1 / 8) 25
        (1 / 20)).2 = some 0 :=
  (getDesiredAngle_perpendicular_veto atanModel notFoundRun notFoundRun 3 bandImage (1 / 4)
    (1 / 4) (1 / 8) 25 (1 / 20)).1 (by decide)

/-! ## SafetyFallback -/

/-- C6 (as amended): `moveAwayFromLine` returns `45` when the left part of the image
(columns `<= width / 2`) holds strictly more line pixels than the right part (columns
`> width / 2`), and `-45` otherwise. -/
theorem moveAwayFromLine_eq (img : Image) :
    moveAwayFromLine img = if rightCount img < leftCount img then 45 else -45 := by
  unfold moveAwayFromLine getLeftToRightPixelRatio
  by_cases h : rightCount img < leftCount img
  · rw [if_pos h, if_pos (by omega)]
  · rw [if_neg h, if_neg (by omega)]

/-- C6 fails as stated: the right half holds strictly more line pixels than the left
half, and the result is `-45`. -/
theorem moveAwayFromLine_right_heavy :
    leftCount rightDotImage < rightCount rightDotImage ∧
      moveAwayFromLine rightDotImage = -45 := by
  decide

/-! ## EdgeScanner -/

theorem getEdgePixelLoop_out (img : Image) (incrementer row : Int) (isStartPixel : Bool)
    (fuel : Nat) (column white black toBeChecked : Int) (h : ¬ inBounds img column) :
    getEdgePixelLoop img incrementer row isStartPixel fuel column white black toBeChecked
      = -1 := by
  cases fuel with
  | zero => rfl
  | succ fuel =>
    unfold getEdgePixelLoop
    rw [if_neg]
    intro hc
    exact h ⟨hc.2, hc.1⟩

theorem getEdgePixelLoop_match (img : Image) (incrementer row : Int) (isStartPixel : Bool)
    (fuel : Nat) (column white black toBeChecked : Int) (hb : inBounds img column)
    (hm : matching img row isStartPixel column) :
    getEdgePixelLoop img incrementer row isStartPixel (fuel + 1) column white black
        toBeChecked =
      if white + 1 = NOISE_MAX then (if toBeChecked = -1 then column else toBeChecked)
      else getEdgePixelLoop img incrementer row isStartPixel fuel (column + incrementer)
        (white + 1) 0 (if toBeChecked = -1 then column else toBeChecked) := by
  conv_lhs => unfold getEdgePixelLoop
  unfold matching at hm
  rw [if_pos ⟨hb.2, hb.1⟩, if_pos hm]

theorem getEdgePixelLoop_nomatch (img : Image) (incrementer row : Int)
    (isStartPixel : Bool) (fuel : Nat) (column white black toBeChecked : Int)
    (hb : inBounds img column) (hm : ¬ matching img row isStartPixel column) :
    getEdgePixelLoop img incrementer row isStartPixel (fuel + 1) column white black
        toBeChecked =
      if black + 1 ≥ NOISE_MAX then
        getEdgePixelLoop img incrementer row isStartPixel fuel (column + incrementer)
          0 (black + 1) (-1)
      else
        getEdgePixelLoop img incrementer row isStartPixel fuel (column + incrementer)
          white (black + 1) toBeChecked := by
  conv_lhs => unfold getEdgePixelLoop
  unfold matching at hm
  rw [if_pos ⟨hb.2, hb.1⟩, if_neg hm]

/-- From a state with a candidate count of `white`, `n = NOISE_MAX - white` matching
pixels in a row confirm the candidate. -/
theorem getEdgePixelLoop_confirm (img : Image) (incrementer row : Int)
    (isStartPixel : Bool) :
    ∀ (n fuel : Nat) (column white black toBeChecked : Int),
      white + (n : Int) = NOISE_MAX → 1 ≤ n → n ≤ fuel →
      (∀ j : Nat, j < n → inBounds img (column + (j : Int) * incrementer) ∧
        matching img row isStartPixel (column + (j : Int) * incrementer)) →
      getEdgePixelLoop img incrementer row isStartPixel fuel column white black
        toBeChecked = if toBeChecked = -1 then column else toBeChecked := by
  intro n
  induction n with
  | zero => intro fuel column white black toBeChecked _ h1; omega
  | succ n ih =>
    intro fuel column white black toBeChecked hw _ hf hrun
    obtain ⟨fuel, rfl⟩ : ∃ f, fuel = f + 1 := ⟨fuel - 1, by omega⟩
    have h0 := hrun 0 (by omega)
    simp only [Nat.cast_zero, zero_mul, add_zero] at h0
    rw [getEdgePixelLoop_match _ _ _ _ _ _ _ _ _ h0.1 h0.2]
    by_cases hlast : white + 1 = NOISE_MAX
    · rw [if_pos hlast]
    · rw [if_neg hlast]
      have hn : 1 ≤ n := by
        rcases Nat.eq_zero_or_pos n with h | h
        · subst h
          simp at hw
          exact absurd hw hlast
        · exact h
      rw [ih fuel (column + incrementer) (white + 1) 0
        (if toBeChecked = -1 then column else toBeChecked) (by push_cast at hw; omega) hn
        (by omega)]
      · have hcol : column ≠ -1 := by
          have := h0.1.1
          omega
        by_cases ht : toBeChecked = -1
        · simp [ht, hcol]
        · simp [ht]
      · intro j hj
        have := hrun (j + 1) (by omega)
        have he : column + incrementer + (j : Int) * incrementer =
            column + ((j + 1 : Nat) : Int) * incrementer := by
          push_cast
          ring
        rw [he]
        exact this

/-- A scan that meets `k` non-matching pixels and then `NOISE_MAX` matching ones
returns the first of the matching ones. -/
theorem getEdgePixelLoop_clean (img : Image) (incrementer row : Int)
    (isStartPixel : Bool) :
    ∀ (k fuel : Nat) (column black : Int),
      k + 10 ≤ fuel →
      (∀ j : Nat, j < k → inBounds img (column + (j : Int) * incrementer) ∧
        ¬ matching img row isStartPixel (column + (j : Int) * incrementer)) →
      (∀ j : Nat, j < 10 → inBounds img (column + ((k + j : Nat) : Int) * incrementer) ∧
        matching img row isStartPixel (column + ((k + j : Nat) : Int) * incrementer)) →
      getEdgePixelLoop img incrementer row isStartPixel fuel column 0 black (-1) =
        column + (k : Int) * incrementer := by
  intro k
  induction k with
  | zero =>
    intro fuel column black hf _ hrun
    rw [getEdgePixelLoop_confirm img incrementer row isStartPixel 10 fuel column 0 black
      (-1) (by simp [NOISE_MAX]) (by omega) (by omega)]
    · simp
    · intro j hj
      simpa using hrun j hj
  | succ k ih =>
    intro fuel column black hf hskip hrun
    obtain ⟨fuel, rfl⟩ : ∃ f, fuel = f + 1 := ⟨fuel - 1, by omega⟩
    have h0 := hskip 0 (by omega)
    simp only [Nat.cast_zero, zero_mul, add_zero] at h0
    rw [getEdgePixelLoop_nomatch _ _ _ _ _ _ _ _ _ h0.1 h0.2]
    have hrec : getEdgePixelLoop img incrementer row isStartPixel fuel
        (column + incrementer) 0 (black + 1) (-1) =
        column + ((k + 1 : Nat) : Int) * incrementer := by
      rw [ih fuel (column + incrementer) (black + 1) (by omega)]
      · push_cast
        ring
      · intro j hj
        have := hskip (j + 1) (by omega)
        have he : column + incrementer + (j : Int) * incrementer =
            column + ((j + 1 : Nat) : Int) * incrementer := by
          push_cast
          ring
        rw [he]
        exact this
      · intro j hj
        have := hrun j hj
        have he : column + incrementer + ((k + j : Nat) : Int) * incrementer =
            column + ((k + 1 + j : Nat) : Int) * incrementer := by
          push_cast
          ring
        rw [he]
        exact this
    split <;> exact hrec

/-- A scan that meets no matching pixel returns `-1`. -/
theorem getEdgePixelLoop_none (img : Image) (incrementer row : Int)
    (isStartPixel : Bool) :
    ∀ (fuel : Nat) (column white black toBeChecked : Int),
      (∀ j : Nat, inBounds img (column + (j : Int) * incrementer) →
        ¬ matching img row isStartPixel (column + (j : Int) * incrementer)) →
      getEdgePixelLoop img incrementer row isStartPixel fuel column white black
        toBeChecked = -1 := by
  intro fuel
  induction fuel with
  | zero => intros; rfl
  | succ fuel ih =>
    intro column white black toBeChecked hno
    by_cases hb : inBounds img column
    · have h0 := hno 0 (by simpa using hb)
      simp only [Nat.cast_zero, zero_mul, add_zero] at h0
      rw [getEdgePixelLoop_nomatch _ _ _ _ _ _ _ _ _ hb h0]
      have hrec : ∀ w b t, getEdgePixelLoop img incrementer row isStartPixel fuel
          (column + incrementer) w b t = -1 := by
        intro w b t
        apply ih
        intro j hj
        have he : column + incrementer + (j : Int) * incrementer =
            column + ((j + 1 : Nat) : Int) * incrementer := by
          push_cast
          ring
        rw [he] at hj ⊢
        exact hno (j + 1) hj
      split <;> exact hrec _ _ _
    · exact getEdgePixelLoop_out _ _ _ _ _ _ _ _ _ hb

/-- With an incrementer of `1` or `-1`, `getEdgePixelLoop` gives the same result for
any two iteration bounds that cover the columns left before the border. -/
theorem getEdgePixelLoop_fuel_irrelevant (img : Image) (incrementer row : Int)
    (isStartPixel : Bool) (hinc : incrementer = 1 ∨ incrementer = -1) :
    ∀ (fuel fuel' : Nat) (column white black toBeChecked : Int),
      (inBounds img column →
        (if incrementer = 1 then (img.width : Int) - column else column + 1) ≤ fuel) →
      (inBounds img column →
        (if incrementer = 1 then (img.width : Int) - column else column + 1) ≤ fuel') →
      getEdgePixelLoop img incrementer row isStartPixel fuel column white black toBeChecked =
        getEdgePixelLoop img incrementer row isStartPixel fuel' column white black
          toBeChecked := by
  intro fuel
  induction fuel with
  | zero =>
    intro fuel' column white black toBeChecked h _
    have hb : ¬ inBounds img column := by
      intro hb
      have := h hb
      have h1 := hb.1
      have h2 := hb.2
      rcases hinc with hi | hi <;> subst hi <;> simp at this <;> omega
    rw [getEdgePixelLoop_out _ _ _ _ _ _ _ _ _ hb, getEdgePixelLoop_out _ _ _ _ _ _ _ _ _ hb]
  | succ fuel ih =>
    intro fuel' column white black toBeChecked h h'
    by_cases hb : inBounds img column
    · have hf := h hb
      have hf' := h' hb
      have h1 := hb.1
      have h2 := hb.2
      obtain ⟨f', rfl⟩ : ∃ f, fuel' = f + 1 :=
        ⟨fuel' - 1, by rcases hinc with hi | hi <;> subst hi <;> simp at hf' <;> omega⟩
      have key : ∀ w b t,
          getEdgePixelLoop img incrementer row isStartPixel fuel (column + incrementer)
            w b t =
          getEdgePixelLoop img incrementer row isStartPixel f' (column + incrementer)
            w b t := by
        intro w b t
        apply ih
        · intro _
          rcases hinc with hi | hi <;> subst hi <;> simp at hf ⊢ <;> omega
        · intro _
          rcases hinc with hi | hi <;> subst hi <;> simp at hf' ⊢ <;> omega
      by_cases hm : matching img row isStartPixel column
      · rw [getEdgePixelLoop_match _ _ _ _ _ _ _ _ _ hb hm,
          getEdgePixelLoop_match _ _ _ _ _ _ _ _ _ hb hm, key]
      · rw [getEdgePixelLoop_nomatch _ _ _ _ _ _ _ _ _ hb hm,
          getEdgePixelLoop_nomatch _ _ _ _ _ _ _ _ _ hb hm, key, key]
    · rw [getEdgePixelLoop_out _ _ _ _ _ _ _ _ _ hb,
        getEdgePixelLoop_out _ _ _ _ _ _ _ _ _ hb]

/-- The bound `width` on the iterations of `getEdgePixel` is never what ends the loop:
a larger bound gives the same result. -/
theorem getEdgePixelLoop_fuel (img : Image) (startingPos incrementer row : Int)
    (isStartPixel : Bool) (hinc : incrementer = 1 ∨ incrementer = -1) (extra : Nat) :
    getEdgePixelLoop img incrementer row isStartPixel (img.width + extra) startingPos
      0 0 (-1) = getEdgePixel img startingPos incrementer row isStartPixel := by
  unfold getEdgePixel
  apply getEdgePixelLoop_fuel_irrelevant img incrementer row isStartPixel hinc
  · intro hb
    have h1 := hb.1
    have h2 := hb.2
    rcases hinc with hi | hi <;> subst hi <;> simp <;> omega
  · intro hb
    have h1 := hb.1
    have h2 := hb.2
    rcases hinc with hi | hi <;> subst hi <;> simp <;> omega

/-- C9: starting in bounds, with an incrementer of `1` or `-1`, a scan that meets only
non-matching pixels before column `c = startingPos + k * incrementer` and then ten
matching pixels in bounds from `c` on returns exactly `c`; a scan that meets no
matching pixel up to the end of the row, or that starts out of bounds, returns `-1`. -/
theorem getEdgePixel_clean (img : Image) (startingPos incrementer row : Int)
    (isStartPixel : Bool) (k : Nat) (hinc : incrementer = 1 ∨ incrementer = -1) :
    (inBounds img startingPos →
      (∀ j : Nat, j < k →
        ¬ matching img row isStartPixel (startingPos + (j : Int) * incrementer)) →
      (∀ j : Nat, j < 10 →
        inBounds img (startingPos + ((k + j : Nat) : Int) * incrementer) ∧
        matching img row isStartPixel
          (startingPos + ((k + j : Nat) : Int) * incrementer)) →
      getEdgePixel img startingPos incrementer row isStartPixel =
        startingPos + (k : Int) * incrementer) ∧
    ((∀ j : Nat, inBounds img (startingPos + (j : Int) * incrementer) →
        ¬ matching img row isStartPixel (startingPos + (j : Int) * incrementer)) →
      getEdgePixel img startingPos incrementer row isStartPixel = -1) ∧
    (¬ inBounds img startingPos →
      getEdgePixel img startingPos incrementer row isStartPixel = -1) := by
  refine ⟨?_, ?_, ?_⟩
  · intro hs hskip hrun
    have hlast := (hrun 9 (by omega)).1
    unfold inBounds at hs hlast
    push_cast at hlast
    apply getEdgePixelLoop_clean img incrementer row isStartPixel k img.width startingPos 0
    · rcases hinc with h | h <;> subst h <;> omega
    · intro j hj
      refine ⟨?_, hskip j hj⟩
      unfold inBounds
      rcases hinc with h | h <;> subst h <;> omega
    · exact hrun
  · intro hno
    exact getEdgePixelLoop_none img incrementer row isStartPixel _ _ _ _ _ hno
  · intro hs
    exact getEdgePixelLoop_out _ _ _ _ _ _ _ _ _ hs

/-- A clean edge: three background pixels, then ten line pixels. -/
theorem getEdgePixel_clean_witness :
    getEdgePixel (rowsImage 1 (bandRow 3 10 2)) 0 1 0 true = 3 := by
  simpa using (getEdgePixel_clean (rowsImage 1 (bandRow 3 10 2)) 0 1 0 true 3
    (Or.inl rfl)).1 (by decide) (by decide) (by decide)

/-- Left-to-right scan of a row whose line pixels are the columns `a ≤ column < a + len`
with `len < NOISE_MAX`: the candidate count never reaches `NOISE_MAX`. -/
theorem getEdgePixelLoop_noise_right (img : Image) (row a len : Int) (hlen : len < 10)
    (hrow : ∀ column, inBounds img column →
      (img.pixel row column ≠ 0 ↔ a ≤ column ∧ column < a + len)) :
    ∀ (fuel : Nat) (column white black toBeChecked : Int),
      0 ≤ white → white < 10 → (column ≤ a → white + len < 10) →
      (a ≤ column → column < a + len → white + (a + len - column) < 10) →
      getEdgePixelLoop img 1 row true fuel column white black toBeChecked = -1 := by
  intro fuel
  induction fuel with
  | zero => intros; rfl
  | succ fuel ih =>
    intro column white black toBeChecked h0 h10 hl hin
    by_cases hb : inBounds img column
    · by_cases hm : matching img row true column
      · have hpix : a ≤ column ∧ column < a + len := by
          rcases hm with h | h
          · exact (hrow column hb).mp h.1
          · simp at h
        rw [getEdgePixelLoop_match _ _ _ _ _ _ _ _ _ hb hm]
        have := hin hpix.1 hpix.2
        rw [if_neg (by simp only [NOISE_MAX]; omega)]
        apply ih <;> intros <;> omega
      · have hpix : ¬ (a ≤ column ∧ column < a + len) := by
          intro h
          exact hm (Or.inl ⟨(hrow column hb).mpr h, rfl⟩)
        rw [getEdgePixelLoop_nomatch _ _ _ _ _ _ _ _ _ hb hm]
        split
        · apply ih <;> intros <;> omega
        · apply ih <;> intros <;> omega
    · exact getEdgePixelLoop_out _ _ _ _ _ _ _ _ _ hb

/-- Right-to-left scan of a row whose line pixels are the columns
`a ≤ column < a + len` with `len < NOISE_MAX`. -/
theorem getEdgePixelLoop_noise_left (img : Image) (row a len : Int) (hlen : len < 10)
    (hrow : ∀ column, inBounds img column →
      (img.pixel row column ≠ 0 ↔ a ≤ column ∧ column < a + len)) :
    ∀ (fuel : Nat) (column white black toBeChecked : Int),
      0 ≤ white → white < 10 → (a + len - 1 ≤ column → white + len < 10) →
      (a ≤ column → column < a + len → white + (column - a + 1) < 10) →
      getEdgePixelLoop img (-1) row true fuel column white black toBeChecked = -1 := by
  intro fuel
  induction fuel with
  | zero => intros; rfl
  | succ fuel ih =>
    intro column white black toBeChecked h0 h10 hl hin
    by_cases hb : inBounds img column
    · by_cases hm : matching img row true column
      · have hpix : a ≤ column ∧ column < a + len := by
          rcases hm with h | h
          · exact (hrow column hb).mp h.1
          · simp at h
        rw [getEdgePixelLoop_match _ _ _ _ _ _ _ _ _ hb hm]
        have := hin hpix.1 hpix.2
        rw [if_neg (by simp only [NOISE_MAX]; omega)]
        apply ih <;> intros <;> omega
      · have hpix : ¬ (a ≤ column ∧ column < a + len) := by
          intro h
          exact hm (Or.inl ⟨(hrow column hb).mpr h, rfl⟩)
        rw [getEdgePixelLoop_nomatch _ _ _ _ _ _ _ _ _ hb hm]
        split
        · apply ih <;> intros <;> omega
        · apply ih <;> intros <;> omega
    · exact getEdgePixelLoop_out _ _ _ _ _ _ _ _ _ hb

/-- C8: in a row whose line pixels form one contiguous run `a ≤ column < a + len` of
fewer than `NOISE_MAX` pixels, every other pixel being background, `getEdgePixel` with
`isStartPixel = true` returns `-1` for every start column and both scan directions. -/
theorem getEdgePixel_noise (img : Image) (row a len startingPos incrementer : Int)
    (hlen : len < NOISE_MAX)
    (hrow : ∀ column, inBounds img column →
      (img.pixel row column ≠ 0 ↔ a ≤ column ∧ column < a + len))
    (hinc : incrementer = 1 ∨ incrementer = -1) :
    getEdgePixel img startingPos incrementer row true = -1 := by
  have hlen' : len < 10 := hlen
  unfold getEdgePixel
  rcases hinc with h | h <;> subst h
  · apply getEdgePixelLoop_noise_right img row a len hlen' hrow <;> intros <;> omega
  · apply getEdgePixelLoop_noise_left img row a len hlen' hrow <;> intros <;> omega

/-- A run of nine line pixels is not an edge. -/
theorem getEdgePixel_noise_witness :
    getEdgePixel (rowsImage 1 (bandRow 5 9 16)) 0 1 0 true = -1 :=
  getEdgePixel_noise (rowsImage 1 (bandRow 5 9 16)) 0 5 9 0 1 (by decide)
    (by
      intro column hb
      have h1 := hb.1
      have h2 : column < 30 := hb.2
      interval_cases column <;> decide)
    (Or.inl rfl)

theorem countMatching_le (img : Image) (incrementer row : Int) (isStartPixel : Bool)
    (c : Int) (n : Nat) : countMatching img incrementer row isStartPixel c n ≤ n := by
  induction n with
  | zero => exact Nat.le_refl 0
  | succ n ih =>
    unfold countMatching
    split <;> omega

theorem Scanned.init {img : Image} {incrementer row : Int} {isStartPixel : Bool}
    {c : Int} (hb : inBounds img c) (hm : matching img row isStartPixel c) :
    Scanned img incrementer row isStartPixel c 1 1 0 where
  bounds := by
    intro j hj
    have : j = 0 := by omega
    subst this
    simpa using hb
  first := hm
  count := by simp [countMatching, hm]
  black_lt := by omega
  black_small := by omega
  last := by simpa using hm
  window := by intro j hj; omega

theorem Scanned.step_match {img : Image} {incrementer row : Int} {isStartPixel : Bool}
    {c : Int} {m : Nat} {white : Int} {black : Nat}
    (h : Scanned img incrementer row isStartPixel c m white black)
    (hb : inBounds img (c + (m : Int) * incrementer))
    (hm : matching img row isStartPixel (c + (m : Int) * incrementer)) :
    Scanned img incrementer row isStartPixel c (m + 1) (white + 1) 0 where
  bounds := by
    intro j hj
    rcases Nat.lt_or_ge j m with hlt | hge
    · exact h.bounds j hlt
    · have : j = m := by omega
      subst this
      exact hb
  first := h.first
  count := by
    have := h.count
    simp only [countMatching, hm, if_true]
    push_cast
    omega
  black_lt := by omega
  black_small := by omega
  last := by simpa using hm
  window := by
    intro j hj
    rcases Nat.lt_or_ge m (j + 10) with hlt | hge
    · refine ⟨9, by omega, ?_⟩
      have : j + 9 = m := by omega
      rw [this]
      exact hm
    · exact h.window j hge

theorem Scanned.step_nomatch {img : Image} {incrementer row : Int} {isStartPixel : Bool}
    {c : Int} {m : Nat} {white : Int} {black : Nat}
    (h : Scanned img incrementer row isStartPixel c m white black)
    (hb : inBounds img (c + (m : Int) * incrementer))
    (hm : ¬ matching img row isStartPixel (c + (m : Int) * incrementer))
    (hblack : black + 1 < 10) :
    Scanned img incrementer row isStartPixel c (m + 1) white (black + 1) where
  bounds := by
    intro j hj
    rcases Nat.lt_or_ge j m with hlt | hge
    · exact h.bounds j hlt
    · have : j = m := by omega
      subst this
      exact hb
  first := h.first
  count := by
    have := h.count
    simp only [countMatching, hm, if_false]
    push_cast
    omega
  black_lt := by have := h.black_lt; omega
  black_small := hblack
  last := by
    have hl := h.last
    have : m + 1 - 1 - (black + 1) = m - 1 - black := by omega
    rw [this]
    exact hl
  window := by
    intro j hj
    rcases Nat.lt_or_ge m (j + 10) with hlt | hge
    · refine ⟨8 - black, by omega, ?_⟩
      have hbl := h.black_lt
      have : j + (8 - black) = m - 1 - black := by omega
      rw [this]
      exact h.last
    · exact h.window j hge

theorem Scanned.confirm {img : Image} {incrementer row : Int} {isStartPixel : Bool}
    {c : Int} {m : Nat} {white : Int} {black : Nat}
    (h : Scanned img incrementer row isStartPixel c m white black)
    (hb : inBounds img (c + (m : Int) * incrementer))
    (hm : matching img row isStartPixel (c + (m : Int) * incrementer))
    (hw : white + 1 = NOISE_MAX) :
    Confirmed img incrementer row isStartPixel c m where
  bounds := by
    intro j hj
    exact (h.step_match hb hm).bounds j (by omega)
  first := h.first
  last := hm
  count := by
    have := (h.step_match hb hm).count
    rw [hw] at this
    simp only [NOISE_MAX] at this
    exact_mod_cast this
  window := (h.step_match hb hm).window

/-- Whatever `getEdgePixelLoop` returns other than `-1` is a confirmed candidate. -/
theorem getEdgePixelLoop_confirmed (img : Image) (incrementer row : Int)
    (isStartPixel : Bool) :
    ∀ (fuel : Nat) (column white black toBeChecked : Int),
      ((toBeChecked = -1 ∧ white = 0) ∨
        ∃ m bn : Nat, column = toBeChecked + (m : Int) * incrementer ∧ black = (bn : Int) ∧
          Scanned img incrementer row isStartPixel toBeChecked m white bn) →
      getEdgePixelLoop img incrementer row isStartPixel fuel column white black
        toBeChecked ≠ -1 →
      ∃ k : Nat, Confirmed img incrementer row isStartPixel
        (getEdgePixelLoop img incrementer row isStartPixel fuel column white black
          toBeChecked) k := by
  intro fuel
  induction fuel with
  | zero =>
    intro column white black toBeChecked _ h
    exact absurd rfl h
  | succ fuel ih =>
    intro column white black toBeChecked hst hne
    by_cases hb : inBounds img column
    swap
    · exact absurd (getEdgePixelLoop_out _ _ _ _ _ _ _ _ _ hb) hne
    have hcol : column ≠ -1 := by
      have := hb.1
      omega
    by_cases hm : matching img row isStartPixel column
    · rw [getEdgePixelLoop_match _ _ _ _ _ _ _ _ _ hb hm] at hne ⊢
      rcases hst with ⟨ht, hw⟩ | ⟨m, bn, hc, _, hS⟩
      · subst ht
        subst hw
        have h1 : ¬ ((0 : Int) + 1 = NOISE_MAX) := by decide
        rw [if_neg h1] at hne ⊢
        rw [if_pos rfl] at hne ⊢
        apply ih _ _ _ _ _ hne
        right
        exact ⟨1, 0, by simp, by simp, by simpa using Scanned.init hb hm⟩
      · have hm0 : 0 < m := Nat.lt_of_le_of_lt (Nat.zero_le _) hS.black_lt
        have ht : toBeChecked ≠ -1 := by
          have := (hS.bounds 0 hm0).1
          simp only [Nat.cast_zero, zero_mul, add_zero] at this
          omega
        rw [hc] at hb hm
        by_cases hlast : white + 1 = NOISE_MAX
        · rw [if_pos hlast, if_neg ht]
          exact ⟨m, hS.confirm hb hm hlast⟩
        · rw [if_neg hlast, if_neg ht] at hne ⊢
          apply ih _ _ _ _ _ hne
          right
          refine ⟨m + 1, 0, ?_, by simp, hS.step_match hb hm⟩
          rw [hc]
          push_cast
          ring
    · rw [getEdgePixelLoop_nomatch _ _ _ _ _ _ _ _ _ hb hm] at hne ⊢
      rcases hst with ⟨ht, hw⟩ | ⟨m, bn, hc, hbn, hS⟩
      · subst ht
        subst hw
        have hsame : ∀ x y : Int, (if black + 1 ≥ NOISE_MAX then x else y) = x ∨
            (if black + 1 ≥ NOISE_MAX then x else y) = y := by
          intro x y
          split
          · exact Or.inl rfl
          · exact Or.inr rfl
        rcases hsame
          (getEdgePixelLoop img incrementer row isStartPixel fuel (column + incrementer)
            0 (black + 1) (-1))
          (getEdgePixelLoop img incrementer row isStartPixel fuel (column + incrementer)
            0 (black + 1) (-1)) with he | he
        · rw [he] at hne ⊢
          exact ih _ _ _ _ (Or.inl ⟨rfl, rfl⟩) hne
        · rw [he] at hne ⊢
          exact ih _ _ _ _ (Or.inl ⟨rfl, rfl⟩) hne
      · by_cases hreset : black + 1 ≥ NOISE_MAX
        · rw [if_pos hreset] at hne ⊢
          exact ih _ _ _ _ (Or.inl ⟨rfl, rfl⟩) hne
        · rw [if_neg hreset] at hne ⊢
          apply ih _ _ _ _ _ hne
          right
          rw [hc] at hb hm
          have hsmall : bn + 1 < 10 := by
            simp only [NOISE_MAX] at hreset
            omega
          refine ⟨m + 1, bn + 1, ?_, by rw [hbn]; simp, hS.step_nomatch hb hm hsmall⟩
          rw [hc]
          push_cast
          ring

/-- C7 (as amended): whenever `getEdgePixel` returns a column `c` other than `-1`,
there is `k ≥ 9` such that the pixels `c, c + incrementer, ..., c + k * incrementer` are
all in bounds, `c` is matching, exactly `NOISE_MAX` of them are matching, the last being
the tenth, and every `NOISE_MAX` consecutive ones hold a matching pixel. -/
theorem getEdgePixel_confirmed (img : Image) (startingPos incrementer row : Int)
    (isStartPixel : Bool)
    (h : getEdgePixel img startingPos incrementer row isStartPixel ≠ -1) :
    ∃ k : Nat, 9 ≤ k ∧ Confirmed img incrementer row isStartPixel
      (getEdgePixel img startingPos incrementer row isStartPixel) k := by
  obtain ⟨k, hk⟩ := getEdgePixelLoop_confirmed img incrementer row isStartPixel img.width
    startingPos 0 0 (-1) (Or.inl ⟨rfl, rfl⟩) h
  refine ⟨k, ?_, hk⟩
  have h1 := hk.count
  have h2 := countMatching_le img incrementer row isStartPixel
    (getEdgePixel img startingPos incrementer row isStartPixel) (k + 1)
  unfold getEdgePixel at h2
  omega

/-- The candidate confirmed in `gapImage`, across a gap of one pixel. -/
theorem getEdgePixel_confirmed_witness :
    ∃ k : Nat, 9 ≤ k ∧ Confirmed gapImage 1 0 true (getEdgePixel gapImage 0 1 0 true) k :=
  getEdgePixel_confirmed gapImage 0 1 0 true (by decide)

/-- C7 fails as stated: the scan returns column `0`, and the next pixel of the row is
not a line pixel. -/
theorem getEdgePixel_gap :
    getEdgePixel gapImage 0 1 0 true = 0 ∧ ¬ matching gapImage 0 true (0 + 1 * 1) := by
  decide

/-! ## MidpointLocator -/

/-- When the entering edge is missing, `getMiddle` returns `-1`. -/
theorem getMiddle_no_entering_edge (img : Image) (startingPos row : Int) (rightSide : Bool)
    (h : getEdgePixel img startingPos (if rightSide then -1 else 1) row true = -1) :
    getMiddle img startingPos row rightSide = -1 := by
  unfold getMiddle
  simp only [h]
  have hout : getEdgePixel img (-1) (if rightSide then -1 else 1) row false = -1 := by
    apply getEdgePixelLoop_out
    intro hb
    have := hb.1
    omega
  rw [hout]
  decide

/-- C10 at its failing input: the entering edge is column `10`, the exiting edge is
missing, and `getMiddle` returns column `4`, not `-1`. -/
theorem getMiddle_missing_exit_edge :
    getEdgePixel borderImage 0 1 0 true = 10 ∧
      getEdgePixel borderImage 10 1 0 false = -1 ∧
      getMiddle borderImage 0 0 false = 4 := by
  decide

/-! ## Images whose rows are all the same -/

theorem truncToInt_intCast (z : Int) : truncToInt (z : ℚ) = z := by
  unfold truncToInt
  split
  · exact Int.floor_intCast z
  · exact Int.ceil_intCast z

theorem getEdgePixelLoop_row_congr (img : Image) (incrementer : Int) (isStartPixel : Bool)
    (row row' : Int)
    (h : ∀ column, inBounds img column →
      (img.pixel row column = 0 ↔ img.pixel row' column = 0)) :
    ∀ (fuel : Nat) (column white black toBeChecked : Int),
      getEdgePixelLoop img incrementer row isStartPixel fuel column white black toBeChecked =
        getEdgePixelLoop img incrementer row' isStartPixel fuel column white black
          toBeChecked := by
  intro fuel
  induction fuel with
  | zero => intros; rfl
  | succ fuel ih =>
    intro column white black toBeChecked
    by_cases hb : inBounds img column
    · have hiff : matching img row isStartPixel column ↔
          matching img row' isStartPixel column := by
        unfold matching
        rw [h column hb]
        simp only [ne_eq, h column hb]
      by_cases hm : matching img row isStartPixel column
      · rw [getEdgePixelLoop_match _ _ _ _ _ _ _ _ _ hb hm,
          getEdgePixelLoop_match _ _ _ _ _ _ _ _ _ hb (hiff.mp hm), ih]
      · rw [getEdgePixelLoop_nomatch _ _ _ _ _ _ _ _ _ hb hm,
          getEdgePixelLoop_nomatch _ _ _ _ _ _ _ _ _ hb (fun hm' => hm (hiff.mpr hm')),
          ih, ih]
    · rw [getEdgePixelLoop_out _ _ _ _ _ _ _ _ _ hb,
        getEdgePixelLoop_out _ _ _ _ _ _ _ _ _ hb]

theorem getMiddle_row_congr (img : Image) (startingPos row row' : Int) (rightSide : Bool)
    (h : ∀ column, inBounds img column →
      (img.pixel row column = 0 ↔ img.pixel row' column = 0)) :
    getMiddle img startingPos row rightSide = getMiddle img startingPos row' rightSide := by
  unfold getMiddle getEdgePixel
  simp only [getEdgePixelLoop_row_congr img _ _ row row' h]

theorem getMiddle_sameRows {img : Image} (h : SameRows img) (startingPos : Int)
    (rightSide : Bool) (row row' : Int) (h0 : 0 ≤ row) (h1 : row < (img.height : Int))
    (h0' : 0 ≤ row') (h1' : row' < (img.height : Int)) :
    getMiddle img startingPos row rightSide = getMiddle img startingPos row' rightSide := by
  apply getMiddle_row_congr
  intro column hb
  have hr : ((row.toNat : Nat) : Int) = row := Int.toNat_of_nonneg h0
  have hr' : ((row'.toNat : Nat) : Int) = row' := Int.toNat_of_nonneg h0'
  have hc : ((column.toNat : Nat) : Int) = column := Int.toNat_of_nonneg hb.1
  have := h row.toNat row'.toNat column.toNat (by omega) (by omega)
    (by have := hb.2; omega)
  rwa [hr, hr', hc] at this

theorem anchorLoop_cases (img : Image) (startingPos incrementer : Int) (rightSide : Bool) :
    ∀ n : Nat,
      anchorLoop img startingPos incrementer rightSide n = (-1, -1) ∨
        ∃ i : Nat, 1 ≤ i ∧ i ≤ n ∧
          anchorLoop img startingPos incrementer rightSide n =
            ((i : Int), (getMiddle img startingPos (i : Int) rightSide : ℚ)) := by
  intro n
  induction n with
  | zero => exact Or.inl rfl
  | succ n ih =>
    unfold anchorLoop
    split
    · exact Or.inr ⟨n + 1, by omega, by omega, rfl⟩
    · rcases ih with h | ⟨i, h1, h2, h3⟩
      · exact Or.inl h
      · exact Or.inr ⟨i, h1, by omega, h3⟩

/-- The bound `bottomRow` on the iterations of the sampling loop is never what ends
it: any two bounds of at least `bottomRow - division` give the same result. -/
theorem sampleLoop_fuel (atan : ℚ → ℚ) (img : Image) (startingPos : Int)
    (rightSide : Bool) (numSamples rolling_average_constant : ℚ) (bottomRow : Int)
    (x1 : ℚ) :
    ∀ (fuel fuel' d : Nat) (currentAngle validSamples : ℚ),
      bottomRow - (d : Int) ≤ fuel → bottomRow - (d : Int) ≤ fuel' →
      sampleLoop atan img startingPos rightSide numSamples rolling_average_constant
          bottomRow x1 fuel (d : ℚ) currentAngle validSamples =
        sampleLoop atan img startingPos rightSide numSamples rolling_average_constant
          bottomRow x1 fuel' (d : ℚ) currentAngle validSamples := by
  have hstop : ∀ (fuel d : Nat) (currentAngle validSamples : ℚ),
      ¬ ((d : ℚ) < numSamples ∧ (bottomRow : ℚ) - (d : ℚ) > 0) →
      sampleLoop atan img startingPos rightSide numSamples rolling_average_constant
          bottomRow x1 fuel (d : ℚ) currentAngle validSamples =
        (currentAngle, validSamples) := by
    intro fuel d currentAngle validSamples hc
    cases fuel with
    | zero => rfl
    | succ fuel =>
      unfold sampleLoop
      rw [if_neg hc]
  intro fuel
  induction fuel with
  | zero =>
    intro fuel' d currentAngle validSamples h _
    have hc : ¬ ((d : ℚ) < numSamples ∧ (bottomRow : ℚ) - (d : ℚ) > 0) := by
      intro hc
      have h2 : (0 : ℚ) < ((bottomRow - (d : Int) : Int) : ℚ) := by
        push_cast
        exact hc.2
      have h3 : 0 < bottomRow - (d : Int) := by exact_mod_cast h2
      simp at h
      omega
    rw [hstop _ _ _ _ hc, hstop _ _ _ _ hc]
  | succ fuel ih =>
    intro fuel' d currentAngle validSamples h h'
    by_cases hc : (d : ℚ) < numSamples ∧ (bottomRow : ℚ) - (d : ℚ) > 0
    · have h2 : (0 : ℚ) < ((bottomRow - (d : Int) : Int) : ℚ) := by
        push_cast
        exact hc.2
      have h3 : 0 < bottomRow - (d : Int) := by exact_mod_cast h2
      obtain ⟨f', rfl⟩ : ∃ f, fuel' = f + 1 := ⟨fuel' - 1, by omega⟩
      have hnext : ((d : ℚ) + 1) = ((d + 1 : Nat) : ℚ) := by push_cast; rfl
      have key : ∀ c v,
          sampleLoop atan img startingPos rightSide numSamples rolling_average_constant
              bottomRow x1 fuel ((d : ℚ) + 1) c v =
            sampleLoop atan img startingPos rightSide numSamples rolling_average_constant
              bottomRow x1 f' ((d : ℚ) + 1) c v := by
        intro c v
        rw [hnext]
        apply ih <;> push_cast <;> push_cast at h h' <;> omega
      conv_lhs => unfold sampleLoop
      conv_rhs => unfold sampleLoop
      simp only [key]
    · rw [hstop _ _ _ _ hc, hstop _ _ _ _ hc]

/-- On rows that all have the midpoint of the anchor row, every slope is `0` and the
running angle stays `0`. -/
theorem sampleLoop_sameRows (atan : ℚ → ℚ) (hatan : atan 0 = 0) (img : Image)
    (startingPos : Int) (rightSide : Bool) (numSamples rolling_average_constant : ℚ)
    (bottomRow : Int) (hbr : bottomRow < (img.height : Int))
    (hrows : ∀ r : Int, 0 ≤ r → r < (img.height : Int) →
      getMiddle img startingPos r rightSide = getMiddle img startingPos bottomRow rightSide) :
    ∀ (fuel d : Nat) (v : ℚ),
      (sampleLoop atan img startingPos rightSide numSamples rolling_average_constant
        bottomRow (getMiddle img startingPos bottomRow rightSide : ℚ) fuel (d : ℚ) 0 v).1
        = 0 := by
  intro fuel
  induction fuel with
  | zero => intros; rfl
  | succ fuel ih =>
    intro d v
    have hnext : ((d : ℚ) + 1) = ((d + 1 : Nat) : ℚ) := by push_cast; rfl
    unfold sampleLoop
    by_cases hc : (d : ℚ) < numSamples ∧ (bottomRow : ℚ) - (d : ℚ) > 0
    · rw [if_pos hc]
      have hcast : (bottomRow : ℚ) - (d : ℚ) = ((bottomRow - (d : Int) : Int) : ℚ) := by
        push_cast
        rfl
      have hpos : 0 < bottomRow - (d : Int) := by
        have := hc.2
        rw [hcast] at this
        exact_mod_cast this
      have hmid : getMiddle img startingPos (truncToInt ((bottomRow : ℚ) - (d : ℚ)))
          rightSide = getMiddle img startingPos bottomRow rightSide := by
        rw [hcast, truncToInt_intCast]
        exact hrows _ (by omega) (by omega)
      simp only [hmid, sub_self, neg_zero, zero_div, hatan, abs_zero, zero_mul, mul_zero,
        add_zero, hnext]
      split
      · split
        · exact ih _ _
        · exact ih _ _
      · exact ih _ _
    · rw [if_neg hc]

theorem getAngleOfLine_sameRows (atan : ℚ → ℚ) (hatan : atan 0 = 0) (img : Image)
    (h : SameRows img) (rightSide : Bool)
    (numSamples rolling_average_constant percent_of_samples_needed : ℚ) :
    sampledAngle atan rightSide numSamples img rolling_average_constant
      percent_of_samples_needed = 0 := by
  unfold sampledAngle getAngleOfLine
  dsimp only
  have hzero : ∀ x : ℚ, x = 0 → truncToInt (x * 180 / M_PI) = 0 := by
    intro x hx
    subst hx
    simp [truncToInt]
  apply hzero
  rcases anchorLoop_cases img (initializeIncrementerPosition rightSide img).2
    (initializeIncrementerPosition rightSide img).1 rightSide (img.height - 1) with
    ha | ⟨i, hi1, hi2, ha⟩
  · rw [ha]
    rfl
  · rw [ha]
    dsimp only
    have hsample := sampleLoop_sameRows atan hatan img
      (initializeIncrementerPosition rightSide img).2 rightSide numSamples
      rolling_average_constant (i : Int) (by omega)
      (fun r h0 h1 => getMiddle_sameRows h _ _ r (i : Int) h0 h1 (by omega) (by omega))
      (i : Int).toNat 1 0
    simpa using hsample

theorem sameRows_of_verticalBand {img : Image} {a b : Nat} (h : VerticalBand img a b) :
    SameRows img := by
  intro row row' column hr hr' hc
  have h1 := h.2.2 row hr column hc
  have h2 := h.2.2 row' hr' column hc
  constructor
  · intro hz
    by_contra hne
    exact (h1.mpr (h2.mp hne)) hz
  · intro hz
    by_contra hne
    exact (h2.mpr (h1.mp hne)) hz

/-- Whatever `getEdgePixel` returns is `-1` or a column of the row. -/
theorem getEdgePixel_range (img : Image) (startingPos incrementer row : Int)
    (isStartPixel : Bool) :
    getEdgePixel img startingPos incrementer row isStartPixel = -1 ∨
      inBounds img (getEdgePixel img startingPos incrementer row isStartPixel) := by
  by_cases h : getEdgePixel img startingPos incrementer row isStartPixel = -1
  · exact Or.inl h
  · right
    obtain ⟨k, hk⟩ := getEdgePixelLoop_confirmed img incrementer row isStartPixel img.width
      startingPos 0 0 (-1) (Or.inl ⟨rfl, rfl⟩) h
    simpa using hk.bounds 0 (Nat.zero_le k)

/-- C11: when the entering edge `s` and the exiting edge `e` (scanned from `s`) are
both found, `getMiddle` returns the truncated average `(s + e) / 2`, which lies between
`s` and `e` inclusive and inside the row. -/
theorem getMiddle_value (img : Image) (startingPos row : Int) (rightSide : Bool)
    (hs : getEdgePixel img startingPos (if rightSide then -1 else 1) row true ≠ -1)
    (he : getEdgePixel img
        (getEdgePixel img startingPos (if rightSide then -1 else 1) row true)
        (if rightSide then -1 else 1) row false ≠ -1) :
    getMiddle img startingPos row rightSide =
        Int.tdiv (getEdgePixel img startingPos (if rightSide then -1 else 1) row true +
          getEdgePixel img
            (getEdgePixel img startingPos (if rightSide then -1 else 1) row true)
            (if rightSide then -1 else 1) row false) 2 ∧
      ((getEdgePixel img startingPos (if rightSide then -1 else 1) row true ≤
            getMiddle img startingPos row rightSide ∧
          getMiddle img startingPos row rightSide ≤ getEdgePixel img
            (getEdgePixel img startingPos (if rightSide then -1 else 1) row true)
            (if rightSide then -1 else 1) row false) ∨
        (getEdgePixel img
            (getEdgePixel img startingPos (if rightSide then -1 else 1) row true)
            (if rightSide then -1 else 1) row false ≤
            getMiddle img startingPos row rightSide ∧
          getMiddle img startingPos row rightSide ≤
            getEdgePixel img startingPos (if rightSide then -1 else 1) row true)) ∧
      inBounds img (getMiddle img startingPos row rightSide) := by
  have hsb := (getEdgePixel_range img startingPos (if rightSide then -1 else 1) row
    true).resolve_left hs
  have heb := (getEdgePixel_range img
    (getEdgePixel img startingPos (if rightSide then -1 else 1) row true)
    (if rightSide then -1 else 1) row false).resolve_left he
  have hmid : getMiddle img startingPos row rightSide =
      Int.tdiv (getEdgePixel img startingPos (if rightSide then -1 else 1) row true +
        getEdgePixel img
          (getEdgePixel img startingPos (if rightSide then -1 else 1) row true)
          (if rightSide then -1 else 1) row false) 2 := rfl
  refine ⟨hmid, ?_⟩
  rw [hmid]
  generalize getEdgePixel img
    (getEdgePixel img startingPos (if rightSide then -1 else 1) row true)
    (if rightSide then -1 else 1) row false = e at heb ⊢
  generalize getEdgePixel img startingPos (if rightSide then -1 else 1) row true = s
    at hsb ⊢
  unfold inBounds at hsb heb ⊢
  rw [Int.tdiv_eq_ediv (by omega) (by decide)]
  omega

/-- The midpoint of the band of `bandImage`: edges `10` and `20`, midpoint `15`. -/
theorem getMiddle_value_witness : getMiddle bandImage 0 3 false = Int.tdiv (10 + 20) 2 :=
  (getMiddle_value bandImage 0 3 false (by decide) (by decide)).1

/-! ## LineSampler -/

/-- The result of `getAngleOfLine` in terms of the anchor and the sampling loop. -/
theorem getAngleOfLine_eq (atan : ℚ → ℚ) (rightSide : Bool) (numSamples : ℚ) (img : Image)
    (rolling_average_constant percent_of_samples_needed : ℚ) :
    getAngleOfLine atan rightSide numSamples img rolling_average_constant
        percent_of_samples_needed =
      (truncToInt (runningEstimate atan rightSide numSamples img rolling_average_constant
          * 180 / M_PI),
        if (anchor rightSide img).2 = -1 then 0
        else (sampleState atan rightSide numSamples img rolling_average_constant
          (anchor rightSide img).1.toNat).2) := rfl

/-- An anchor search that meets no entering edge leaves `(-1, -1)`. -/
theorem anchorLoop_none (img : Image) (startingPos incrementer : Int) (rightSide : Bool) :
    ∀ n : Nat,
      (∀ i : Nat, 1 ≤ i → i ≤ n →
        getEdgePixel img startingPos incrementer (i : Int) true = -1) →
      anchorLoop img startingPos incrementer rightSide n = (-1, -1) := by
  intro n
  induction n with
  | zero => intro _; rfl
  | succ n ih =>
    intro h
    unfold anchorLoop
    rw [if_neg (by simpa using h (n + 1) (by omega) (by omega))]
    exact ih fun i h1 h2 => h i h1 (by omega)

/-- C12: when no row of the anchor search (rows `height - 1` down to `1`) has a
confirmed entering edge, `getAngleOfLine` returns the angle `0` and stores `0` in
`validSamples`. -/
theorem getAngleOfLine_no_anchor (atan : ℚ → ℚ) (rightSide : Bool) (numSamples : ℚ)
    (img : Image) (rolling_average_constant percent_of_samples_needed : ℚ)
    (h : ∀ i : Nat, 1 ≤ i → i < img.height →
      getEdgePixel img (initializeIncrementerPosition rightSide img).2
        (initializeIncrementerPosition rightSide img).1 (i : Int) true = -1) :
    getAngleOfLine atan rightSide numSamples img rolling_average_constant
      percent_of_samples_needed = (0, 0) := by
  have ha : anchor rightSide img = (-1, -1) := by
    unfold anchor
    exact anchorLoop_none img _ _ rightSide _ fun i h1 h2 => h i h1 (by omega)
  rw [getAngleOfLine_eq]
  unfold runningEstimate sampleState
  rw [ha]
  simp [sampleLoop, truncToInt]

/-- No row of `blankImage` has an edge. -/
theorem getAngleOfLine_no_anchor_witness :
    getAngleOfLine atanModel false 1 blankImage (1 / 4) (1 / 8) = (0, 0) :=
  getAngleOfLine_no_anchor atanModel false 1 blankImage (1 / 4) (1 / 8) (by decide)

/-- The count of valid samples stays between `0` and the number of iterations made,
which stays below `numSamples`. -/
theorem sampleLoop_budget (atan : ℚ → ℚ) (img : Image) (startingPos : Int)
    (rightSide : Bool) (numSamples rolling_average_constant : ℚ) (bottomRow : Int)
    (x1 : ℚ) :
    ∀ (fuel : Nat) (division currentAngle validSamples : ℚ),
      0 ≤ validSamples → validSamples + 1 ≤ division → validSamples ≤ numSamples →
      0 ≤ (sampleLoop atan img startingPos rightSide numSamples rolling_average_constant
          bottomRow x1 fuel division currentAngle validSamples).2 ∧
        (sampleLoop atan img startingPos rightSide numSamples rolling_average_constant
          bottomRow x1 fuel division currentAngle validSamples).2 ≤ numSamples := by
  intro fuel
  induction fuel with
  | zero =>
    intro division currentAngle validSamples h0 _ h2
    exact ⟨h0, h2⟩
  | succ fuel ih =>
    intro division currentAngle validSamples h0 h1 h2
    unfold sampleLoop
    by_cases hc : division < numSamples ∧ (bottomRow : ℚ) - division > 0
    · rw [if_pos hc]
      have hlt := hc.1
      dsimp only
      split
      · split
        · exact ih _ _ _ (by linarith) (by linarith) (by linarith)
        · exact ih _ _ _ (by linarith) (by linarith) (by linarith)
      · exact ih _ _ _ h0 (by linarith) h2
    · rw [if_neg hc]
      exact ⟨h0, h2⟩

/-- C13: for `numSamples ≥ 0`, the count of valid samples lies between `0` and
`numSamples` after every number `n` of iterations of the sampling loop, and so does the
value `getAngleOfLine` stores in `validSamples`. -/
theorem getAngleOfLine_budget (atan : ℚ → ℚ) (rightSide : Bool) (numSamples : ℚ)
    (img : Image) (rolling_average_constant percent_of_samples_needed : ℚ)
    (hn : 0 ≤ numSamples) :
    (∀ n : Nat,
      0 ≤ (sampleState atan rightSide numSamples img rolling_average_constant n).2 ∧
        (sampleState atan rightSide numSamples img rolling_average_constant n).2 ≤
          numSamples) ∧
    0 ≤ validSampleCount atan rightSide numSamples img rolling_average_constant
      percent_of_samples_needed ∧
    validSampleCount atan rightSide numSamples img rolling_average_constant
      percent_of_samples_needed ≤ numSamples := by
  have hstate : ∀ n : Nat,
      0 ≤ (sampleState atan rightSide numSamples img rolling_average_constant n).2 ∧
        (sampleState atan rightSide numSamples img rolling_average_constant n).2 ≤
          numSamples := by
    intro n
    unfold sampleState
    exact sampleLoop_budget atan img _ rightSide numSamples rolling_average_constant _ _ n
      1 0 0 (le_refl 0) (by norm_num) hn
  refine ⟨hstate, ?_⟩
  unfold validSampleCount
  rw [getAngleOfLine_eq]
  dsimp only
  split
  · exact ⟨le_refl 0, hn⟩
  · exact hstate _

set_option maxRecDepth 100000 in
/-- The budget at `slantImage`: two valid samples for `numSamples = 4`. -/
theorem getAngleOfLine_budget_witness :
    validSampleCount atanModel false 4 slantImage (1 / 4) (1 / 8) ≤ 4 ∧
      validSampleCount atanModel false 4 slantImage (1 / 4) (1 / 8) = 2 :=
  ⟨(getAngleOfLine_budget atanModel false 4 slantImage (1 / 4) (1 / 8) (by norm_num)).2.2,
    by decide!⟩

/-- The conversion `(int) x` drops the fractional part: it is the floor of a
non-negative `x`, the ceiling of a negative one, never larger than `x` in magnitude
and less than `1` away from it. -/
theorem truncToInt_spec (x : ℚ) :
    (0 ≤ x → truncToInt x = ⌊x⌋) ∧ (x < 0 → truncToInt x = ⌈x⌉) ∧
      |((truncToInt x : Int) : ℚ)| ≤ |x| ∧ |x - ((truncToInt x : Int) : ℚ)| < 1 := by
  unfold truncToInt
  by_cases h : 0 ≤ x
  · rw [if_pos h]
    have h1 := Int.floor_le x
    have h2 := Int.lt_floor_add_one x
    have h3 : (0 : ℚ) ≤ ((⌊x⌋ : Int) : ℚ) := by exact_mod_cast Int.floor_nonneg.mpr h
    refine ⟨fun _ => rfl, fun hx => absurd h (not_le.mpr hx), ?_, ?_⟩
    · rw [abs_of_nonneg h3, abs_of_nonneg h]
      exact h1
    · rw [abs_of_nonneg (by linarith)]
      linarith
  · rw [if_neg h]
    have hx : x < 0 := not_le.mp h
    have h1 := Int.le_ceil x
    have h2 := Int.ceil_lt_add_one x
    have h3 : ((⌈x⌉ : Int) : ℚ) ≤ 0 := by exact_mod_cast Int.ceil_le.mpr (by simpa using hx.le)
    refine ⟨fun h0 => absurd h0 h, fun _ => rfl, ?_, ?_⟩
    · rw [abs_of_nonpos h3, abs_of_neg hx]
      linarith
    · rw [abs_of_nonpos (by linarith)]
      linarith

/-- C14 (as amended): the integer angle `getAngleOfLine` returns is the final running
estimate in degrees, `currentAngle * 180 / M_PI`, truncated toward zero: its floor
when non-negative, its ceiling when negative, less than one degree away from it and
never larger in magnitude. -/
theorem getAngleOfLine_truncates (atan : ℚ → ℚ) (rightSide : Bool) (numSamples : ℚ)
    (img : Image) (rolling_average_constant percent_of_samples_needed : ℚ) :
    sampledAngle atan rightSide numSamples img rolling_average_constant
        percent_of_samples_needed =
      truncToInt (runningEstimate atan rightSide numSamples img rolling_average_constant
        * 180 / M_PI) ∧
    (0 ≤ runningEstimate atan rightSide numSamples img rolling_average_constant
        * 180 / M_PI →
      sampledAngle atan rightSide numSamples img rolling_average_constant
        percent_of_samples_needed =
        ⌊runningEstimate atan rightSide numSamples img rolling_average_constant
          * 180 / M_PI⌋) ∧
    (runningEstimate atan rightSide numSamples img rolling_average_constant
        * 180 / M_PI < 0 →
      sampledAngle atan rightSide numSamples img rolling_average_constant
        percent_of_samples_needed =
        ⌈runningEstimate atan rightSide numSamples img rolling_average_constant
          * 180 / M_PI⌉) ∧
    |((sampledAngle atan rightSide numSamples img rolling_average_constant
        percent_of_samples_needed : Int) : ℚ)| ≤
      |runningEstimate atan rightSide numSamples img rolling_average_constant
        * 180 / M_PI| ∧
    |runningEstimate atan rightSide numSamples img rolling_average_constant * 180 / M_PI -
      ((sampledAngle atan rightSide numSamples img rolling_average_constant
        percent_of_samples_needed : Int) : ℚ)| < 1 := by
  have h : sampledAngle atan rightSide numSamples img rolling_average_constant
        percent_of_samples_needed =
      truncToInt (runningEstimate atan rightSide numSamples img rolling_average_constant
        * 180 / M_PI) := by
    unfold sampledAngle
    rw [getAngleOfLine_eq]
  rw [h]
  exact ⟨rfl, truncToInt_spec _⟩

set_option maxRecDepth 100000 in
/-- The truncation at `slantImage`: an estimate between 27 and 28 degrees gives `27`. -/
theorem getAngleOfLine_truncates_witness :
    sampledAngle atanModel false 4 slantImage (1 / 4) (1 / 8) =
      ⌊runningEstimate atanModel false 4 slantImage (1 / 4) * 180 / M_PI⌋ :=
  (getAngleOfLine_truncates atanModel false 4 slantImage (1 / 4) (1 / 8)).2.1 (by decide!)

set_option maxRecDepth 100000 in
/-- C14 fails as stated: at `slantImage` the final estimate is more than 27.5 degrees,
which rounds to `28`, and `getAngleOfLine` returns `27`. -/
theorem getAngleOfLine_not_rounded :
    (55 : ℚ) / 2 < runningEstimate atanModel false 4 slantImage (1 / 4) * 180 / M_PI ∧
      round (runningEstimate atanModel false 4 slantImage (1 / 4) * 180 / M_PI) = 28 ∧
      sampledAngle atanModel false 4 slantImage (1 / 4) (1 / 8) = 27 := by
  refine ⟨by decide!, ?_, by decide!⟩
  rw [round_eq]
  decide!

/-! ## ConfidenceEstimator -/

/-- C18 (as amended): when `samplesNeeded = height * percent_of_samples_needed` is `0`,
`getConfidence` has no special case: `mapRange` divides by zero and the result is not
a number (for a non-negative count of valid samples, the NaN of `0 / 0`), not `0`. -/
theorem getConfidence_degenerate (img : Image) (percent_of_image_sampled
    percent_of_samples_needed valid_samples : ℚ)
    (hsn : (img.height : ℚ) * percent_of_samples_needed = 0) :
    getConfidence img percent_of_image_sampled percent_of_samples_needed valid_samples =
      none :=
  (getConfidence_eq_none_iff img percent_of_image_sampled percent_of_samples_needed
    valid_samples).mpr hsn

/-- The degenerate confidence with `percent_of_samples_needed = 0`. -/
theorem getConfidence_degenerate_witness :
    getConfidence blankImage (1 / 4) 0 0 = none :=
  getConfidence_degenerate blankImage (1 / 4) 0 0 (by norm_num)

/-- C18 fails as stated: with `percent_of_samples_needed = 0` the confidence of zero
valid samples is not `0`, it is the NaN of the division `0 / 0`. -/
theorem getConfidence_zero_needed :
    (blankImage.height : ℚ) * 0 = 0 ∧ getConfidence blankImage (1 / 4) 0 0 ≠ some 0 ∧
      getConfidence blankImage (1 / 4) 0 0 = none := by
  refine ⟨by norm_num, ?_, ?_⟩ <;> simp [getConfidence, mapRange]

/-! ## LineSampler: range and convergence of the running estimate -/

/-- Whatever `getMiddle` returns is `-1` or a column of the row. -/
theorem getMiddle_range (img : Image) (startingPos row : Int) (rightSide : Bool) :
    getMiddle img startingPos row rightSide = -1 ∨
      inBounds img (getMiddle img startingPos row rightSide) := by
  by_cases hs : getEdgePixel img startingPos (if rightSide then -1 else 1) row true = -1
  · exact Or.inl (getMiddle_no_entering_edge img startingPos row rightSide hs)
  · right
    have hsb := (getEdgePixel_range img startingPos (if rightSide then -1 else 1) row
      true).resolve_left hs
    have he := getEdgePixel_range img
      (getEdgePixel img startingPos (if rightSide then -1 else 1) row true)
      (if rightSide then -1 else 1) row false
    have hmid : getMiddle img startingPos row rightSide =
        Int.tdiv (getEdgePixel img startingPos (if rightSide then -1 else 1) row true +
          getEdgePixel img
            (getEdgePixel img startingPos (if rightSide then -1 else 1) row true)
            (if rightSide then -1 else 1) row false) 2 := rfl
    rw [hmid]
    generalize getEdgePixel img
      (getEdgePixel img startingPos (if rightSide then -1 else 1) row true)
      (if rightSide then -1 else 1) row false = e at he ⊢
    generalize getEdgePixel img startingPos (if rightSide then -1 else 1) row true = s
      at hsb ⊢
    unfold inBounds at hsb he ⊢
    rcases he with he | he
    · subst he
      rcases lt_or_ge s 1 with h1 | h1
      · have : s = 0 := by omega
        subst this
        have h0 : Int.tdiv (0 + -1) 2 = 0 := by decide
        rw [h0]
        omega
      · rw [Int.tdiv_eq_ediv (by omega) (by decide)]
        omega
    · rw [Int.tdiv_eq_ediv (by omega) (by decide)]
      omega

/-- The value of `x1` the anchor search leaves is `-1` or a column of the row. -/
theorem anchor_range (rightSide : Bool) (img : Image) :
    ∃ m : Int, (anchor rightSide img).2 = (m : ℚ) ∧ (m = -1 ∨ inBounds img m) := by
  unfold anchor
  rcases anchorLoop_cases img (initializeIncrementerPosition rightSide img).2
    (initializeIncrementerPosition rightSide img).1 rightSide (img.height - 1) with
    h | ⟨i, _, _, h⟩
  · rw [h]
    exact ⟨-1, by simp, Or.inl rfl⟩
  · rw [h]
    exact ⟨_, rfl, getMiddle_range img _ _ rightSide⟩

/-- A weighted mean of two values inside `(-p, p)` is inside `(-p, p)`. -/
theorem abs_fold_lt {a c p w : ℚ} (hw0 : 0 ≤ w) (hw1 : w ≤ 1) (ha : |a| < p)
    (hc : |c| < p) : |w * a + (1 - w) * c| < p := by
  rw [abs_lt] at ha hc ⊢
  rcases eq_or_lt_of_le hw0 with h | h
  · subst h
    constructor <;> linarith
  · constructor
    · have h1 : w * (-p) < w * a := mul_lt_mul_of_pos_left ha.1 h
      have h2 : (1 - w) * (-p) ≤ (1 - w) * c :=
        mul_le_mul_of_nonneg_left hc.1.le (by linarith)
      linarith
    · have h1 : w * a < w * p := mul_lt_mul_of_pos_left ha.2 h
      have h2 : (1 - w) * c ≤ (1 - w) * p :=
        mul_le_mul_of_nonneg_left hc.2.le (by linarith)
      linarith

/-- With midpoints inside the row, every slope the sampling loop computes is at most
`width` in magnitude, so every fold keeps the running estimate inside
`(-M_PI / 2, M_PI / 2)`. -/
theorem sampleLoop_bounded (atan : ℚ → ℚ) (img : Image) (startingPos : Int)
    (rightSide : Bool) (numSamples rolling_average_constant : ℚ) (bottomRow m : Int)
    (hm : m = -1 ∨ inBounds img m)
    (h0 : 0 ≤ rolling_average_constant) (h1 : rolling_average_constant ≤ 1)
    (hatan : ∀ x : ℚ, |x| ≤ (img.width : ℚ) → |atan x| < M_PI / 2) :
    ∀ (fuel d : Nat) (currentAngle validSamples : ℚ), 1 ≤ d →
      |currentAngle| < M_PI / 2 →
      |(sampleLoop atan img startingPos rightSide numSamples rolling_average_constant
        bottomRow (m : ℚ) fuel (d : ℚ) currentAngle validSamples).1| < M_PI / 2 := by
  intro fuel
  induction fuel with
  | zero => intro d currentAngle validSamples _ hc; exact hc
  | succ fuel ih =>
    intro d currentAngle validSamples hd hc
    have hnext : ((d : ℚ) + 1) = ((d + 1 : Nat) : ℚ) := by push_cast; rfl
    unfold sampleLoop
    split
    · dsimp only
      rw [hnext]
      split
      · rename_i hvalid
        split
        · apply ih _ _ _ (by omega)
          apply abs_fold_lt h0 h1 _ hc
          apply hatan
          have hx := getMiddle_range img startingPos
            (truncToInt ((bottomRow : ℚ) - (d : ℚ))) rightSide
          generalize getMiddle img startingPos
            (truncToInt ((bottomRow : ℚ) - (d : ℚ))) rightSide = c at hx hvalid ⊢
          have hc1 : c ≠ -1 := by
            intro h
            apply hvalid.1
            rw [h]
            simp
          have hm1 : m ≠ -1 := by
            intro h
            apply hvalid.2
            rw [h]
            simp
          have hcb := hx.resolve_left hc1
          have hmb := hm.resolve_left hm1
          unfold inBounds at hcb hmb
          have hden : (bottomRow : ℚ) - (d : ℚ) - (bottomRow : ℚ) = -(d : ℚ) := by ring
          rw [hden, neg_div_neg_eq, abs_div]
          have hdpos : (1 : ℚ) ≤ (d : ℚ) := by exact_mod_cast hd
          have hnum : |(c : ℚ) - (m : ℚ)| ≤ (img.width : ℚ) := by
            rw [abs_le]
            constructor
            · have : (-(img.width : Int) : Int) ≤ c - m := by omega
              have h2 : ((-(img.width : Int) : Int) : ℚ) ≤ ((c - m : Int) : ℚ) := by
                exact_mod_cast this
              push_cast at h2
              linarith
            · have : c - m ≤ (img.width : Int) := by omega
              have h2 : ((c - m : Int) : ℚ) ≤ (((img.width : Int)) : ℚ) := by
                exact_mod_cast this
              push_cast at h2
              linarith
          rw [abs_of_pos (by linarith : (0 : ℚ) < (d : ℚ))]
          calc |(c : ℚ) - (m : ℚ)| / (d : ℚ) ≤ |(c : ℚ) - (m : ℚ)| / 1 :=
                div_le_div_of_nonneg_left (abs_nonneg _) (by norm_num) hdpos
            _ = |(c : ℚ) - (m : ℚ)| := div_one _
            _ ≤ (img.width : ℚ) := hnum
        · exact ih _ _ _ (by omega) hc
      · exact ih _ _ _ (by omega) hc
    · exact hc

/-- The values of `atanModel` lie inside `(-M_PI / 2, M_PI / 2)`. -/
theorem atanModel_bound (x : ℚ) : |atanModel x| < M_PI / 2 := by
  have hpi : (3 : ℚ) < M_PI := by norm_num [M_PI]
  unfold atanModel
  have hsq : 0 ≤ x ^ 2 := sq_nonneg x
  by_cases h : |x| ≤ 1
  · rw [if_pos h]
    have hden : (1 : ℚ) ≤ 1 + 9 / 32 * x ^ 2 := by linarith
    rw [abs_div, abs_of_pos (by linarith : (0 : ℚ) < 1 + 9 / 32 * x ^ 2)]
    calc |x| / (1 + 9 / 32 * x ^ 2) ≤ |x| / 1 :=
          div_le_div_of_nonneg_left (abs_nonneg _) (by norm_num) hden
      _ = |x| := div_one _
      _ < M_PI / 2 := by linarith
  · rw [if_neg h]
    have h1 : 1 < |x| := not_le.mp h
    have hden : 0 < x ^ 2 + 9 / 32 := by linarith
    by_cases hx : 0 < x
    · rw [if_pos hx]
      rw [abs_of_pos hx] at h1
      have hnum : x < x ^ 2 + 9 / 32 := by nlinarith
      have hq1 : x / (x ^ 2 + 9 / 32) < 1 := (div_lt_one hden).mpr hnum
      have hq0 : 0 < x / (x ^ 2 + 9 / 32) := div_pos hx hden
      rw [abs_lt]
      constructor <;> linarith
    · rw [if_neg hx]
      have hx' : x < 0 := by
        rcases lt_or_ge x 0 with h' | h'
        · exact h'
        · rw [abs_of_nonneg h'] at h1
          linarith
      rw [abs_of_neg hx'] at h1
      have hnum : -x < x ^ 2 + 9 / 32 := by nlinarith
      have hq1 : -x / (x ^ 2 + 9 / 32) < 1 := (div_lt_one hden).mpr hnum
      have hq0 : 0 < -x / (x ^ 2 + 9 / 32) := div_pos (by linarith) hden
      rw [neg_div] at hq1 hq0
      rw [abs_lt]
      constructor <;> linarith

/-- C15: for a rolling average constant in `[0, 1]` and a library arctangent whose
values on slopes of at most `width` lie inside `(-M_PI / 2, M_PI / 2)`, the running
estimate stays strictly inside `(-M_PI / 2, M_PI / 2)` after every number `n` of
iterations, and the integer angle `getAngleOfLine` returns lies in `[-89, 89]`: it is
neither `STOP_SIGNAL_ANGLE` nor `-90`. -/
theorem getAngleOfLine_never_sentinel (atan : ℚ → ℚ) (rightSide : Bool) (numSamples : ℚ)
    (img : Image) (rolling_average_constant percent_of_samples_needed : ℚ)
    (h0 : 0 ≤ rolling_average_constant) (h1 : rolling_average_constant ≤ 1)
    (hatan : ∀ x : ℚ, |x| ≤ (img.width : ℚ) → |atan x| < M_PI / 2) :
    (∀ n : Nat,
      |(sampleState atan rightSide numSamples img rolling_average_constant n).1| <
        M_PI / 2) ∧
    -89 ≤ sampledAngle atan rightSide numSamples img rolling_average_constant
      percent_of_samples_needed ∧
    sampledAngle atan rightSide numSamples img rolling_average_constant
      percent_of_samples_needed ≤ 89 ∧
    sampledAngle atan rightSide numSamples img rolling_average_constant
      percent_of_samples_needed ≠ STOP_SIGNAL_ANGLE ∧
    sampledAngle atan rightSide numSamples img rolling_average_constant
      percent_of_samples_needed ≠ -90 := by
  have hpi : (0 : ℚ) < M_PI := by norm_num [M_PI]
  have hstate : ∀ n : Nat,
      |(sampleState atan rightSide numSamples img rolling_average_constant n).1| <
        M_PI / 2 := by
    intro n
    obtain ⟨m, hm, hmb⟩ := anchor_range rightSide img
    unfold sampleState
    rw [hm]
    have := sampleLoop_bounded atan img (initializeIncrementerPosition rightSide img).2
      rightSide numSamples rolling_average_constant (anchor rightSide img).1 m hmb h0 h1
      hatan n 1 0 0 (le_refl 1) (by rw [abs_zero]; linarith)
    simpa using this
  have hest := hstate (anchor rightSide img).1.toNat
  have hdeg : |runningEstimate atan rightSide numSamples img rolling_average_constant
      * 180 / M_PI| < 90 := by
    unfold runningEstimate
    rw [abs_div, abs_mul, abs_of_pos hpi, div_lt_iff₀ hpi]
    rw [abs_of_pos (by norm_num : (0 : ℚ) < 180)]
    linarith
  have hangle : sampledAngle atan rightSide numSamples img rolling_average_constant
        percent_of_samples_needed =
      truncToInt (runningEstimate atan rightSide numSamples img rolling_average_constant
        * 180 / M_PI) := by
    unfold sampledAngle
    rw [getAngleOfLine_eq]
  have hle := (truncToInt_spec (runningEstimate atan rightSide numSamples img
    rolling_average_constant * 180 / M_PI)).2.2.1
  rw [← hangle] at hle
  have hlt : |((sampledAngle atan rightSide numSamples img rolling_average_constant
      percent_of_samples_needed : Int) : ℚ)| < ((90 : Int) : ℚ) := by
    push_cast
    linarith
  have hint : |sampledAngle atan rightSide numSamples img rolling_average_constant
      percent_of_samples_needed| < 90 := by exact_mod_cast hlt
  rw [abs_lt] at hint
  refine ⟨hstate, by omega, by omega, ?_, by omega⟩
  simp only [STOP_SIGNAL_ANGLE]
  omega

/-- The range of the angle at `slantImage`, with `atanModel` as the arctangent. -/
theorem getAngleOfLine_never_sentinel_witness :
    sampledAngle atanModel false 4 slantImage (1 / 4) (1 / 8) ≠ STOP_SIGNAL_ANGLE :=
  (getAngleOfLine_never_sentinel atanModel false 4 slantImage (1 / 4) (1 / 8)
    (by norm_num) (by norm_num) (fun x _ => atanModel_bound x)).2.2.2.1

/-- A column of background pixels: the loop of `getVerticalEdgePixel` ends without a
`return`. -/
theorem getVerticalEdgePixelLoop_background (img : Image) (column fall : Int) :
    ∀ (n : Nat) (white black toBeChecked : Int),
      (∀ row : Nat, row < n → img.pixel (row : Int) column = 0) →
      getVerticalEdgePixelLoop img column fall n white black toBeChecked = fall := by
  intro n
  induction n with
  | zero => intros; rfl
  | succ n ih =>
    intro white black toBeChecked h
    unfold getVerticalEdgePixelLoop
    have h0 : ¬ img.pixel (n : Int) column ≠ 0 := by
      simpa using h n (Nat.lt_succ_self n)
    rw [if_neg h0]
    split <;> exact ih _ _ _ fun row hr => h row (by omega)

/-- From a candidate count of `white`, `j = NOISE_MAX - white` line pixels in a column
confirm the candidate. -/
theorem getVerticalEdgePixelLoop_confirm (img : Image) (column fall : Int) :
    ∀ (j n : Nat) (white black toBeChecked : Int),
      white + (j : Int) = NOISE_MAX → 1 ≤ j → j ≤ n →
      (∀ row : Nat, n - j ≤ row → row < n → img.pixel (row : Int) column ≠ 0) →
      getVerticalEdgePixelLoop img column fall n white black toBeChecked =
        if toBeChecked = -1 then ((n - 1 : Nat) : Int) else toBeChecked := by
  intro j
  induction j with
  | zero => intro n white black toBeChecked _ h1; omega
  | succ j ih =>
    intro n white black toBeChecked hw _ hn hrun
    obtain ⟨n, rfl⟩ : ∃ m, n = m + 1 := ⟨n - 1, by omega⟩
    unfold getVerticalEdgePixelLoop
    rw [if_pos (hrun n (by omega) (by omega))]
    simp only [Nat.add_sub_cancel]
    by_cases hlast : white + 1 = NOISE_MAX
    · rw [if_pos hlast]
    · rw [if_neg hlast]
      have hj : 1 ≤ j := by
        rcases Nat.eq_zero_or_pos j with h | h
        · subst h
          simp at hw
          exact absurd hw hlast
        · exact h
      rw [ih n (white + 1) 0 (if toBeChecked = -1 then (n : Int) else toBeChecked)
        (by push_cast at hw; omega) hj (by omega)
        (fun row h1 h2 => hrun row (by omega) (by omega))]
      by_cases ht : toBeChecked = -1
      · have hn1 : (n : Int) ≠ -1 := by omega
        simp [ht, hn1]
      · simp [ht]

/-- Background pixels met before any line pixel leave the candidate unset. -/
theorem getVerticalEdgePixelLoop_skip (img : Image) (column fall : Int) :
    ∀ (k n : Nat) (black : Int),
      (∀ row : Nat, n ≤ row → row < n + k → img.pixel (row : Int) column = 0) →
      ∃ black' : Int,
        getVerticalEdgePixelLoop img column fall (n + k) 0 black (-1) =
          getVerticalEdgePixelLoop img column fall n 0 black' (-1) := by
  intro k
  induction k with
  | zero => intro n black _; exact ⟨black, rfl⟩
  | succ k ih =>
    intro n black h
    obtain ⟨b', hb'⟩ := ih n (black + 1) fun row h1 h2 => h row h1 (by omega)
    refine ⟨b', ?_⟩
    have hstep : getVerticalEdgePixelLoop img column fall (n + (k + 1)) 0 black (-1) =
        getVerticalEdgePixelLoop img column fall (n + k) 0 (black + 1) (-1) := by
      show getVerticalEdgePixelLoop img column fall (n + k + 1) 0 black (-1) = _
      conv_lhs => unfold getVerticalEdgePixelLoop
      have h0 : ¬ img.pixel ((n + k : Nat) : Int) column ≠ 0 := by
        simpa using h (n + k) (by omega) (by omega)
      rw [if_neg h0]
      split <;> rfl
    rw [hstep, hb']

/-- In a column the band covers, `getVerticalEdgePixel` returns the lowest row of the
band. -/
theorem getVerticalEdgePixel_band (ind : Indeterminate) (img : Image)
    (r0 r1 c0 c1 : Nat) (h : HorizontalBand img r0 r1 c0 c1) (column : Nat)
    (hc0 : c0 ≤ column) (hc1 : column < c1) :
    getVerticalEdgePixel ind img (column : Int) = ((r1 - 1 : Nat) : Int) := by
  obtain ⟨hthick, hr1, _, hc1w, hpix⟩ := h
  unfold getVerticalEdgePixel
  obtain ⟨b', hb'⟩ := getVerticalEdgePixelLoop_skip img (column : Int)
    (ind.fallOff (column : Int)) (img.height - r1) r1 0 (by
      intro row h1 h2
      by_contra hne
      have := (hpix row (by omega) column (by omega)).mp hne
      omega)
  have hh : r1 + (img.height - r1) = img.height := by omega
  rw [hh] at hb'
  rw [hb', getVerticalEdgePixelLoop_confirm img (column : Int) _ 10 r1 0 b' (-1)
    (by simp [NOISE_MAX]) (by omega) (by omega)]
  · simp
  · intro row h1 h2
    exact (hpix row (by omega) column (by omega)).mpr ⟨⟨by omega, h2⟩, hc0, hc1⟩

/-- In a column the band does not cover, `getVerticalEdgePixel` reaches its end
without a `return`. -/
theorem getVerticalEdgePixel_off_band (ind : Indeterminate) (img : Image)
    (r0 r1 c0 c1 : Nat) (h : HorizontalBand img r0 r1 c0 c1) (column : Nat)
    (hcw : column < img.width) (hc : ¬ (c0 ≤ column ∧ column < c1)) :
    getVerticalEdgePixel ind img (column : Int) = ind.fallOff (column : Int) := by
  unfold getVerticalEdgePixel
  apply getVerticalEdgePixelLoop_background
  intro row hr
  by_contra hne
  exact hc ((h.2.2.2.2 row hr column hcw).mp hne).2

/-- The pixels of rows of equal length laid out one after the other. -/
theorem flatten_getD (width : Nat) :
    ∀ (rows : List (List Nat)), (∀ r ∈ rows, r.length = width) →
      ∀ row column : Nat, column < width →
        rows.flatten.getD (row * width + column) 0 = (rows.getD row []).getD column 0 := by
  intro rows
  induction rows with
  | nil => intro _ row column _; simp
  | cons r rs ih =>
    intro hlen row column hcol
    have hr : r.length = width := hlen r (List.mem_cons_self r rs)
    rw [List.flatten_cons]
    cases row with
    | zero =>
      rw [Nat.zero_mul, Nat.zero_add, List.getD_append _ _ _ _ (by omega)]
      rfl
    | succ row =>
      have hidx : (row + 1) * width + column = r.length + (row * width + column) := by
        rw [hr, Nat.succ_mul]
        omega
      rw [hidx, List.getD_append_right _ _ _ _ (by omega), Nat.add_sub_cancel_left,
        ih (fun x hx => hlen x (List.mem_cons_of_mem r hx)) row column hcol]
      rfl

/-- The pixels of `ofRows`. -/
theorem pixel_ofRows (width : Nat) (rows : List (List Nat))
    (hlen : ∀ r ∈ rows, r.length = width) (row column : Nat) (hcol : column < width) :
    (ofRows width rows).pixel (row : Int) (column : Int) =
      (rows.getD row []).getD column 0 := by
  unfold Image.pixel ofRows
  have hidx : ((row : Int) * ((width : Nat) : Int) + (column : Int)).toNat =
      row * width + column := by
    have : (row : Int) * ((width : Nat) : Int) + (column : Int) =
        ((row * width + column : Nat) : Int) := by push_cast; rfl
    rw [this, Int.toNat_ofNat]
  show rows.flatten.getD ((row : Int) * ((width : Nat) : Int) + (column : Int)).toNat 0 = _
  rw [hidx, flatten_getD width rows hlen row column hcol]

/-- A band checked row by row is a band of the image. -/
theorem horizontalBand_ofRows {width : Nat} {rows : List (List Nat)} {r0 r1 c0 c1 : Nat}
    (h : RowsBand width rows r0 r1 c0 c1) :
    HorizontalBand (ofRows width rows) r0 r1 c0 c1 := by
  obtain ⟨hlen, h1, h2, h3, h4, hpix⟩ := h
  refine ⟨h1, h2, h3, h4, ?_⟩
  intro row hrow column hcol
  rw [pixel_ofRows width rows hlen row column hcol]
  exact hpix row hrow column hcol

/-- The confidence `getConfidence` computes is at most `100` when `samplesNeeded` is
positive. -/
theorem getConfidence_le (img : Image) (percent_of_image_sampled
    percent_of_samples_needed valid_samples : ℚ)
    (hsn : 0 < (img.height : ℚ) * percent_of_samples_needed) :
    ∃ c : ℚ, getConfidence img percent_of_image_sampled percent_of_samples_needed
      valid_samples = some c ∧ c ≤ 100 := by
  unfold getConfidence mapRange
  simp only [sub_zero, add_zero]
  rw [if_neg (ne_of_gt hsn)]
  refine ⟨_, rfl, ?_⟩
  rw [div_le_iff₀ hsn]
  split
  · linarith
  · rename_i hle
    have := not_lt.mp hle
    nlinarith

/-- When the vertical scans of the first and of the last column hand back something
other than `-1`, both searches of `isPerpendicular` stop there, and its answer is a
function of these two values. -/
theorem isPerpendicular_ends (ind : Indeterminate) (img : Image) (hw : 2 ≤ img.width)
    (h0 : getVerticalEdgePixel ind img 0 ≠ -1)
    (h1 : getVerticalEdgePixel ind img ((img.width - 1 : Nat) : Int) ≠ -1) :
    isPerpendicular ind img =
      if getVerticalEdgePixel ind img ((img.width - 1 : Nat) : Int) = 0 ∧
          getVerticalEdgePixel ind img 0 = 0 then false
      else decide (|getVerticalEdgePixel ind img ((img.width - 1 : Nat) : Int) -
          getVerticalEdgePixel ind img 0| < ((img.height / 10 : Nat) : Int) ∧
        |((img.width - 1 : Nat) : Int) - 0| > ((img.width / 10 : Nat) : Int)) := by
  obtain ⟨n, hn⟩ : ∃ n, img.width = n + 2 := ⟨img.width - 2, by omega⟩
  have hl : leftSearch ind img img.width 0 ind.leftSidePixel =
      (0, getVerticalEdgePixel ind img 0) := by
    rw [hn]
    unfold leftSearch
    rw [if_pos h0]
  have hlast : img.width - 1 = n + 1 := by omega
  have hr : rightSearch ind img img.width (-1) =
      (((img.width - 1 : Nat) : Int),
        getVerticalEdgePixel ind img ((img.width - 1 : Nat) : Int)) := by
    rw [hlast] at h1 ⊢
    rw [hn]
    unfold rightSearch
    rw [if_pos h1]
  unfold isPerpendicular
  rw [hl, hr]

/-- C19 at its failing input, a background image of ten rows and ten columns: no
column has a confirmed vertical edge, so every call of `getVerticalEdgePixel` reaches
the end of the function, which has no `return`, and the searches of `isPerpendicular`
receive indeterminate values.  Its answer is decided by them: `false` when the values
received for the columns `0` and `9` are both `0`, `true` when they are one value other
than `0` and `-1`. -/
theorem isPerpendicular_background_indeterminate (ind : Indeterminate) :
    allBackground darkImage ∧
    (∀ column : Int, getVerticalEdgePixel ind darkImage column = ind.fallOff column) ∧
    (ind.fallOff 0 = 0 → ind.fallOff 9 = 0 → isPerpendicular ind darkImage = false) ∧
    (ind.fallOff 0 ≠ 0 → ind.fallOff 0 ≠ -1 → ind.fallOff 9 = ind.fallOff 0 →
      isPerpendicular ind darkImage = true) := by
  have hbg : allBackground darkImage := by decide
  have hfall : ∀ column : Int,
      getVerticalEdgePixel ind darkImage column = ind.fallOff column := by
    intro column
    unfold getVerticalEdgePixel
    exact getVerticalEdgePixelLoop_background darkImage _ _ _ _ _ _
      (fun row _ => pixel_eq_zero_of_allBackground hbg _ _)
  have hends : ∀ h0 : ind.fallOff 0 ≠ -1, ind.fallOff 9 ≠ -1 →
      isPerpendicular ind darkImage =
        if ind.fallOff 9 = 0 ∧ ind.fallOff 0 = 0 then false
        else decide (|ind.fallOff 9 - ind.fallOff 0| < 1 ∧ |(9 : Int) - 0| > 1) := by
    intro h0 h9
    have := isPerpendicular_ends ind darkImage (by decide) (by rw [hfall]; exact h0)
      (by rw [hfall]; exact h9)
    rw [hfall, hfall] at this
    exact this
  refine ⟨hbg, hfall, ?_, ?_⟩
  · intro h0 h9
    rw [hends (by omega) (by omega), if_pos ⟨h9, h0⟩]
  · intro h0 h1 h9
    rw [hends h1 (by omega), if_neg (fun h => h0 h.2), h9, sub_self]
    decide

set_option maxRecDepth 100000 in
/-- C20 at its failing input, `crossingImage`: a level band ten rows thick whose last
and first columns are more than `width / 10` apart.  The first and the last column of
the image (`0` and `29`) have no vertical edge, so the scans `isPerpendicular` starts
with reach the end of `getVerticalEdgePixel`, which has no `return`.  When the values
the searches receive are not `-1` they stop at these two columns and the band is never
looked at; when both values are `0`, `isPerpendicular` answers `false` and the default
configuration gives the confidence `100`. -/
theorem getDesiredAngle_stop_line_indeterminate (ind : Indeterminate) :
    HorizontalBand crossingImage 1 11 10 20 ∧ crossingImage.width / 10 < 20 - 1 - 10 ∧
    getVerticalEdgePixel ind crossingImage 0 = ind.fallOff 0 ∧
    getVerticalEdgePixel ind crossingImage 29 = ind.fallOff 29 ∧
    (ind.fallOff 0 ≠ -1 → ind.fallOff 29 ≠ -1 →
      isPerpendicular ind crossingImage =
        if ind.fallOff 29 = 0 ∧ ind.fallOff 0 = 0 then false
        else decide (|ind.fallOff 29 - ind.fallOff 0| < 1 ∧ |(29 : Int) - 0| > 3)) ∧
    (ind.fallOff 0 = 0 → ind.fallOff 29 = 0 →
      isPerpendicular ind crossingImage = false ∧
      (getDesiredAngle atanModel ind 3 crossingImage (1 / 4) (1 / 4) (1 / 8) 25
        (1 / 20)).2 = some 100) := by
  have hband : HorizontalBand crossingImage 1 11 10 20 :=
    horizontalBand_ofRows (show RowsBand 30 crossingRows 1 11 10 20 by decide)
  have h0 : getVerticalEdgePixel ind crossingImage 0 = ind.fallOff 0 :=
    getVerticalEdgePixel_off_band ind crossingImage 1 11 10 20 hband 0 (by decide)
      (by omega)
  have h29 : getVerticalEdgePixel ind crossingImage 29 = ind.fallOff 29 :=
    getVerticalEdgePixel_off_band ind crossingImage 1 11 10 20 hband 29 (by decide)
      (by omega)
  have hends : ind.fallOff 0 ≠ -1 → ind.fallOff 29 ≠ -1 →
      isPerpendicular ind crossingImage =
        if ind.fallOff 29 = 0 ∧ ind.fallOff 0 = 0 then false
        else decide (|ind.fallOff 29 - ind.fallOff 0| < 1 ∧ |(29 : Int) - 0| > 3) := by
    intro hl hr
    have := isPerpendicular_ends ind crossingImage (by decide) (by rw [h0]; exact hl)
      (by
        show getVerticalEdgePixel ind crossingImage 29 ≠ -1
        rw [h29]
        exact hr)
    have e : getVerticalEdgePixel ind crossingImage
        ((crossingImage.width - 1 : Nat) : Int) = ind.fallOff 29 := h29
    rw [e, h0] at this
    exact this
  refine ⟨hband, by decide, h0, h29, hends, ?_⟩
  intro hl hr
  have hp : isPerpendicular ind crossingImage = false := by
    rw [hends (by omega) (by omega), if_pos ⟨hr, hl⟩]
  have hL : sampledConfidence atanModel false 3 crossingImage (1 / 4) (1 / 4)
      (1 / 8) = some 100 := by decide!
  obtain ⟨c, hc, hle⟩ := getConfidence_le crossingImage (1 / 4) (1 / 8)
    (getAngleOfLine atanModel true 3 crossingImage (1 / 4) (1 / 8)).2
    (by norm_num [crossingImage, ofRows, crossingRows])
  have hR : sampledConfidence atanModel true 3 crossingImage (1 / 4) (1 / 4)
      (1 / 8) = some c := hc
  refine ⟨hp, ?_⟩
  rw [getDesiredAngle_confidence, hp, selectPair_eq, hL, hR]
  have hd : dgt (some c) (some 100) = false := by
    simp only [dgt, decide_eq_false_iff_not, not_lt]
    exact hle
  rw [hd]
  rfl

/-! ## VelocityMapper -/

/-- The value of `getDesiredAngularSpeed` away from the sentinel. -/
theorem getDesiredAngularSpeed_eq (a : ℚ) (ha : a ≠ 90) :
    getDesiredAngularSpeed a = (SignType.sign a : ℚ) * a ^ 2 / 10000 := by
  unfold getDesiredAngularSpeed
  have h90 : ((STOP_SIGNAL_ANGLE : Int) : ℚ) = 90 := by norm_num [STOP_SIGNAL_ANGLE]
  rw [h90, if_neg ha]
  rcases lt_trichotomy a 0 with h | h | h
  · rw [if_pos h, sign_neg h]
    simp
    ring
  · subst h
    simp
  · rw [if_neg (not_lt.mpr h.le), sign_pos h]
    simp

/-- The magnitude of `getDesiredAngularSpeed` away from the sentinel. -/
theorem getDesiredAngularSpeed_abs (a : ℚ) (ha : a ≠ 90) :
    |getDesiredAngularSpeed a| = a ^ 2 / 10000 := by
  unfold getDesiredAngularSpeed
  have h90 : ((STOP_SIGNAL_ANGLE : Int) : ℚ) = 90 := by norm_num [STOP_SIGNAL_ANGLE]
  have hsq : 0 ≤ a ^ 2 / 10000 := div_nonneg (sq_nonneg a) (by norm_num)
  rw [h90, if_neg ha]
  split
  · rw [mul_neg_one, abs_neg, abs_of_nonneg hsq]
  · rw [abs_of_nonneg hsq]

/-- C21: `getDesiredAngularSpeed` returns `0` at the angle `90` and
`sign(angle) * angle² / 10000` at every other angle; so away from `90` its magnitude
is strictly increasing in `|angle|` and its sign is the sign of the angle. -/
theorem getDesiredAngularSpeed_spec :
    getDesiredAngularSpeed 90 = 0 ∧
    (∀ a : ℚ, a ≠ 90 →
      getDesiredAngularSpeed a = (SignType.sign a : ℚ) * a ^ 2 / 10000) ∧
    (∀ a b : ℚ, a ≠ 90 → b ≠ 90 → |a| < |b| →
      |getDesiredAngularSpeed a| < |getDesiredAngularSpeed b|) ∧
    (∀ a : ℚ, a ≠ 90 → SignType.sign (getDesiredAngularSpeed a) = SignType.sign a) := by
  refine ⟨?_, getDesiredAngularSpeed_eq, ?_, ?_⟩
  · norm_num [getDesiredAngularSpeed, STOP_SIGNAL_ANGLE]
  · intro a b ha hb hab
    rw [getDesiredAngularSpeed_abs a ha, getDesiredAngularSpeed_abs b hb]
    apply div_lt_div_of_pos_right _ (by norm_num)
    exact sq_lt_sq.mpr hab
  · intro a ha
    rw [getDesiredAngularSpeed_eq a ha]
    rcases lt_trichotomy a 0 with h | h | h
    · rw [sign_neg h]
      have hv : 0 < a ^ 2 / 10000 := div_pos (by nlinarith) (by norm_num)
      have e : (((-1 : SignType) : ℚ)) * a ^ 2 / 10000 = -(a ^ 2 / 10000) := by
        rw [SignType.coe_neg_one]
        ring
      rw [e]
      exact sign_neg (by linarith)
    · subst h
      simp
    · rw [sign_pos h]
      have hv : 0 < a ^ 2 / 10000 := div_pos (by nlinarith) (by norm_num)
      have e : (((1 : SignType) : ℚ)) * a ^ 2 / 10000 = a ^ 2 / 10000 := by
        rw [SignType.coe_one]
        ring
      rw [e]
      exact sign_pos hv

/-- The value of `getDesiredLinearSpeed` at an integer angle other than the
sentinel. -/
theorem getDesiredLinearSpeed_eq (a : Int) (ha : a ≠ 90) :
    getDesiredLinearSpeed (a : ℚ) = some (1 - ((|a| : Int) : ℚ) / 90) := by
  have hq : (a : ℚ) ≠ ((STOP_SIGNAL_ANGLE : Int) : ℚ) := by
    intro h
    apply ha
    exact_mod_cast h
  unfold getDesiredLinearSpeed mapRange
  rw [if_neg hq, truncToInt_intCast]
  norm_num

/-- C23: `getDesiredLinearSpeed` is `1` at the angle `0` and `0` at the angle `90`; at
an integer angle of `[-90, 90]` other than `90` it is `1 - |angle| / 90`, a value of
`[0, 1]` that does not increase with `|angle|`. -/
theorem getDesiredLinearSpeed_spec :
    getDesiredLinearSpeed 0 = some 1 ∧ getDesiredLinearSpeed 90 = some 0 ∧
    (∀ a : Int, -90 ≤ a → a ≤ 90 → a ≠ 90 →
      getDesiredLinearSpeed (a : ℚ) = some (1 - ((|a| : Int) : ℚ) / 90) ∧
      0 ≤ 1 - ((|a| : Int) : ℚ) / 90 ∧ 1 - ((|a| : Int) : ℚ) / 90 ≤ 1) ∧
    (∀ a b : Int, -90 ≤ a → a ≤ 90 → a ≠ 90 → -90 ≤ b → b ≤ 90 → b ≠ 90 → |a| ≤ |b| →
      ∀ va vb : ℚ, getDesiredLinearSpeed (a : ℚ) = some va →
        getDesiredLinearSpeed (b : ℚ) = some vb → vb ≤ va) := by
  refine ⟨?_, ?_, ?_, ?_⟩
  · have := getDesiredLinearSpeed_eq 0 (by decide)
    simpa using this
  · unfold getDesiredLinearSpeed
    norm_num [STOP_SIGNAL_ANGLE]
  · intro a h1 h2 h3
    refine ⟨getDesiredLinearSpeed_eq a h3, ?_, ?_⟩
    · have : |a| ≤ 90 := abs_le.mpr ⟨h1, h2⟩
      have hq : ((|a| : Int) : ℚ) ≤ ((90 : Int) : ℚ) := by exact_mod_cast this
      push_cast at hq
      rw [sub_nonneg, div_le_one (by norm_num)]
      exact_mod_cast hq
    · have : (0 : ℚ) ≤ ((|a| : Int) : ℚ) := by exact_mod_cast abs_nonneg a
      rw [sub_le_self_iff]
      exact div_nonneg this (by norm_num)
  · intro a b _ _ ha _ _ hb hab va vb hva hvb
    rw [getDesiredLinearSpeed_eq a ha] at hva
    rw [getDesiredLinearSpeed_eq b hb] at hvb
    have h1 := Option.some.inj hva
    have h2 := Option.some.inj hvb
    rw [← h1, ← h2]
    have hq : ((|a| : Int) : ℚ) ≤ ((|b| : Int) : ℚ) := by exact_mod_cast hab
    have := div_le_div_of_nonneg_right hq (by norm_num : (0 : ℚ) ≤ 90)
    linarith

/-! ## Margins of confirmed edges -/

/-- The candidate of the vertical scan lies at least as many rows above the next row to
read as line pixels were counted since it was set. -/
theorem getVerticalEdgePixelLoop_margin (img : Image) (column fall : Int) :
    ∀ (n : Nat) (white black toBeChecked : Int),
      ((toBeChecked = -1 ∧ white = 0) ∨
        (toBeChecked ≠ -1 ∧ white + (n : Int) ≤ toBeChecked + 1)) →
      getVerticalEdgePixelLoop img column fall n white black toBeChecked ≠ fall →
      9 ≤ getVerticalEdgePixelLoop img column fall n white black toBeChecked := by
  intro n
  induction n with
  | zero =>
    intro white black toBeChecked _ h
    exact absurd rfl h
  | succ n ih =>
    intro white black toBeChecked hst hne
    unfold getVerticalEdgePixelLoop at hne ⊢
    by_cases hp : img.pixel (n : Int) column ≠ 0
    · rw [if_pos hp] at hne ⊢
      by_cases hlast : white + 1 = NOISE_MAX
      · rw [if_pos hlast]
        simp only [NOISE_MAX] at hlast
        rcases hst with ⟨_, hw⟩ | ⟨ht, hw⟩
        · omega
        · rw [if_neg ht]
          push_cast at hw
          omega
      · rw [if_neg hlast] at hne ⊢
        apply ih _ _ _ _ hne
        right
        rcases hst with ⟨ht, hw⟩ | ⟨ht, hw⟩
        · rw [if_pos ht]
          exact ⟨by omega, by omega⟩
        · rw [if_neg ht]
          push_cast at hw
          exact ⟨ht, by omega⟩
    · rw [if_neg hp] at hne ⊢
      by_cases hreset : black + 1 = NOISE_MAX
      · rw [if_pos hreset] at hne ⊢
        exact ih _ _ _ (Or.inl ⟨rfl, rfl⟩) hne
      · rw [if_neg hreset] at hne ⊢
        apply ih _ _ _ _ hne
        rcases hst with h | ⟨ht, hw⟩
        · exact Or.inl h
        · right
          push_cast at hw
          exact ⟨ht, by omega⟩

/-- A column that `getEdgePixel` returns is followed, in the scan direction, by at least
nine further columns of the row. -/
theorem getEdgePixel_margin (img : Image) (startingPos incrementer row : Int)
    (isStartPixel : Bool)
    (h : getEdgePixel img startingPos incrementer row isStartPixel ≠ -1) :
    ∃ k : Nat, 9 ≤ k ∧
      inBounds img (getEdgePixel img startingPos incrementer row isStartPixel +
        (k : Int) * incrementer) := by
  obtain ⟨k, hk⟩ := getEdgePixelLoop_confirmed img incrementer row isStartPixel img.width
    startingPos 0 0 (-1) (Or.inl ⟨rfl, rfl⟩) h
  have h1 := hk.count
  have h2 := countMatching_le img incrementer row isStartPixel
    (getEdgePixel img startingPos incrementer row isStartPixel) (k + 1)
  unfold getEdgePixel at h2
  exact ⟨k, by omega, hk.bounds k (le_refl k)⟩

/-- C27: whenever `getVerticalEdgePixel` returns from inside its loop (its result is
not the indeterminate value of the missing `return`), the row it returns is at least
`NOISE_MAX - 1 = 9`; a left-to-right result of `getEdgePixel` is at most `width - 10`
and a right-to-left result at least `9`; so two confirmed vertical edges are never both
`0`, the pair that the test of `isPerpendicular` excludes. -/
theorem confirmed_edge_margin (ind : Indeterminate) (img : Image)
    (column column' startingPos row : Int) (isStartPixel : Bool) :
    (getVerticalEdgePixel ind img column ≠ ind.fallOff column →
      9 ≤ getVerticalEdgePixel ind img column) ∧
    (getEdgePixel img startingPos 1 row isStartPixel ≠ -1 →
      getEdgePixel img startingPos 1 row isStartPixel ≤ (img.width : Int) - 10) ∧
    (getEdgePixel img startingPos (-1) row isStartPixel ≠ -1 →
      9 ≤ getEdgePixel img startingPos (-1) row isStartPixel) ∧
    (getVerticalEdgePixel ind img column ≠ ind.fallOff column →
      getVerticalEdgePixel ind img column' ≠ ind.fallOff column' →
      ¬ (getVerticalEdgePixel ind img column' = 0 ∧
        getVerticalEdgePixel ind img column = 0)) := by
  have hv : ∀ c : Int, getVerticalEdgePixel ind img c ≠ ind.fallOff c →
      9 ≤ getVerticalEdgePixel ind img c := by
    intro c hc
    unfold getVerticalEdgePixel at hc ⊢
    exact getVerticalEdgePixelLoop_margin img c _ _ _ _ _ (Or.inl ⟨rfl, rfl⟩) hc
  refine ⟨hv column, ?_, ?_, ?_⟩
  · intro h
    obtain ⟨k, hk, hb⟩ := getEdgePixel_margin img startingPos 1 row isStartPixel h
    have := hb.2
    omega
  · intro h
    obtain ⟨k, hk, hb⟩ := getEdgePixel_margin img startingPos (-1) row isStartPixel h
    have := hb.1
    omega
  · intro h1 h2 hzero
    have := hv column h1
    omega

/-- The margin in `bandImage`: the vertical edge of column 10 is row 11. -/
theorem confirmed_edge_margin_witness :
    9 ≤ getVerticalEdgePixel notFoundRun bandImage 10 :=
  (confirmed_edge_margin notFoundRun bandImage 10 10 0 0 true).1 (by decide)

/-! ## The angle handed to the velocity mapper -/

/-- The angle `getAngleOfLine` returns lies in `[-89, 89]` for a rolling average
constant in `[0, 1]` and a library arctangent with values inside
`(-M_PI / 2, M_PI / 2)` on slopes of at most `width`. -/
theorem sampledAngle_range (atan : ℚ → ℚ) (rightSide : Bool) (numSamples : ℚ)
    (img : Image) (rolling_average_constant percent_of_samples_needed : ℚ)
    (h0 : 0 ≤ rolling_average_constant) (h1 : rolling_average_constant ≤ 1)
    (hatan : ∀ x : ℚ, |x| ≤ (img.width : ℚ) → |atan x| < M_PI / 2) :
    -89 ≤ sampledAngle atan rightSide numSamples img rolling_average_constant
      percent_of_samples_needed ∧
    sampledAngle atan rightSide numSamples img rolling_average_constant
      percent_of_samples_needed ≤ 89 := by
  have hpi : (0 : ℚ) < M_PI := by norm_num [M_PI]
  obtain ⟨m, hm, hmb⟩ := anchor_range rightSide img
  have hest : |runningEstimate atan rightSide numSamples img rolling_average_constant| <
      M_PI / 2 := by
    unfold runningEstimate sampleState
    rw [hm]
    have := sampleLoop_bounded atan img (initializeIncrementerPosition rightSide img).2
      rightSide numSamples rolling_average_constant (anchor rightSide img).1 m hmb h0 h1
      hatan (anchor rightSide img).1.toNat 1 0 0 (le_refl 1) (by rw [abs_zero]; linarith)
    simpa using this
  have hdeg : |runningEstimate atan rightSide numSamples img rolling_average_constant
      * 180 / M_PI| < 90 := by
    rw [abs_div, abs_mul, abs_of_pos hpi, div_lt_iff₀ hpi]
    rw [abs_of_pos (by norm_num : (0 : ℚ) < 180)]
    linarith
  have hangle : sampledAngle atan rightSide numSamples img rolling_average_constant
        percent_of_samples_needed =
      truncToInt (runningEstimate atan rightSide numSamples img rolling_average_constant
        * 180 / M_PI) := by
    unfold sampledAngle
    rw [getAngleOfLine_eq]
  have hle := (truncToInt_spec (runningEstimate atan rightSide numSamples img
    rolling_average_constant * 180 / M_PI)).2.2.1
  rw [← hangle] at hle
  have hlt : |((sampledAngle atan rightSide numSamples img rolling_average_constant
      percent_of_samples_needed : Int) : ℚ)| < ((90 : Int) : ℚ) := by
    push_cast
    linarith
  have hint : |sampledAngle atan rightSide numSamples img rolling_average_constant
      percent_of_samples_needed| < 90 := by exact_mod_cast hlt
  rw [abs_lt] at hint
  constructor <;> omega

/-- C28: for a rolling average constant in `[0, 1]` (and a library arctangent with
values inside `(-M_PI / 2, M_PI / 2)` on slopes of at most `width`), the angle
`getDesiredAngle` returns is `45`, `-45` or an integer of `[-89, 89]`, never
`STOP_SIGNAL_ANGLE`; `getDesiredLinearSpeed` of it, the `linear.x` that `imageCallBack`
publishes, is strictly positive, whatever `isPerpendicular` answers. -/
theorem getDesiredAngle_never_stops (atan : ℚ → ℚ) (ind : Indeterminate) (numSamples : ℚ)
    (img : Image) (rolling_average_constant percent_of_image_sampled
      percent_of_samples_needed move_away_threshold percent_of_white_needed : ℚ)
    (h0 : 0 ≤ rolling_average_constant) (h1 : rolling_average_constant ≤ 1)
    (hatan : ∀ x : ℚ, |x| ≤ (img.width : ℚ) → |atan x| < M_PI / 2) :
    ((getDesiredAngle atan ind numSamples img rolling_average_constant
          percent_of_image_sampled percent_of_samples_needed move_away_threshold
          percent_of_white_needed).1 = 45 ∨
      (getDesiredAngle atan ind numSamples img rolling_average_constant
          percent_of_image_sampled percent_of_samples_needed move_away_threshold
          percent_of_white_needed).1 = -45 ∨
      (-89 ≤ (getDesiredAngle atan ind numSamples img rolling_average_constant
          percent_of_image_sampled percent_of_samples_needed move_away_threshold
          percent_of_white_needed).1 ∧
        (getDesiredAngle atan ind numSamples img rolling_average_constant
          percent_of_image_sampled percent_of_samples_needed move_away_threshold
          percent_of_white_needed).1 ≤ 89)) ∧
    (getDesiredAngle atan ind numSamples img rolling_average_constant
        percent_of_image_sampled percent_of_samples_needed move_away_threshold
        percent_of_white_needed).1 ≠ STOP_SIGNAL_ANGLE ∧
    (∃ v : ℚ, getDesiredLinearSpeed
        (((getDesiredAngle atan ind numSamples img rolling_average_constant
          percent_of_image_sampled percent_of_samples_needed move_away_threshold
          percent_of_white_needed).1 : Int) : ℚ) = some v ∧ 0 < v) ∧
    (numSamples = (img.height : ℚ) * percent_of_image_sampled →
      ∀ params : Params,
        params.rolling_average_constant = rolling_average_constant →
        params.percent_of_image_sampled = percent_of_image_sampled →
        params.percent_of_samples_needed = percent_of_samples_needed →
        params.move_away_threshold = move_away_threshold →
        params.percent_of_white_needed = percent_of_white_needed →
        ∃ v : ℚ, (imageCallBack atan ind params img).linear_x = some v ∧ 0 < v) := by
  have hrange : -89 ≤ (getDesiredAngle atan ind numSamples img rolling_average_constant
        percent_of_image_sampled percent_of_samples_needed move_away_threshold
        percent_of_white_needed).1 ∧
      (getDesiredAngle atan ind numSamples img rolling_average_constant
        percent_of_image_sampled percent_of_samples_needed move_away_threshold
        percent_of_white_needed).1 ≤ 89 := by
    have hsel : -89 ≤ (selectPair atan numSamples img rolling_average_constant
          percent_of_image_sampled percent_of_samples_needed).1 ∧
        (selectPair atan numSamples img rolling_average_constant
          percent_of_image_sampled percent_of_samples_needed).1 ≤ 89 := by
      rw [selectPair_eq]
      split
      · exact sampledAngle_range atan true numSamples img rolling_average_constant
          percent_of_samples_needed h0 h1 hatan
      · exact sampledAngle_range atan false numSamples img rolling_average_constant
          percent_of_samples_needed h0 h1 hatan
    have hmove : -89 ≤ moveAwayFromLine img ∧ moveAwayFromLine img ≤ 89 := by
      rcases moveAwayFromLine_cases img with h | h <;> rw [h] <;> decide
    rw [getDesiredAngle_angle]
    split
    · split
      · exact hmove
      · exact hsel
    · exact hmove
  have hspeed : ∃ v : ℚ, getDesiredLinearSpeed
      (((getDesiredAngle atan ind numSamples img rolling_average_constant
        percent_of_image_sampled percent_of_samples_needed move_away_threshold
        percent_of_white_needed).1 : Int) : ℚ) = some v ∧ 0 < v := by
    generalize (getDesiredAngle atan ind numSamples img rolling_average_constant
      percent_of_image_sampled percent_of_samples_needed move_away_threshold
      percent_of_white_needed).1 = angle at hrange
    refine ⟨_, getDesiredLinearSpeed_eq angle (by omega), ?_⟩
    have habs : |angle| ≤ 89 := abs_le.mpr ⟨hrange.1, hrange.2⟩
    have hq : ((|angle| : Int) : ℚ) ≤ ((89 : Int) : ℚ) := by exact_mod_cast habs
    push_cast at hq
    have : ((|angle| : Int) : ℚ) / 90 ≤ 89 / 90 :=
      div_le_div_of_nonneg_right (by exact_mod_cast hq) (by norm_num)
    have h89 : (89 : ℚ) / 90 < 1 := by norm_num
    linarith
  refine ⟨Or.inr (Or.inr hrange), ?_, hspeed, ?_⟩
  · simp only [STOP_SIGNAL_ANGLE]
    omega
  · intro hn params e1 e2 e3 e4 e5
    unfold imageCallBack
    dsimp only
    rw [e1, e2, e3, e4, e5, ← hn]
    exact hspeed

/-- The angle and the speed at `slantImage`, with `atanModel` as the arctangent. -/
theorem getDesiredAngle_never_stops_witness :
    (getDesiredAngle atanModel notFoundRun 1 slantImage (1 / 4) (1 / 4) (1 / 8) 25
      (1 / 20)).1 ≠ STOP_SIGNAL_ANGLE :=
  (getDesiredAngle_never_stops atanModel notFoundRun 1 slantImage (1 / 4) (1 / 4) (1 / 8)
    25 (1 / 20) (by norm_num) (by norm_num) (fun x _ => atanModel_bound x)).2.1

/-! ## Identical rows -/

/-- A row with an entering edge has a midpoint that is not negative. -/
theorem getMiddle_nonneg (img : Image) (startingPos row : Int) (rightSide : Bool)
    (hs : getEdgePixel img startingPos (if rightSide then -1 else 1) row true ≠ -1) :
    0 ≤ getMiddle img startingPos row rightSide := by
  have hsb := (getEdgePixel_range img startingPos (if rightSide then -1 else 1) row
    true).resolve_left hs
  have he := getEdgePixel_range img
    (getEdgePixel img startingPos (if rightSide then -1 else 1) row true)
    (if rightSide then -1 else 1) row false
  have hmid : getMiddle img startingPos row rightSide =
      Int.tdiv (getEdgePixel img startingPos (if rightSide then -1 else 1) row true +
        getEdgePixel img
          (getEdgePixel img startingPos (if rightSide then -1 else 1) row true)
          (if rightSide then -1 else 1) row false) 2 := rfl
  rw [hmid]
  generalize getEdgePixel img
    (getEdgePixel img startingPos (if rightSide then -1 else 1) row true)
    (if rightSide then -1 else 1) row false = e at he ⊢
  generalize getEdgePixel img startingPos (if rightSide then -1 else 1) row true = s
    at hsb ⊢
  unfold inBounds at hsb he
  rcases he with he | he
  · subst he
    rcases lt_or_ge s 1 with h1 | h1
    · have : s = 0 := by omega
      subst this
      decide
    · rw [Int.tdiv_eq_ediv (by omega) (by decide)]
      omega
  · rw [Int.tdiv_eq_ediv (by omega) (by decide)]
    omega

/-- The incrementer `getAngleOfLine` scans with is the one `getMiddle` scans with. -/
theorem initializeIncrementerPosition_fst (rightSide : Bool) (img : Image) :
    (initializeIncrementerPosition rightSide img).1 = if rightSide then -1 else 1 := by
  cases rightSide <;> rfl

/-- On rows that all have the midpoint of the anchor row `b`, a column of the row, the
sampling loop accepts every row it reads: it leaves the angle `0` and adds to the valid
samples the number of `k` with `d ≤ k < b` and `k < numSamples`. -/
theorem sampleLoop_sameRows_count (atan : ℚ → ℚ) (hatan : atan 0 = 0) (img : Image)
    (startingPos : Int) (rightSide : Bool) (numSamples rolling_average_constant : ℚ)
    (b : Nat) (hbr : b < img.height)
    (hmid : 0 ≤ getMiddle img startingPos (b : Int) rightSide)
    (hrows : ∀ r : Int, 0 ≤ r → r < (img.height : Int) →
      getMiddle img startingPos r rightSide = getMiddle img startingPos (b : Int) rightSide) :
    ∀ (fuel d : Nat) (v : ℚ), b ≤ d + fuel →
      sampleLoop atan img startingPos rightSide numSamples rolling_average_constant
          (b : Int) (getMiddle img startingPos (b : Int) rightSide : ℚ) fuel (d : ℚ) 0 v =
        (0, v + (((List.range' d (b - d)).filter fun (k : Nat) =>
          decide ((k : ℚ) < numSamples)).length : Nat)) := by
  have hpi : (0 : ℚ) < M_PI := by norm_num [M_PI]
  have hx1 : ((getMiddle img startingPos (b : Int) rightSide : Int) : ℚ) ≠ -1 := by
    have : ((0 : Int) : ℚ) ≤ ((getMiddle img startingPos (b : Int) rightSide : Int) : ℚ) := by
      exact_mod_cast hmid
    intro h
    rw [h] at this
    norm_num at this
  intro fuel
  induction fuel with
  | zero =>
    intro d v hle
    have : b - d = 0 := by omega
    rw [this]
    simp [sampleLoop]
  | succ fuel ih =>
    intro d v hle
    have hnext : ((d : ℚ) + 1) = ((d + 1 : Nat) : ℚ) := by push_cast; rfl
    unfold sampleLoop
    by_cases hc : (d : ℚ) < numSamples ∧ (((b : Int) : ℚ)) - (d : ℚ) > 0
    · rw [if_pos hc]
      have hcast : (((b : Int) : ℚ)) - (d : ℚ) = (((b : Int) - (d : Int) : Int) : ℚ) := by
        push_cast
        rfl
      have hpos : 0 < (b : Int) - (d : Int) := by
        have := hc.2
        rw [hcast] at this
        exact_mod_cast this
      have hrow : getMiddle img startingPos (truncToInt ((((b : Int) : ℚ)) - (d : ℚ)))
          rightSide = getMiddle img startingPos (b : Int) rightSide := by
        rw [hcast, truncToInt_intCast]
        exact hrows _ (by omega) (by omega)
      have haccept : |(0 : ℚ)| * 180 / M_PI < 90 := by
        rw [abs_zero, zero_mul, zero_div]
        norm_num
      dsimp only
      rw [hrow, if_pos ⟨hx1, hx1⟩]
      simp only [sub_self, neg_zero, zero_div, hatan]
      rw [if_pos haccept, hnext]
      simp only [mul_zero, add_zero]
      rw [ih (d + 1) (v + 1) (by omega)]
      have hlen : b - d = (b - (d + 1)) + 1 := by omega
      rw [hlen, List.range'_succ, List.filter_cons_of_pos (by simpa using hc.1)]
      simp only [List.length_cons]
      push_cast
      congr 1
      ring
    · rw [if_neg hc]
      have hnil : ((List.range' d (b - d)).filter fun (k : Nat) =>
          decide ((k : ℚ) < numSamples)) = [] := by
        rw [List.filter_eq_nil_iff]
        intro k hk
        rw [List.mem_range'_1] at hk
        have hdq : (((b : Int) : ℚ)) - (d : ℚ) > 0 := by
          have : (d : ℚ) < (b : ℚ) := by exact_mod_cast (by omega : d < b)
          rw [Int.cast_natCast]
          linarith
        have hnum : ¬ (d : ℚ) < numSamples := fun h => hc ⟨h, hdq⟩
        have hkd : (d : ℚ) ≤ (k : ℚ) := by exact_mod_cast hk.1
        simp only [decide_eq_true_eq, not_lt]
        linarith [not_lt.mp hnum]
      rw [hnil]
      simp

/-- On identical rows with an entering edge, `getAngleOfLine` returns the angle `0` and
counts every row it samples. -/
theorem getAngleOfLine_sameRows_count (atan : ℚ → ℚ) (hatan : atan 0 = 0)
    (rightSide : Bool) (numSamples : ℚ) (img : Image)
    (rolling_average_constant percent_of_samples_needed : ℚ)
    (hh : 2 ≤ img.height) (hsame : SameRows img) (r : Nat) (hr : r < img.height)
    (hedge : getEdgePixel img (initializeIncrementerPosition rightSide img).2
      (if rightSide then -1 else 1) (r : Int) true ≠ -1) :
    getAngleOfLine atan rightSide numSamples img rolling_average_constant
        percent_of_samples_needed =
      (0, (sampledRows numSamples img.height : ℚ)) := by
  obtain ⟨b, hb⟩ : ∃ b, img.height - 1 = b + 1 := ⟨img.height - 2, by omega⟩
  have hrowcongr : ∀ row row' : Int, 0 ≤ row → row < (img.height : Int) → 0 ≤ row' →
      row' < (img.height : Int) → ∀ column, inBounds img column →
      (img.pixel row column = 0 ↔ img.pixel row' column = 0) := by
    intro row row' h0 h1 h0' h1' column hcol
    have e1 : ((row.toNat : Nat) : Int) = row := Int.toNat_of_nonneg h0
    have e2 : ((row'.toNat : Nat) : Int) = row' := Int.toNat_of_nonneg h0'
    have e3 : ((column.toNat : Nat) : Int) = column := Int.toNat_of_nonneg hcol.1
    have := hsame row.toNat row'.toNat column.toNat (by omega) (by omega)
      (by have := hcol.2; omega)
    rwa [e1, e2, e3] at this
  have hedge' : getEdgePixel img (initializeIncrementerPosition rightSide img).2
      (initializeIncrementerPosition rightSide img).1 ((b + 1 : Nat) : Int) true ≠ -1 := by
    rw [initializeIncrementerPosition_fst]
    unfold getEdgePixel at hedge ⊢
    rw [getEdgePixelLoop_row_congr img _ true ((b + 1 : Nat) : Int) (r : Int)
      (hrowcongr _ _ (by omega) (by omega) (by omega) (by omega))]
    exact hedge
  have hanchor : anchor rightSide img = (((b + 1 : Nat) : Int),
      (getMiddle img (initializeIncrementerPosition rightSide img).2
        ((b + 1 : Nat) : Int) rightSide : ℚ)) := by
    unfold anchor
    rw [hb]
    unfold anchorLoop
    rw [if_pos hedge']
  have hmid : 0 ≤ getMiddle img (initializeIncrementerPosition rightSide img).2
      ((b + 1 : Nat) : Int) rightSide := by
    apply getMiddle_nonneg
    rw [← initializeIncrementerPosition_fst rightSide img]
    exact hedge'
  have hloop := sampleLoop_sameRows_count atan hatan img
    (initializeIncrementerPosition rightSide img).2 rightSide numSamples
    rolling_average_constant (b + 1) (by omega) hmid
    (fun row h0 h1 => getMiddle_sameRows hsame _ _ row ((b + 1 : Nat) : Int) h0 h1
      (by omega) (by omega))
    (b + 1) 1 0 (by omega)
  have hx1 : ((getMiddle img (initializeIncrementerPosition rightSide img).2
      ((b + 1 : Nat) : Int) rightSide : Int) : ℚ) ≠ -1 := by
    have : ((0 : Int) : ℚ) ≤ ((getMiddle img (initializeIncrementerPosition rightSide img).2
        ((b + 1 : Nat) : Int) rightSide : Int) : ℚ) := by exact_mod_cast hmid
    intro h
    rw [h] at this
    norm_num at this
  rw [getAngleOfLine_eq]
  unfold runningEstimate sampleState
  rw [hanchor]
  dsimp only
  rw [Int.toNat_ofNat, if_neg hx1]
  have hone : ((1 : Nat) : ℚ) = 1 := Nat.cast_one
  rw [hone] at hloop
  rw [hloop]
  have hcount : b + 1 - 1 = img.height - 2 := by omega
  simp only [zero_mul, zero_div, zero_add, hcount]
  unfold sampledRows
  simp [truncToInt]

/-- C25: in an image of at least two rows whose rows are all the same and have a
confirmed entering edge in the scan direction, with `atan 0 = 0`, `getAngleOfLine`
returns the angle `0` and accepts every row it samples: `validSamples` is the number of
integers `d` with `1 ≤ d < numSamples` and `d < height - 1`. -/
theorem getAngleOfLine_identical_rows (atan : ℚ → ℚ) (hatan : atan 0 = 0)
    (rightSide : Bool) (numSamples : ℚ) (img : Image)
    (rolling_average_constant percent_of_samples_needed : ℚ)
    (hh : 2 ≤ img.height) (hsame : SameRows img) (r : Nat) (hr : r < img.height)
    (hedge : getEdgePixel img (initializeIncrementerPosition rightSide img).2
      (if rightSide then -1 else 1) (r : Int) true ≠ -1) :
    getAngleOfLine atan rightSide numSamples img rolling_average_constant
        percent_of_samples_needed =
      (0, (sampledRows numSamples img.height : ℚ)) :=
  getAngleOfLine_sameRows_count atan hatan rightSide numSamples img rolling_average_constant
    percent_of_samples_needed hh hsame r hr hedge

/-- The identical rows of `smallBandImage`: the anchor is row 3 and the rows 2 and 1 are
sampled. -/
theorem getAngleOfLine_identical_rows_witness :
    getAngleOfLine atanModel false 3 smallBandImage (1 / 4) (1 / 8) =
      (0, (sampledRows 3 smallBandImage.height : ℚ)) :=
  getAngleOfLine_identical_rows atanModel (by decide!) false 3 smallBandImage (1 / 4)
    (1 / 8) (by decide)
    (sameRows_of_verticalBand (show VerticalBand smallBandImage 2 12 by decide)) 0
    (by decide) (by decide)

/-! ## The vertical scan as a horizontal scan of the transposed image -/

theorem pixel_transpose (img : Image) (r c : Nat) (hr : r < img.height)
    (hc : c < img.width) :
    (transpose img).pixel (c : Int) (r : Int) = img.pixel (r : Int) (c : Int) := by
  have hi : c * img.height + r < img.width * img.height := by
    calc c * img.height + r < c * img.height + img.height := by omega
      _ = (c + 1) * img.height := by ring
      _ ≤ img.width * img.height := Nat.mul_le_mul_right _ hc
  have hidx : ((c : Int) * ((img.height : Nat) : Int) + (r : Int)).toNat =
      c * img.height + r := by
    have : (c : Int) * ((img.height : Nat) : Int) + (r : Int) =
        ((c * img.height + r : Nat) : Int) := by push_cast; rfl
    rw [this, Int.toNat_ofNat]
  have hidx' : ((r : Int) * ((img.width : Nat) : Int) + (c : Int)).toNat =
      r * img.width + c := by
    have : (r : Int) * ((img.width : Nat) : Int) + (c : Int) =
        ((r * img.width + c : Nat) : Int) := by push_cast; rfl
    rw [this, Int.toNat_ofNat]
  have hmod : (c * img.height + r) % img.height = r := Nat.mul_add_mod_of_lt hr
  have hdiv : (c * img.height + r) / img.height = c := by
    rw [Nat.add_comm, Nat.add_mul_div_right _ _ (by omega), Nat.div_eq_of_lt hr,
      Nat.zero_add]
  unfold Image.pixel
  show (transpose img).data.getD ((c : Int) * ((img.height : Nat) : Int) + (r : Int)).toNat 0 = _
  rw [hidx, hidx']
  unfold transpose
  simp only
  rw [List.getD_eq_getElem?_getD, List.getElem?_map, List.getElem?_range hi]
  simp only [Option.map_some', Option.getD_some, hmod, hdiv]

theorem getVerticalEdgePixelLoop_transpose (img : Image) (column : Int)
    (hc : inBounds img column) (fall : Int) :
    ∀ (n fuel : Nat) (w b b' t : Int), n ≤ fuel → n ≤ img.height →
      ((b = b' ∧ b < 10) ∨ (w = 0 ∧ t = -1 ∧ 10 ≤ b ∧ 10 ≤ b')) →
      getVerticalEdgePixelLoop img column fall n w b' t =
        if getEdgePixelLoop (transpose img) (-1) column true fuel ((n : Int) - 1) w b t = -1
        then fall
        else getEdgePixelLoop (transpose img) (-1) column true fuel ((n : Int) - 1) w b t := by
  obtain ⟨c, rfl⟩ : ∃ c : Nat, column = (c : Int) := ⟨column.toNat, by have := hc.1; omega⟩
  have hcw : c < img.width := by have := hc.2; omega
  intro n
  induction n with
  | zero =>
    intro fuel w b b' t _ _ _
    rw [getEdgePixelLoop_out _ _ _ _ _ _ _ _ _ (by unfold inBounds; simp)]
    simp [getVerticalEdgePixelLoop]
  | succ n ih =>
    intro fuel w b b' t hf hh hrel
    obtain ⟨fuel, rfl⟩ : ∃ f, fuel = f + 1 := ⟨fuel - 1, by omega⟩
    have hcol : ((n + 1 : Nat) : Int) - 1 = (n : Int) := by push_cast; ring
    rw [hcol]
    have hb : inBounds (transpose img) (n : Int) :=
      ⟨by omega, by show (n : Int) < ((img.height : Nat) : Int); omega⟩
    have hpix : (transpose img).pixel (c : Int) (n : Int) = img.pixel (n : Int) (c : Int) :=
      pixel_transpose img n c (by omega) hcw
    have hnext : (n : Int) + -1 = (n : Int) - 1 := by ring
    unfold getVerticalEdgePixelLoop
    by_cases hp : img.pixel (n : Int) (c : Int) ≠ 0
    · have hm : matching (transpose img) (c : Int) true (n : Int) :=
        Or.inl ⟨by rw [hpix]; exact hp, rfl⟩
      rw [getEdgePixelLoop_match _ _ _ _ _ _ _ _ _ hb hm, if_pos hp]
      by_cases hw : w + 1 = NOISE_MAX
      · rw [if_pos hw, if_pos hw]
        by_cases ht : t = -1
        · rw [if_pos ht, if_neg (by omega)]
        · rw [if_neg ht, if_neg ht]
      · rw [if_neg hw, if_neg hw, hnext]
        exact ih fuel _ _ _ _ (by omega) (by omega) (Or.inl ⟨rfl, by norm_num⟩)
    · have hm : ¬ matching (transpose img) (c : Int) true (n : Int) := by
        rintro (⟨h1, _⟩ | ⟨_, h2⟩)
        · rw [hpix] at h1; exact hp h1
        · cases h2
      rw [getEdgePixelLoop_nomatch _ _ _ _ _ _ _ _ _ hb hm, if_neg hp]
      rcases hrel with ⟨rfl, hb10⟩ | ⟨rfl, rfl, h1, h2⟩
      · by_cases h9 : b + 1 = NOISE_MAX
        · have h9' : b + 1 = 10 := h9
          rw [if_pos h9, if_pos (show b + 1 ≥ NOISE_MAX from le_of_eq h9.symm), hnext]
          exact ih fuel _ _ _ _ (by omega) (by omega)
            (Or.inr ⟨rfl, rfl, by omega, by omega⟩)
        · have h9' : ¬ b + 1 = 10 := h9
          rw [if_neg h9, if_neg (show ¬ b + 1 ≥ NOISE_MAX by
            show ¬ b + 1 ≥ 10
            omega), hnext]
          exact ih fuel _ _ _ _ (by omega) (by omega) (Or.inl ⟨rfl, by omega⟩)
      · rw [if_neg (show ¬ b' + 1 = NOISE_MAX by
          show ¬ b' + 1 = 10
          omega), if_pos (show b + 1 ≥ NOISE_MAX by
          show b + 1 ≥ 10
          omega), hnext]
        exact ih fuel _ _ _ _ (by omega) (by omega)
          (Or.inr ⟨rfl, rfl, by omega, by omega⟩)

/-- C24: the vertical scan of a column of the image is the horizontal scan of the row of
the same number of the transposed image, from its last pixel downward: when that scan
finds an edge, `getVerticalEdgePixel` returns the same position, and when it returns
`-1`, `getVerticalEdgePixel` reaches the end of its body without a `return`. -/
theorem getVerticalEdgePixel_transpose (ind : Indeterminate) (img : Image) (column : Int)
    (hc : inBounds img column) :
    getVerticalEdgePixel ind img column =
      if getEdgePixel (transpose img) ((img.height : Int) - 1) (-1) column true = -1
      then ind.fallOff column
      else getEdgePixel (transpose img) ((img.height : Int) - 1) (-1) column true := by
  unfold getVerticalEdgePixel getEdgePixel
  exact getVerticalEdgePixelLoop_transpose img column hc (ind.fallOff column) img.height
    img.height 0 0 0 (-1) (Nat.le_refl _) (Nat.le_refl _) (Or.inl ⟨rfl, by norm_num⟩)

/-- The column `10` of `bandImage`, a column of the band. -/
theorem getVerticalEdgePixel_transpose_witness :
    getVerticalEdgePixel notFoundRun bandImage 10 =
      if getEdgePixel (transpose bandImage) ((bandImage.height : Int) - 1) (-1) 10 true = -1
      then notFoundRun.fallOff 10
      else getEdgePixel (transpose bandImage) ((bandImage.height : Int) - 1) (-1) 10 true :=
  getVerticalEdgePixel_transpose notFoundRun bandImage 10 (by decide)

/-! ## Edge existence does not depend on the scan direction -/

theorem countMatching_shift (img : Image) (incrementer row : Int) (isStartPixel : Bool) :
    ∀ (n : Nat) (c : Int),
      countMatching img incrementer row isStartPixel c (n + 1) =
        (if matching img row isStartPixel c then 1 else 0) +
          countMatching img incrementer row isStartPixel (c + incrementer) n := by
  intro n
  induction n with
  | zero => intro c; simp [countMatching]
  | succ n ih =>
    intro c
    have hpos : c + ((n + 1 : Nat) : Int) * incrementer =
        c + incrementer + (n : Int) * incrementer := by push_cast; ring
    conv_lhs => unfold countMatching
    rw [ih c, hpos]
    conv_rhs => unfold countMatching
    omega

/-- Inside a segment: with `black` non-matching pixels just read, `n` pixels ahead that
hold the missing matching pixels and no run of `NOISE_MAX` non-matching ones, the scan
finds an edge. -/
theorem getEdgePixelLoop_complete_inside (img : Image) (incrementer row : Int)
    (isStartPixel : Bool) :
    ∀ (n fuel : Nat) (column white : Int) (black : Nat) (toBeChecked : Int),
      n ≤ fuel → white ≤ 9 →
      (∀ j : Nat, j < n → inBounds img (column + (j : Int) * incrementer)) →
      10 ≤ white + (countMatching img incrementer row isStartPixel column n : Int) →
      (∀ j : Nat, j + 10 ≤ black + n → ∃ i : Nat, i < 10 ∧ black ≤ j + i ∧
        matching img row isStartPixel (column + ((j + i - black : Nat) : Int) * incrementer)) →
      getEdgePixelLoop img incrementer row isStartPixel fuel column white (black : Int)
        toBeChecked ≠ -1 := by
  intro n
  induction n with
  | zero =>
    intro fuel column white black toBeChecked _ hw _ hc _
    simp only [countMatching] at hc
    omega
  | succ n ih =>
    intro fuel column white black toBeChecked hf hw hbounds hc hwin
    obtain ⟨fuel, rfl⟩ : ∃ f, fuel = f + 1 := ⟨fuel - 1, by omega⟩
    have hb : inBounds img column := by simpa using hbounds 0 (by omega)
    have hbounds' : ∀ j : Nat, j < n →
        inBounds img (column + incrementer + (j : Int) * incrementer) := by
      intro j hj
      have := hbounds (j + 1) (by omega)
      have e : column + ((j + 1 : Nat) : Int) * incrementer =
          column + incrementer + (j : Int) * incrementer := by push_cast; ring
      rwa [e] at this
    rw [countMatching_shift] at hc
    by_cases hm : matching img row isStartPixel column
    · rw [getEdgePixelLoop_match _ _ _ _ _ _ _ _ _ hb hm]
      rw [if_pos hm] at hc
      by_cases h10 : white + 1 = NOISE_MAX
      · rw [if_pos h10]
        have := hb.1
        split <;> omega
      · rw [if_neg h10]
        have h10' : ¬ white + 1 = 10 := h10
        have := ih fuel (column + incrementer) (white + 1) 0
          (if toBeChecked = -1 then column else toBeChecked) (by omega) (by omega) hbounds'
          (by push_cast at hc ⊢; omega)
          (by
            intro j hj
            obtain ⟨i, hi, hle, hmi⟩ := hwin (j + black + 1) (by omega)
            refine ⟨i, hi, by omega, ?_⟩
            have e : column + ((j + black + 1 + i - black : Nat) : Int) * incrementer =
                column + incrementer + ((j + i - 0 : Nat) : Int) * incrementer := by
              have : j + black + 1 + i - black = j + i + 1 := by omega
              rw [this, Nat.sub_zero]
              push_cast
              ring
            rwa [e] at hmi)
        simpa using this
    · rw [getEdgePixelLoop_nomatch _ _ _ _ _ _ _ _ _ hb hm]
      rw [if_neg hm] at hc
      have hnext : ∀ j : Nat, j + 10 ≤ black + 1 + n → ∃ i : Nat, i < 10 ∧
          black + 1 ≤ j + i ∧ matching img row isStartPixel
            (column + incrementer + ((j + i - (black + 1) : Nat) : Int) * incrementer) := by
        intro j hj
        obtain ⟨i, hi, hle, hmi⟩ := hwin j (by omega)
        have hne : j + i ≠ black := by
          intro h
          rw [h, Nat.sub_self] at hmi
          simp at hmi
          exact hm hmi
        refine ⟨i, hi, by omega, ?_⟩
        have e : column + ((j + i - black : Nat) : Int) * incrementer =
            column + incrementer + ((j + i - (black + 1) : Nat) : Int) * incrementer := by
          have : j + i - black = (j + i - (black + 1)) + 1 := by omega
          rw [this]
          push_cast
          ring
        rwa [e] at hmi
      have hsmall : black + 1 < 10 := by
        by_contra h
        obtain ⟨i, hi, hle, hmi⟩ := hwin 0 (by omega)
        have : 0 + i - black = 0 := by omega
        rw [this] at hmi
        simp at hmi
        exact hm hmi
      rw [if_neg (show ¬ (black : Int) + 1 ≥ NOISE_MAX by
        show ¬ (black : Int) + 1 ≥ 10
        omega)]
      have := ih fuel (column + incrementer) white (black + 1) toBeChecked (by omega) hw
        hbounds' (by push_cast at hc ⊢; omega) hnext
      simpa using this

/-- At the start of a segment of `n` pixels that holds `NOISE_MAX` matching pixels and
no run of `NOISE_MAX` non-matching ones, the scan finds an edge. -/
theorem getEdgePixelLoop_complete_start (img : Image) (incrementer row : Int)
    (isStartPixel : Bool) :
    ∀ (n fuel : Nat) (column white black toBeChecked : Int),
      n ≤ fuel → 0 ≤ white → white ≤ 9 →
      (∀ j : Nat, j < n → inBounds img (column + (j : Int) * incrementer)) →
      10 ≤ countMatching img incrementer row isStartPixel column n →
      (∀ j : Nat, j + 10 ≤ n → ∃ i : Nat, i < 10 ∧
        matching img row isStartPixel (column + ((j + i : Nat) : Int) * incrementer)) →
      getEdgePixelLoop img incrementer row isStartPixel fuel column white black
        toBeChecked ≠ -1 := by
  intro n
  induction n with
  | zero =>
    intro fuel column white black toBeChecked _ _ _ _ hc _
    simp only [countMatching] at hc
    omega
  | succ n ih =>
    intro fuel column white black toBeChecked hf hw0 hw hbounds hc hwin
    obtain ⟨fuel, rfl⟩ : ∃ f, fuel = f + 1 := ⟨fuel - 1, by omega⟩
    have hb : inBounds img column := by simpa using hbounds 0 (by omega)
    have hbounds' : ∀ j : Nat, j < n →
        inBounds img (column + incrementer + (j : Int) * incrementer) := by
      intro j hj
      have := hbounds (j + 1) (by omega)
      have e : column + ((j + 1 : Nat) : Int) * incrementer =
          column + incrementer + (j : Int) * incrementer := by push_cast; ring
      rwa [e] at this
    have hwin' : ∀ j : Nat, j + 10 ≤ n → ∃ i : Nat, i < 10 ∧ matching img row isStartPixel
        (column + incrementer + ((j + i : Nat) : Int) * incrementer) := by
      intro j hj
      obtain ⟨i, hi, hmi⟩ := hwin (j + 1) (by omega)
      refine ⟨i, hi, ?_⟩
      have e : column + ((j + 1 + i : Nat) : Int) * incrementer =
          column + incrementer + ((j + i : Nat) : Int) * incrementer := by push_cast; ring
      rwa [e] at hmi
    rw [countMatching_shift] at hc
    by_cases hm : matching img row isStartPixel column
    · rw [getEdgePixelLoop_match _ _ _ _ _ _ _ _ _ hb hm]
      rw [if_pos hm] at hc
      by_cases h10 : white + 1 = NOISE_MAX
      · rw [if_pos h10]
        have := hb.1
        split <;> omega
      · rw [if_neg h10]
        have h10' : ¬ white + 1 = 10 := h10
        have := getEdgePixelLoop_complete_inside img incrementer row isStartPixel n fuel
          (column + incrementer) (white + 1) 0
          (if toBeChecked = -1 then column else toBeChecked) (by omega) (by omega) hbounds'
          (by omega)
          (by
            intro j hj
            obtain ⟨i, hi, hmi⟩ := hwin' j (by omega)
            exact ⟨i, hi, by omega, by simpa using hmi⟩)
        simpa using this
    · rw [getEdgePixelLoop_nomatch _ _ _ _ _ _ _ _ _ hb hm]
      rw [if_neg hm] at hc
      split
      · exact ih fuel _ _ _ _ (by omega) (le_refl 0) (by norm_num) hbounds' (by omega) hwin'
      · exact ih fuel _ _ _ _ (by omega) hw0 hw hbounds' (by omega) hwin'

/-- Ahead of a segment: the scan reaches, `a` pixels further, a segment of `n` pixels
that holds `NOISE_MAX` matching pixels and no run of `NOISE_MAX` non-matching ones, and
finds an edge. -/
theorem getEdgePixelLoop_complete (img : Image) (incrementer row : Int)
    (isStartPixel : Bool) (n : Nat) :
    ∀ (a fuel : Nat) (column white black toBeChecked : Int),
      a + n ≤ fuel → 0 ≤ white → white ≤ 9 →
      (∀ j : Nat, j < a + n → inBounds img (column + (j : Int) * incrementer)) →
      10 ≤ countMatching img incrementer row isStartPixel
        (column + (a : Int) * incrementer) n →
      (∀ j : Nat, j + 10 ≤ n → ∃ i : Nat, i < 10 ∧ matching img row isStartPixel
        (column + (a : Int) * incrementer + ((j + i : Nat) : Int) * incrementer)) →
      getEdgePixelLoop img incrementer row isStartPixel fuel column white black
        toBeChecked ≠ -1 := by
  intro a
  induction a with
  | zero =>
    intro fuel column white black toBeChecked hf hw0 hw hbounds hc hwin
    simp only [Nat.cast_zero, zero_mul, add_zero, Nat.zero_add] at hbounds hc hwin hf
    exact getEdgePixelLoop_complete_start img incrementer row isStartPixel n fuel column
      white black toBeChecked hf hw0 hw hbounds hc hwin
  | succ a ih =>
    intro fuel column white black toBeChecked hf hw0 hw hbounds hc hwin
    obtain ⟨fuel, rfl⟩ : ∃ f, fuel = f + 1 := ⟨fuel - 1, by omega⟩
    have hb : inBounds img column := by simpa using hbounds 0 (by omega)
    have e : column + ((a + 1 : Nat) : Int) * incrementer =
        column + incrementer + (a : Int) * incrementer := by push_cast; ring
    rw [e] at hc hwin
    have hbounds' : ∀ j : Nat, j < a + n →
        inBounds img (column + incrementer + (j : Int) * incrementer) := by
      intro j hj
      have := hbounds (j + 1) (by omega)
      have e : column + ((j + 1 : Nat) : Int) * incrementer =
          column + incrementer + (j : Int) * incrementer := by push_cast; ring
      rwa [e] at this
    by_cases hm : matching img row isStartPixel column
    · rw [getEdgePixelLoop_match _ _ _ _ _ _ _ _ _ hb hm]
      by_cases h10 : white + 1 = NOISE_MAX
      · rw [if_pos h10]
        have := hb.1
        split <;> omega
      · rw [if_neg h10]
        have h10' : ¬ white + 1 = 10 := h10
        exact ih fuel _ _ _ _ (by omega) (by omega) (by omega) hbounds' hc hwin
    · rw [getEdgePixelLoop_nomatch _ _ _ _ _ _ _ _ _ hb hm]
      split
      · exact ih fuel _ _ _ _ (by omega) (le_refl 0) (by norm_num) hbounds' hc hwin
      · exact ih fuel _ _ _ _ (by omega) hw0 hw hbounds' hc hwin

theorem countMatching_reverse (img : Image) (incrementer row : Int) (isStartPixel : Bool) :
    ∀ (n : Nat) (c : Int),
      countMatching img (-incrementer) row isStartPixel (c + (n : Int) * incrementer) (n + 1) =
        countMatching img incrementer row isStartPixel c (n + 1) := by
  intro n
  induction n with
  | zero => intro c; simp [countMatching]
  | succ n ih =>
    intro c
    have e : c + ((n + 1 : Nat) : Int) * incrementer + -incrementer =
        c + (n : Int) * incrementer := by push_cast; ring
    rw [countMatching_shift, e, ih c]
    conv_rhs => unfold countMatching
    omega

/-- A confirming segment read from its other end is a confirming segment of the
opposite scan. -/
theorem Confirmed.reverse {img : Image} {incrementer row : Int} {isStartPixel : Bool}
    {c : Int} {k : Nat} (h : Confirmed img incrementer row isStartPixel c k) :
    Confirmed img (-incrementer) row isStartPixel (c + (k : Int) * incrementer) k where
  bounds := by
    intro j hj
    have := h.bounds (k - j) (by omega)
    have e : c + (k : Int) * incrementer + (j : Int) * -incrementer =
        c + ((k - j : Nat) : Int) * incrementer := by
      rw [Nat.cast_sub hj]
      ring
    rwa [e]
  first := h.last
  last := by
    have e : c + (k : Int) * incrementer + (k : Int) * -incrementer = c := by ring
    rw [e]
    exact h.first
  count := by rw [countMatching_reverse]; exact h.count
  window := by
    intro j hj
    obtain ⟨i, hi, hmi⟩ := h.window (k + 1 - 10 - j) (by omega)
    refine ⟨9 - i, by omega, ?_⟩
    have e : c + (k : Int) * incrementer + ((j + (9 - i) : Nat) : Int) * -incrementer =
        c + ((k + 1 - 10 - j + i : Nat) : Int) * incrementer := by
      have h1 : ((j + (9 - i) : Nat) : Int) = (j : Int) + 9 - (i : Int) := by omega
      have h2 : ((k + 1 - 10 - j + i : Nat) : Int) = (k : Int) - 9 - (j : Int) + (i : Int) := by
        omega
      rw [h1, h2]
      ring
    rwa [e]

/-- A confirming segment of the left-to-right scan makes the scan from column `0` find
an edge. -/
theorem getEdgePixel_of_confirmed_right (img : Image) (row : Int) (isStartPixel : Bool)
    (c : Int) (k : Nat) (h : Confirmed img 1 row isStartPixel c k) :
    getEdgePixel img 0 1 row isStartPixel ≠ -1 := by
  have h0 := (h.bounds 0 (Nat.zero_le k)).1
  have hk := (h.bounds k (le_refl k)).2
  simp only [Nat.cast_zero, zero_mul, add_zero, mul_one] at h0 hk
  have e : (0 : Int) + ((c.toNat : Nat) : Int) * 1 = c := by omega
  unfold getEdgePixel
  apply getEdgePixelLoop_complete img 1 row isStartPixel (k + 1) c.toNat img.width 0 0 0 (-1)
    (by omega) (le_refl 0) (by norm_num)
  · intro j hj
    constructor <;> omega
  · rw [e]
    exact h.count.ge
  · rw [e]
    exact h.window

/-- A confirming segment of the right-to-left scan makes the scan from column
`width - 1` find an edge. -/
theorem getEdgePixel_of_confirmed_left (img : Image) (row : Int) (isStartPixel : Bool)
    (c : Int) (k : Nat) (h : Confirmed img (-1) row isStartPixel c k) :
    getEdgePixel img ((img.width : Int) - 1) (-1) row isStartPixel ≠ -1 := by
  have h0 := (h.bounds 0 (Nat.zero_le k)).2
  have hk := (h.bounds k (le_refl k)).1
  simp only [Nat.cast_zero, zero_mul, add_zero] at h0 hk
  have e : (img.width : Int) - 1 + ((((img.width : Int) - 1 - c).toNat : Nat) : Int) * -1 =
      c := by omega
  unfold getEdgePixel
  apply getEdgePixelLoop_complete img (-1) row isStartPixel (k + 1)
    ((img.width : Int) - 1 - c).toNat img.width ((img.width : Int) - 1) 0 0 (-1)
    (by omega) (le_refl 0) (by norm_num)
  · intro j hj
    constructor <;> omega
  · rw [e]
    exact h.count.ge
  · rw [e]
    exact h.window

/-- The two scans of a row find an edge together. -/
theorem getEdgePixel_direction (img : Image) (row : Int) (isStartPixel : Bool) :
    getEdgePixel img 0 1 row isStartPixel = -1 ↔
      getEdgePixel img ((img.width : Int) - 1) (-1) row isStartPixel = -1 := by
  constructor
  · intro h
    by_contra hne
    obtain ⟨k, hk⟩ := getEdgePixelLoop_confirmed img (-1) row isStartPixel img.width
      ((img.width : Int) - 1) 0 0 (-1) (Or.inl ⟨rfl, rfl⟩) hne
    have hrev := hk.reverse
    rw [neg_neg] at hrev
    exact getEdgePixel_of_confirmed_right img row isStartPixel _ k hrev h
  · intro h
    by_contra hne
    obtain ⟨k, hk⟩ := getEdgePixelLoop_confirmed img 1 row isStartPixel img.width
      0 0 0 (-1) (Or.inl ⟨rfl, rfl⟩) hne
    exact getEdgePixel_of_confirmed_left img row isStartPixel _ k hk.reverse h

theorem anchorLoop_direction (img : Image) :
    ∀ n : Nat, (anchorLoop img 0 1 false n).1 =
      (anchorLoop img ((img.width : Int) - 1) (-1) true n).1 := by
  intro n
  induction n with
  | zero => rfl
  | succ n ih =>
    unfold anchorLoop
    by_cases h : getEdgePixel img 0 1 ((n + 1 : Nat) : Int) true = -1
    · rw [if_neg (not_not.mpr h),
        if_neg (not_not.mpr ((getEdgePixel_direction img _ true).mp h))]
      exact ih
    · rw [if_pos h, if_pos (fun h' => h ((getEdgePixel_direction img _ true).mpr h'))]

/-- C26: the left-to-right scan of a row from column `0` returns `-1` exactly when the
right-to-left scan from column `width - 1` does; so the two runs of `getAngleOfLine`
choose the same anchor row, or both have none (`bottomRow = -1`). -/
theorem getEdgePixel_direction_independent (img : Image) (row : Int) :
    (getEdgePixel img 0 1 row true = -1 ↔
      getEdgePixel img ((img.width : Int) - 1) (-1) row true = -1) ∧
    (anchor false img).1 = (anchor true img).1 ∧
    ((anchor false img).1 = -1 ↔ (anchor true img).1 = -1) := by
  have ha : (anchor false img).1 = (anchor true img).1 := anchorLoop_direction img _
  exact ⟨getEdgePixel_direction img row true, ha, by rw [ha]⟩


/-! ## A vertical band at the centre -/

/-- The left-to-right scan of a row of a vertical band finds its first column. -/
theorem getEdgePixel_verticalBand {img : Image} {a b : Nat} (h : VerticalBand img a b)
    (row : Nat) (hrow : row < img.height) :
    getEdgePixel img 0 1 (row : Int) true ≠ -1 := by
  obtain ⟨hab, hbw, hpix⟩ := h
  have hval := getEdgePixelLoop_clean img 1 (row : Int) true a img.width 0 0 (by omega)
    (by
      intro j hj
      refine ⟨⟨by omega, by omega⟩, ?_⟩
      rintro (⟨h1, _⟩ | ⟨_, h2⟩)
      · have e : (0 : Int) + (j : Int) * 1 = (j : Int) := by ring
        rw [e] at h1
        have := (hpix row hrow j (by omega)).mp h1
        omega
      · cases h2)
    (by
      intro j hj
      refine ⟨⟨by omega, by push_cast; omega⟩, Or.inl ⟨?_, rfl⟩⟩
      have e : (0 : Int) + ((a + j : Nat) : Int) * 1 = ((a + j : Nat) : Int) := by ring
      rw [e]
      exact (hpix row hrow (a + j) (by omega)).mpr ⟨by omega, by omega⟩)
  unfold getEdgePixel
  rw [hval]
  omega

/-- With a positive `samplesNeeded` and a positive count, the confidence is positive. -/
theorem getConfidence_pos (img : Image) (percent_of_image_sampled
    percent_of_samples_needed valid_samples : ℚ)
    (hsn : 0 < (img.height : ℚ) * percent_of_samples_needed) (hv : 0 < valid_samples) :
    ∃ c : ℚ, getConfidence img percent_of_image_sampled percent_of_samples_needed
      valid_samples = some c ∧ 0 < c := by
  unfold getConfidence mapRange
  simp only [sub_zero, add_zero]
  rw [if_neg (ne_of_gt hsn)]
  refine ⟨_, rfl, ?_⟩
  apply div_pos _ hsn
  split
  · exact mul_pos hsn (by norm_num)
  · exact mul_pos hv (by norm_num)

/-- At least one row is sampled when `numSamples > 1` and the image has three rows. -/
theorem sampledRows_pos (numSamples : ℚ) (height : Nat) (hn : 1 < numSamples)
    (hh : 3 ≤ height) : 0 < sampledRows numSamples height := by
  unfold sampledRows
  apply List.length_pos_of_mem (a := 1)
  rw [List.mem_filter, List.mem_range'_1]
  exact ⟨⟨le_refl 1, by omega⟩, by simpa using hn⟩

/-- C5 (as amended): for an image whose line pixels form a vertical band at least
`NOISE_MAX` wide spanning all rows, `getAngleOfLine` measures the angle `0` from both
sides, and `getDesiredAngle` under the default configuration returns not that angle
but `moveAwayFromLine`, `45` or `-45`, since `|0| <= move_away_threshold`.  Its
confidence is `0` when `isPerpendicular` answers `true`; when it answers `false`, the
confidence is positive provided a row is sampled (`numSamples > 1` and at least three
rows). -/
theorem getDesiredAngle_vertical_band (atan : ℚ → ℚ) (hatan : atan 0 = 0)
    (ind : Indeterminate) (numSamples : ℚ) (img : Image) (a b : Nat)
    (hband : VerticalBand img a b) :
    sampledAngle atan false numSamples img (1 / 4) (1 / 8) = 0 ∧
    sampledAngle atan true numSamples img (1 / 4) (1 / 8) = 0 ∧
    (getDesiredAngle atan ind numSamples img (1 / 4) (1 / 4) (1 / 8) 25 (1 / 20)).1 =
      moveAwayFromLine img ∧
    (moveAwayFromLine img = 45 ∨ moveAwayFromLine img = -45) ∧
    (isPerpendicular ind img = true →
      (getDesiredAngle atan ind numSamples img (1 / 4) (1 / 4) (1 / 8) 25 (1 / 20)).2 =
        some 0) ∧
    (isPerpendicular ind img = false → 1 < numSamples → 3 ≤ img.height →
      ∃ c : ℚ,
        (getDesiredAngle atan ind numSamples img (1 / 4) (1 / 4) (1 / 8) 25 (1 / 20)).2 =
          some c ∧ 0 < c) := by
  have hrows := sameRows_of_verticalBand hband
  have hl := getAngleOfLine_sameRows atan hatan img hrows false numSamples (1 / 4) (1 / 8)
  have hr := getAngleOfLine_sameRows atan hatan img hrows true numSamples (1 / 4) (1 / 8)
  refine ⟨hl, hr, ?_, moveAwayFromLine_cases img, ?_, ?_⟩
  · have hsel : (selectPair atan numSamples img (1 / 4) (1 / 4) (1 / 8)).1 = 0 := by
      rw [selectPair_eq]
      split
      · exact hr
      · exact hl
    rw [getDesiredAngle_angle, hsel]
    split
    · rw [if_pos (by norm_num)]
    · rfl
  · intro hp
    rw [getDesiredAngle_confidence, if_pos hp]
  · intro hp hn hh
    have hedgeL : getEdgePixel img 0 1 ((0 : Nat) : Int) true ≠ -1 :=
      getEdgePixel_verticalBand hband 0 (by omega)
    have hedgeR : getEdgePixel img ((img.width : Int) - 1) (-1) ((0 : Nat) : Int) true ≠
        -1 := fun h => hedgeL ((getEdgePixel_direction img _ true).mpr h)
    have hcount : ∀ rightSide : Bool,
        (getAngleOfLine atan rightSide numSamples img (1 / 4) (1 / 8)).2 =
          (sampledRows numSamples img.height : ℚ) := by
      intro rightSide
      have := getAngleOfLine_sameRows_count atan hatan rightSide numSamples img (1 / 4)
        (1 / 8) (by omega) hrows 0 (by omega)
        (by cases rightSide
            · exact hedgeL
            · exact hedgeR)
      rw [this]
    have hpos : (0 : ℚ) < (sampledRows numSamples img.height : ℚ) := by
      exact_mod_cast sampledRows_pos numSamples img.height hn hh
    have hsn : (0 : ℚ) < (img.height : ℚ) * (1 / 8) := by
      have : (0 : ℚ) < (img.height : ℚ) := by exact_mod_cast (by omega : 0 < img.height)
      positivity
    have hconf : ∀ rightSide : Bool, ∃ c : ℚ,
        sampledConfidence atan rightSide numSamples img (1 / 4) (1 / 4) (1 / 8) = some c ∧
          0 < c := by
      intro rightSide
      unfold sampledConfidence
      rw [hcount rightSide]
      exact getConfidence_pos img (1 / 4) (1 / 8) _ hsn hpos
    rw [getDesiredAngle_confidence, hp, selectPair_eq]
    simp only [Bool.false_eq_true, if_false]
    split
    · exact hconf true
    · exact hconf false

/-- The vertical band of `bandImage`. -/
theorem getDesiredAngle_vertical_band_witness :
    (getDesiredAngle atanModel ⟨fun _ => 0, 0⟩ 3 bandImage (1 / 4) (1 / 4) (1 / 8) 25
      (1 / 20)).1 = moveAwayFromLine bandImage :=
  (getDesiredAngle_vertical_band atanModel (by decide!) ⟨fun _ => 0, 0⟩ 3 bandImage 10 20
    (by decide!)).2.2.1

set_option maxRecDepth 100000 in
/-- C5 fails as stated: for four rows of a band ten pixels wide at the centre of an
image fourteen pixels wide, with `numSamples = 4 * 0.25`, the default configuration
gives the angle `45` and the confidence `0`, whatever `getVerticalEdgePixel` hands back
where it has no `return`. -/
theorem getDesiredAngle_vertical_band_escape :
    VerticalBand smallBandImage 2 12 ∧ 2 + 12 = smallBandImage.width ∧
      ∀ ind : Indeterminate,
        getDesiredAngle atanModel ind 1 smallBandImage (1 / 4) (1 / 4) (1 / 8) 25
          (1 / 20) = (45, some 0) := by
  refine ⟨by decide, by decide, ?_⟩
  intro ind
  have ha : (getDesiredAngle atanModel ind 1 smallBandImage (1 / 4) (1 / 4) (1 / 8) 25
      (1 / 20)).1 = 45 := by
    rw [getDesiredAngle_angle]
    decide!
  have hsel : (selectPair atanModel 1 smallBandImage (1 / 4) (1 / 4) (1 / 8)).2 =
      some 0 := by decide!
  have hc : (getDesiredAngle atanModel ind 1 smallBandImage (1 / 4) (1 / 4) (1 / 8) 25
      (1 / 20)).2 = some 0 := by
    rw [getDesiredAngle_confidence, hsel]
    split <;> rfl
  exact Prod.ext ha hc

/-! ## Reads of a run and the missing return -/

theorem AllSafe.nil (img : Image) : AllSafe img [] := by
  intro e he
  cases he

theorem AllSafe.cons {img : Image} {e : Event} {l : List Event}
    (he : e = Event.missingReturn ∨ e.safe img) (hl : AllSafe img l) :
    AllSafe img (e :: l) := by
  intro x hx
  rcases List.mem_cons.mp hx with h | h
  · rw [h]; exact he
  · exact hl x h

theorem AllSafe.append {img : Image} {l l' : List Event} (hl : AllSafe img l)
    (hl' : AllSafe img l') : AllSafe img (l ++ l') := by
  intro x hx
  rcases List.mem_append.mp hx with h | h
  · exact hl x h
  · exact hl' x h

theorem AllSafe.andThen {img : Image} {l l' : List Event} (hl : AllSafe img l)
    (hl' : AllSafe img l') : AllSafe img (andThen l l') := by
  unfold VisionDecision.andThen
  split
  · exact hl
  · exact AllSafe.append hl hl'

/-- The scan with its indeterminate value is the scan that may not return: the caller
receives the returned row, or the indeterminate value when there is none. -/
theorem getVerticalEdgePixelLoop_eq_returned (img : Image) (column fall : Int) :
    ∀ (n : Nat) (white black toBeChecked : Int),
      getVerticalEdgePixelLoop img column fall n white black toBeChecked =
        (getVerticalEdgePixelLoopReturned img column n white black toBeChecked).getD fall := by
  intro n
  induction n with
  | zero => intros; rfl
  | succ n ih =>
    intro white black toBeChecked
    unfold getVerticalEdgePixelLoop getVerticalEdgePixelLoopReturned
    split
    · split
      · rfl
      · exact ih _ _ _
    · split
      · exact ih _ _ _
      · exact ih _ _ _

/-- A read inside the image, of a buffer of `height * width` bytes, is safe. -/
theorem read_safe (img : Image) (hdata : img.data.length = img.height * img.width)
    (row column : Int) (h0 : 0 ≤ row) (h1 : row < (img.height : Int)) (hc : inBounds img column) :
    (Event.read row column).safe img := by
  obtain ⟨c0, c1⟩ := hc
  refine ⟨h0, h1, c0, c1, ?_⟩
  rw [hdata]
  obtain ⟨r, rfl⟩ : ∃ r : Nat, row = (r : Int) := ⟨row.toNat, by omega⟩
  obtain ⟨c, rfl⟩ : ∃ c : Nat, column = (c : Int) := ⟨column.toNat, by omega⟩
  have hr : r < img.height := by omega
  have hcw : c < img.width := by omega
  have e : ((r : Int) * (img.width : Int) + (c : Int)).toNat = r * img.width + c := by
    have : (r : Int) * (img.width : Int) + (c : Int) = ((r * img.width + c : Nat) : Int) := by
      push_cast; rfl
    rw [this, Int.toNat_ofNat]
  rw [e]
  calc r * img.width + c < r * img.width + img.width := by omega
    _ = (r + 1) * img.width := by ring
    _ ≤ img.height * img.width := Nat.mul_le_mul_right _ hr

theorem getEdgePixelLoopEvents_safe (img : Image)
    (hdata : img.data.length = img.height * img.width) (incrementer row : Int)
    (isStartPixel : Bool) (h0 : 0 ≤ row) (h1 : row < (img.height : Int)) :
    ∀ (fuel : Nat) (column white black toBeChecked : Int),
      AllSafe img (getEdgePixelLoopEvents img incrementer row isStartPixel fuel column white
        black toBeChecked) := by
  intro fuel
  induction fuel with
  | zero => intros; exact AllSafe.nil img
  | succ fuel ih =>
    intro column white black toBeChecked
    unfold getEdgePixelLoopEvents
    split
    · rename_i hc
      apply AllSafe.cons (Or.inr (read_safe img hdata row column h0 h1 ⟨hc.2, hc.1⟩))
      split
      · split
        · exact AllSafe.nil img
        · exact ih _ _ _ _
      · split
        · exact ih _ _ _ _
        · exact ih _ _ _ _
    · exact AllSafe.nil img

theorem getMiddleEvents_safe (img : Image)
    (hdata : img.data.length = img.height * img.width) (startingPos row : Int)
    (rightSide : Bool) (h0 : 0 ≤ row) (h1 : row < (img.height : Int)) :
    AllSafe img (getMiddleEvents img startingPos row rightSide) := by
  unfold getMiddleEvents getEdgePixelEvents
  exact AllSafe.append (getEdgePixelLoopEvents_safe img hdata _ row _ h0 h1 _ _ _ _ _)
    (getEdgePixelLoopEvents_safe img hdata _ row _ h0 h1 _ _ _ _ _)

theorem anchorLoopEvents_safe (img : Image)
    (hdata : img.data.length = img.height * img.width) (startingPos incrementer : Int)
    (rightSide : Bool) :
    ∀ n : Nat, n < img.height →
      AllSafe img (anchorLoopEvents img startingPos incrementer rightSide n) := by
  intro n
  induction n with
  | zero => intro _; exact AllSafe.nil img
  | succ n ih =>
    intro hn
    unfold anchorLoopEvents
    apply AllSafe.append
    · unfold getEdgePixelEvents
      exact getEdgePixelLoopEvents_safe img hdata _ _ _ (by omega) (by omega) _ _ _ _ _
    · split
      · exact getMiddleEvents_safe img hdata _ _ _ (by omega) (by omega)
      · exact ih (by omega)

theorem sampleLoopEvents_safe (atan : ℚ → ℚ) (img : Image)
    (hdata : img.data.length = img.height * img.width) (startingPos : Int) (rightSide : Bool)
    (numSamples rolling_average_constant : ℚ) (bottomRow : Int)
    (hrow : bottomRow < (img.height : Int)) (x1 : ℚ) :
    ∀ (fuel d : Nat) (currentAngle validSamples : ℚ), 1 ≤ d →
      AllSafe img (sampleLoopEvents atan img startingPos rightSide numSamples
        rolling_average_constant bottomRow x1 fuel (d : ℚ) currentAngle validSamples) := by
  intro fuel
  induction fuel with
  | zero => intros; exact AllSafe.nil img
  | succ fuel ih =>
    intro d currentAngle validSamples hd
    have hnext : ((d : ℚ) + 1) = ((d + 1 : Nat) : ℚ) := by push_cast; rfl
    unfold sampleLoopEvents
    split
    · rename_i hc
      have hcast : ((bottomRow : ℚ)) - (d : ℚ) = ((bottomRow - (d : Int) : Int) : ℚ) := by
        push_cast
        rfl
      have hpos : 0 < bottomRow - (d : Int) := by
        have := hc.2
        rw [hcast] at this
        exact_mod_cast this
      dsimp only
      apply AllSafe.append
      · rw [hcast, truncToInt_intCast]
        exact getMiddleEvents_safe img hdata _ _ _ (by omega) (by omega)
      · split
        · apply AllSafe.cons
          · right
            show (bottomRow : ℚ) - (d : ℚ) - (bottomRow : ℚ) ≠ 0
            have hdq : (1 : ℚ) ≤ (d : ℚ) := by exact_mod_cast hd
            intro h
            linarith
          · split
            · rw [hnext]
              exact ih _ _ _ (by omega)
            · rw [hnext]
              exact ih _ _ _ (by omega)
        · rw [hnext]
          exact ih _ _ _ (by omega)
    · exact AllSafe.nil img

theorem getAngleOfLineEvents_safe (atan : ℚ → ℚ) (rightSide : Bool) (numSamples : ℚ)
    (img : Image) (hdata : img.data.length = img.height * img.width)
    (rolling_average_constant : ℚ) :
    AllSafe img (getAngleOfLineEvents atan rightSide numSamples img
      rolling_average_constant) := by
  unfold getAngleOfLineEvents
  dsimp only
  apply AllSafe.append
  · rcases Nat.eq_zero_or_pos img.height with h | h
    · rw [h]
      exact AllSafe.nil img
    · exact anchorLoopEvents_safe img hdata _ _ _ _ (by omega)
  · have hrow : (anchorLoop img (initializeIncrementerPosition rightSide img).2
        (initializeIncrementerPosition rightSide img).1 rightSide (img.height - 1)).1 <
        (img.height : Int) := by
      rcases anchorLoop_cases img (initializeIncrementerPosition rightSide img).2
        (initializeIncrementerPosition rightSide img).1 rightSide (img.height - 1) with h | h
      · rw [h]
        show (-1 : Int) < (img.height : Int)
        omega
      · obtain ⟨i, h1, h2, h3⟩ := h
        rw [h3]
        show (i : Int) < (img.height : Int)
        omega
    have := sampleLoopEvents_safe atan img hdata
      (initializeIncrementerPosition rightSide img).2 rightSide numSamples
      rolling_average_constant _ hrow
      (anchorLoop img (initializeIncrementerPosition rightSide img).2
        (initializeIncrementerPosition rightSide img).1 rightSide (img.height - 1)).2
      (anchorLoop img (initializeIncrementerPosition rightSide img).2
        (initializeIncrementerPosition rightSide img).1 rightSide (img.height - 1)).1.toNat
      1 0 0 (le_refl 1)
    simpa using this

theorem getVerticalEdgePixelLoopEvents_safe (img : Image)
    (hdata : img.data.length = img.height * img.width) (column : Int)
    (hc : inBounds img column) :
    ∀ (n : Nat) (white black toBeChecked : Int), n ≤ img.height →
      AllSafe img (getVerticalEdgePixelLoopEvents img column n white black toBeChecked) := by
  intro n
  induction n with
  | zero =>
    intro _ _ _ _
    exact AllSafe.cons (Or.inl rfl) (AllSafe.nil img)
  | succ n ih =>
    intro white black toBeChecked hn
    unfold getVerticalEdgePixelLoopEvents
    apply AllSafe.cons (Or.inr (read_safe img hdata _ column (by omega) (by omega) hc))
    split
    · split
      · exact AllSafe.nil img
      · exact ih _ _ _ (by omega)
    · split
      · exact ih _ _ _ (by omega)
      · exact ih _ _ _ (by omega)

theorem getVerticalEdgePixelEvents_safe (img : Image)
    (hdata : img.data.length = img.height * img.width) (column : Int)
    (hc : inBounds img column) : AllSafe img (getVerticalEdgePixelEvents img column) :=
  getVerticalEdgePixelLoopEvents_safe img hdata column hc _ _ _ _ (le_refl _)

theorem leftSearchEvents_safe (img : Image)
    (hdata : img.data.length = img.height * img.width) :
    ∀ (remaining : Nat) (i : Int), 0 ≤ i → i + (remaining : Int) ≤ (img.width : Int) →
      AllSafe img (leftSearchEvents img remaining i) := by
  intro remaining
  induction remaining with
  | zero => intros; exact AllSafe.nil img
  | succ remaining ih =>
    intro i h0 h1
    unfold leftSearchEvents
    apply AllSafe.append
      (getVerticalEdgePixelEvents_safe img hdata i ⟨h0, by push_cast at h1; omega⟩)
    split
    · exact AllSafe.nil img
    · split
      · exact AllSafe.nil img
      · exact ih _ (by omega) (by push_cast at h1; omega)

theorem rightSearchEvents_safe (img : Image)
    (hdata : img.data.length = img.height * img.width) :
    ∀ n : Nat, n ≤ img.width → AllSafe img (rightSearchEvents img n) := by
  intro n
  induction n with
  | zero => intro _; exact AllSafe.nil img
  | succ n ih =>
    intro hn
    cases n with
    | zero => exact AllSafe.nil img
    | succ j =>
      unfold rightSearchEvents
      apply AllSafe.append
        (getVerticalEdgePixelEvents_safe img hdata _ ⟨by omega, by omega⟩)
      split
      · exact AllSafe.nil img
      · split
        · exact AllSafe.nil img
        · exact ih (by omega)

theorem isPerpendicularEvents_safe (img : Image)
    (hdata : img.data.length = img.height * img.width) :
    AllSafe img (isPerpendicularEvents img) := by
  unfold isPerpendicularEvents
  exact AllSafe.andThen (leftSearchEvents_safe img hdata _ 0 (le_refl 0) (by omega))
    (rightSearchEvents_safe img hdata _ (le_refl _))

theorem moveAwayFromLineEvents_safe (img : Image)
    (hdata : img.data.length = img.height * img.width) :
    AllSafe img (moveAwayFromLineEvents img) := by
  intro e he
  unfold moveAwayFromLineEvents getLeftToRightPixelRatioEvents at he
  simp only [List.mem_flatMap, List.mem_range, List.mem_cons, List.mem_singleton,
    List.not_mem_nil, or_false, or_self] at he
  obtain ⟨row, hrow, column, hcolumn, rfl⟩ := he
  exact Or.inr (read_safe img hdata _ _ (by omega) (by omega) ⟨by omega, by omega⟩)

theorem whiteCountEvents_safe (img : Image)
    (hdata : img.data.length = img.height * img.width) :
    AllSafe img (whiteCountEvents img) := by
  intro e he
  unfold whiteCountEvents at he
  simp only [List.mem_flatMap, List.mem_range, List.mem_map] at he
  obtain ⟨row, hrow, column, hcolumn, rfl⟩ := he
  exact Or.inr (read_safe img hdata _ _ (by omega) (by omega) ⟨by omega, by omega⟩)

/-- Up to the first vertical scan that reaches the missing `return`, every read of a run
of `getDesiredAngle` is inside the image and its buffer, and every slope denominator is
not zero. -/
theorem getDesiredAngleEvents_safe (atan : ℚ → ℚ) (numSamples : ℚ) (img : Image)
    (rolling_average_constant percent_of_image_sampled percent_of_samples_needed
      move_away_threshold percent_of_white_needed : ℚ)
    (hdata : img.data.length = img.height * img.width) :
    AllSafe img (getDesiredAngleEvents atan numSamples img rolling_average_constant
      percent_of_image_sampled percent_of_samples_needed move_away_threshold
      percent_of_white_needed) := by
  unfold getDesiredAngleEvents
  dsimp only
  refine AllSafe.andThen (AllSafe.append (AllSafe.append (AllSafe.append (AllSafe.append
    (whiteCountEvents_safe img hdata)
    (getAngleOfLineEvents_safe atan false numSamples img hdata rolling_average_constant))
    (getAngleOfLineEvents_safe atan true numSamples img hdata rolling_average_constant))
    ?_) (isPerpendicularEvents_safe img hdata)) ?_
  · split
    · exact moveAwayFromLineEvents_safe img hdata
    · exact AllSafe.nil img
  · split
    · exact moveAwayFromLineEvents_safe img hdata
    · exact AllSafe.nil img

set_option maxRecDepth 100000 in
/-- C29 at its failing input, a background image of ten rows and ten columns with a
buffer of `10 * 10` bytes, under the default configuration: the run of
`getDesiredAngle` reaches the end of `getVerticalEdgePixel` without a `return` (in the
scan of column `0` that `isPerpendicular` starts with), where the behaviour of the
program is undefined.  Up to that point, on every image with a buffer of
`height * width` bytes, every read is in bounds and every slope denominator is not
zero. -/
theorem getDesiredAngle_reaches_missing_return :
    darkImage.data.length = darkImage.height * darkImage.width ∧
    (getDesiredAngleEvents atanModel (10 / 4) darkImage (1 / 4) (1 / 4) (1 / 8) 25
      (1 / 20)).any Event.isMissingReturn = true ∧
    getVerticalEdgePixelReturned darkImage 0 = none ∧
    ∀ (atan : ℚ → ℚ) (numSamples : ℚ) (img : Image)
      (rolling_average_constant percent_of_image_sampled percent_of_samples_needed
        move_away_threshold percent_of_white_needed : ℚ),
      img.data.length = img.height * img.width →
      ∀ e ∈ getDesiredAngleEvents atan numSamples img rolling_average_constant
          percent_of_image_sampled percent_of_samples_needed move_away_threshold
          percent_of_white_needed,
        e = Event.missingReturn ∨ e.safe img := by
  refine ⟨by decide, by decide!, by decide, ?_⟩
  intro atan numSamples img a b c d e hdata
  exact getDesiredAngleEvents_safe atan numSamples img a b c d e hdata

/-! ## Binary64 rounding: the confidence and the turn rate -/

theorem roundHalfEven_bounds (x : ℚ) :
    Int.floor x ≤ roundHalfEven x ∧ roundHalfEven x ≤ Int.floor x + 1 ∧
      |(roundHalfEven x : ℚ) - x| ≤ 1 / 2 := by
  have h1 := Int.floor_le x
  have h2 := Int.lt_floor_add_one x
  unfold roundHalfEven
  split_ifs with ha hb hc
  · refine ⟨le_refl _, by omega, ?_⟩
    rw [abs_le]
    constructor <;> linarith
  · refine ⟨by omega, le_refl _, ?_⟩
    rw [abs_le]
    push_cast
    constructor <;> linarith
  · refine ⟨le_refl _, by omega, ?_⟩
    rw [abs_le]
    constructor <;> linarith
  · refine ⟨by omega, le_refl _, ?_⟩
    rw [abs_le]
    push_cast
    constructor <;> linarith

theorem roundHalfEven_eq (x : ℚ) (m : Int) (h : |x - (m : ℚ)| < 1 / 2) :
    roundHalfEven x = m := by
  have hb := (roundHalfEven_bounds x).2.2
  rw [abs_lt] at h
  rw [abs_le] at hb
  have h1 : ((roundHalfEven x - m : Int) : ℚ) < 1 := by push_cast; linarith
  have h2 : (-1 : ℚ) < ((roundHalfEven x - m : Int) : ℚ) := by push_cast; linarith
  have h1' : roundHalfEven x - m < 1 := by exact_mod_cast h1
  have h2' : -1 < roundHalfEven x - m := by exact_mod_cast h2
  omega

theorem roundHalfEven_intCast (n : Int) : roundHalfEven (n : ℚ) = n :=
  roundHalfEven_eq _ n (by rw [sub_self, abs_zero]; norm_num)

theorem roundHalfEven_mono {x y : ℚ} (h : x ≤ y) : roundHalfEven x ≤ roundHalfEven y := by
  have hf : Int.floor x ≤ Int.floor y := Int.floor_mono h
  rcases lt_or_eq_of_le hf with hlt | heq
  · have := (roundHalfEven_bounds x).2.1
    have := (roundHalfEven_bounds y).1
    omega
  · unfold roundHalfEven
    rw [heq]
    have hxy : x - (Int.floor y : ℚ) ≤ y - (Int.floor y : ℚ) := by linarith
    split_ifs <;> first | omega | (exfalso; linarith)

theorem fl_zero : fl 0 = 0 := by
  unfold fl
  rw [if_pos rfl]

theorem two_zpow_pos (k : Int) : (0 : ℚ) < 2 ^ k := zpow_pos (by norm_num) k

/-- The exponent `Int.log 2 |x|` of a value of the binade `[2^k, 2^(k+1))`. -/
theorem log_eq_of_binade (x : ℚ) (k : Int) (h1 : (2 : ℚ) ^ k ≤ |x|)
    (h2 : |x| < (2 : ℚ) ^ (k + 1)) : Int.log 2 |x| = k := by
  have hpos : 0 < |x| := lt_of_lt_of_le (two_zpow_pos k) h1
  have a := (Int.zpow_le_iff_le_log (b := 2) (by norm_num) hpos (x := k)).mp
    (by simpa using h1)
  have b := (Int.lt_zpow_iff_log_lt (b := 2) (by norm_num) hpos (x := k + 1)).mp
    (by simpa using h2)
  omega

theorem binade_of_ne_zero (x : ℚ) (hx : x ≠ 0) :
    (2 : ℚ) ^ (Int.log 2 |x|) ≤ |x| ∧ |x| < (2 : ℚ) ^ (Int.log 2 |x| + 1) := by
  have hpos : 0 < |x| := abs_pos.mpr hx
  have a := Int.zpow_log_le_self (b := 2) (by norm_num) hpos
  have b := Int.lt_zpow_succ_log_self (b := 2) (by norm_num) |x|
  exact ⟨by simpa using a, by simpa using b⟩

/-- The rounding of a value of the binade `[2^k, 2^(k+1))`. -/
theorem fl_eq_of_binade (x : ℚ) (k : Int) (h1 : (2 : ℚ) ^ k ≤ |x|)
    (h2 : |x| < (2 : ℚ) ^ (k + 1)) :
    fl x = (roundHalfEven (x / 2 ^ (k - 52)) : ℚ) * 2 ^ (k - 52) := by
  have hpos : 0 < |x| := lt_of_lt_of_le (two_zpow_pos k) h1
  unfold fl
  rw [if_neg (abs_pos.mp hpos), log_eq_of_binade x k h1 h2]

/-- The rounding of a value of the binade `[2^k, 2^(k+1))` whose scaled value is nearer
to the integer `m` than to any other. -/
theorem fl_eval (x : ℚ) (k m : Int) (h1 : (2 : ℚ) ^ k ≤ |x|) (h2 : |x| < (2 : ℚ) ^ (k + 1))
    (hm : |x / 2 ^ (k - 52) - (m : ℚ)| < 1 / 2) : fl x = (m : ℚ) * 2 ^ (k - 52) := by
  rw [fl_eq_of_binade x k h1 h2, roundHalfEven_eq _ m hm]

/-- The rounding error is at most half a unit in the last place, so at most
`2^-53 |x|`. -/
theorem fl_error (x : ℚ) : |fl x - x| ≤ |x| * unitRoundoff := by
  by_cases hx : x = 0
  · subst hx
    simp [fl_zero]
  · obtain ⟨h1, _⟩ := binade_of_ne_zero x hx
    have hq := two_zpow_pos (Int.log 2 |x| - 52)
    have hr := (roundHalfEven_bounds (x / 2 ^ (Int.log 2 |x| - 52))).2.2
    unfold fl
    rw [if_neg hx]
    have e : (roundHalfEven (x / 2 ^ (Int.log 2 |x| - 52)) : ℚ) * 2 ^ (Int.log 2 |x| - 52) - x =
        ((roundHalfEven (x / 2 ^ (Int.log 2 |x| - 52)) : ℚ) - x / 2 ^ (Int.log 2 |x| - 52)) *
          2 ^ (Int.log 2 |x| - 52) := by
      field_simp
    rw [e, abs_mul, abs_of_pos hq]
    have hsplit : (2 : ℚ) ^ (Int.log 2 |x| - 52) = 2 ^ (Int.log 2 |x|) / 2 ^ 52 := by
      rw [zpow_sub₀ (by norm_num)]
      norm_num
    calc |(roundHalfEven (x / 2 ^ (Int.log 2 |x| - 52)) : ℚ) - x / 2 ^ (Int.log 2 |x| - 52)| *
          2 ^ (Int.log 2 |x| - 52)
        ≤ 1 / 2 * 2 ^ (Int.log 2 |x| - 52) := mul_le_mul_of_nonneg_right hr hq.le
      _ = 2 ^ (Int.log 2 |x|) * unitRoundoff := by
          rw [hsplit]
          unfold unitRoundoff
          ring
      _ ≤ |x| * unitRoundoff :=
          mul_le_mul_of_nonneg_right h1 (by unfold unitRoundoff; positivity)

theorem unitRoundoff_pos : 0 < unitRoundoff := by unfold unitRoundoff; positivity

theorem unitRoundoff_lt_one : unitRoundoff < 1 := by unfold unitRoundoff; norm_num

/-- The rounding of a non-negative value, within one relative `unitRoundoff`. -/
theorem fl_bounds {x : ℚ} (hx : 0 ≤ x) :
    x * (1 - unitRoundoff) ≤ fl x ∧ fl x ≤ x * (1 + unitRoundoff) := by
  have h := fl_error x
  rw [abs_of_nonneg hx, abs_le] at h
  constructor <;> linarith [h.1, h.2]

/-- The magnitude of a rounding, within one relative `unitRoundoff`. -/
theorem abs_fl_bounds (x : ℚ) :
    |x| * (1 - unitRoundoff) ≤ |fl x| ∧ |fl x| ≤ |x| * (1 + unitRoundoff) := by
  have h := fl_error x
  constructor
  · have := abs_sub_abs_le_abs_sub x (fl x)
    rw [abs_sub_comm] at this
    linarith
  · have := abs_sub_abs_le_abs_sub (fl x) x
    linarith

theorem fl_pos {x : ℚ} (hx : 0 < x) : 0 < fl x := by
  have h := (fl_bounds hx.le).1
  have : 0 < x * (1 - unitRoundoff) := mul_pos hx (by linarith [unitRoundoff_lt_one])
  linarith

theorem fl_nonneg {x : ℚ} (hx : 0 ≤ x) : 0 ≤ fl x := by
  rcases eq_or_lt_of_le hx with h | h
  · rw [← h, fl_zero]
  · exact (fl_pos h).le

theorem fl_neg_of_neg {x : ℚ} (hx : x < 0) : fl x < 0 := by
  have h := fl_error x
  rw [abs_of_neg hx, abs_le] at h
  have : x * (1 - unitRoundoff) < 0 := mul_neg_of_neg_of_pos hx (by linarith [unitRoundoff_lt_one])
  linarith [h.2]

/-- The scaled value of a non-zero `x` lies in `[2^52, 2^53)` in magnitude. -/
theorem scaled_bounds (x : ℚ) (hx : x ≠ 0) :
    (2 : ℚ) ^ 52 ≤ |x / 2 ^ (Int.log 2 |x| - 52)| ∧
      |x / 2 ^ (Int.log 2 |x| - 52)| < (2 : ℚ) ^ 53 := by
  obtain ⟨h1, h2⟩ := binade_of_ne_zero x hx
  have hq := two_zpow_pos (Int.log 2 |x| - 52)
  have hsplit : (2 : ℚ) ^ (Int.log 2 |x| - 52) = 2 ^ (Int.log 2 |x|) / 2 ^ 52 := by
    rw [zpow_sub₀ (by norm_num)]
    norm_num
  have hsucc : (2 : ℚ) ^ (Int.log 2 |x| + 1) = 2 ^ (Int.log 2 |x|) * 2 := by
    rw [zpow_add₀ (by norm_num)]
    norm_num
  have he := two_zpow_pos (Int.log 2 |x|)
  rw [abs_div, abs_of_pos hq, hsplit]
  constructor
  · rw [le_div_iff₀ (by positivity)]
    calc (2 : ℚ) ^ 52 * (2 ^ (Int.log 2 |x|) / 2 ^ 52) = 2 ^ (Int.log 2 |x|) := by
          field_simp
      _ ≤ |x| := h1
  · rw [div_lt_iff₀ (by positivity)]
    calc |x| < 2 ^ (Int.log 2 |x|) * 2 := by rw [← hsucc]; exact h2
      _ = (2 : ℚ) ^ 53 * (2 ^ (Int.log 2 |x|) / 2 ^ 52) := by
          field_simp
          ring

/-- The rounding of a positive value stays in the closure of its binade. -/
theorem fl_binade {x : ℚ} (hx : 0 < x) :
    (2 : ℚ) ^ (Int.log 2 |x|) ≤ fl x ∧ fl x ≤ (2 : ℚ) ^ (Int.log 2 |x| + 1) := by
  obtain ⟨h1, h2⟩ := scaled_bounds x hx.ne'
  have hq := two_zpow_pos (Int.log 2 |x| - 52)
  have hy : 0 < x / 2 ^ (Int.log 2 |x| - 52) := div_pos hx hq
  rw [abs_of_pos hy] at h1 h2
  have hlo : ((2 ^ 52 : Int) : ℚ) ≤ (roundHalfEven (x / 2 ^ (Int.log 2 |x| - 52)) : ℚ) := by
    have := roundHalfEven_mono (show (((2 ^ 52 : Int) : Int) : ℚ) ≤
      x / 2 ^ (Int.log 2 |x| - 52) by push_cast; exact h1)
    rw [roundHalfEven_intCast] at this
    exact_mod_cast this
  have hhi : (roundHalfEven (x / 2 ^ (Int.log 2 |x| - 52)) : ℚ) ≤ ((2 ^ 53 : Int) : ℚ) := by
    have := roundHalfEven_mono (show x / 2 ^ (Int.log 2 |x| - 52) ≤
      (((2 ^ 53 : Int) : Int) : ℚ) by push_cast; exact h2.le)
    rw [roundHalfEven_intCast] at this
    exact_mod_cast this
  have hsplit : (2 : ℚ) ^ (Int.log 2 |x| - 52) = 2 ^ (Int.log 2 |x|) / 2 ^ 52 := by
    rw [zpow_sub₀ (by norm_num)]
    norm_num
  have hsucc : (2 : ℚ) ^ (Int.log 2 |x| + 1) = 2 ^ (Int.log 2 |x|) * 2 := by
    rw [zpow_add₀ (by norm_num)]
    norm_num
  have he := two_zpow_pos (Int.log 2 |x|)
  unfold fl
  rw [if_neg hx.ne']
  push_cast at hlo hhi
  constructor
  · calc (2 : ℚ) ^ (Int.log 2 |x|) = 2 ^ 52 * 2 ^ (Int.log 2 |x| - 52) := by
          rw [hsplit]
          field_simp
      _ ≤ _ := mul_le_mul_of_nonneg_right hlo hq.le
  · calc _ ≤ (2 : ℚ) ^ 53 * 2 ^ (Int.log 2 |x| - 52) := mul_le_mul_of_nonneg_right hhi hq.le
      _ = (2 : ℚ) ^ (Int.log 2 |x| + 1) := by
          rw [hsplit, hsucc]
          field_simp
          ring

/-- On non-negative values rounding is monotone. -/
theorem fl_mono_nonneg {x y : ℚ} (hx : 0 ≤ x) (h : x ≤ y) : fl x ≤ fl y := by
  rcases eq_or_lt_of_le hx with h0 | hpos
  · rw [← h0, fl_zero]
    exact fl_nonneg (le_trans hx h)
  · have hy : 0 < y := lt_of_lt_of_le hpos h
    have hlog : Int.log 2 |x| ≤ Int.log 2 |y| := by
      rw [abs_of_pos hpos, abs_of_pos hy]
      exact Int.log_mono_right hpos h
    rcases lt_or_eq_of_le hlog with hlt | heq
    · have h1 := (fl_binade hpos).2
      have h2 := (fl_binade hy).1
      have : (2 : ℚ) ^ (Int.log 2 |x| + 1) ≤ 2 ^ (Int.log 2 |y|) :=
        zpow_le_zpow_right₀ (by norm_num) (by omega)
      linarith
    · have hq := two_zpow_pos (Int.log 2 |y| - 52)
      unfold fl
      rw [if_neg hpos.ne', if_neg hy.ne', heq]
      apply mul_le_mul_of_nonneg_right _ hq.le
      have : roundHalfEven (x / 2 ^ (Int.log 2 |y| - 52)) ≤
          roundHalfEven (y / 2 ^ (Int.log 2 |y| - 52)) :=
        roundHalfEven_mono (div_le_div_of_nonneg_right h hq.le)
      exact_mod_cast this

/-- An integer of fewer than 54 bits times a power of two is a binary64 number. -/
theorem fl_representable (n k : Int) (hn : |n| < 2 ^ 53) :
    fl ((n : ℚ) * 2 ^ k) = (n : ℚ) * 2 ^ k := by
  by_cases h0 : n = 0
  · subst h0
    simp [fl_zero]
  · have hk := two_zpow_pos k
    have hx : (n : ℚ) * 2 ^ k ≠ 0 := mul_ne_zero (by exact_mod_cast h0) hk.ne'
    obtain ⟨h1, h2⟩ := binade_of_ne_zero _ hx
    have hq := two_zpow_pos (Int.log 2 |(n : ℚ) * 2 ^ k| - 52)
    have habs : |(n : ℚ) * 2 ^ k| < 2 ^ (53 + k) := by
      rw [abs_mul, abs_of_pos hk, zpow_add₀ (by norm_num)]
      apply mul_lt_mul_of_pos_right _ hk
      have : ((|n| : Int) : ℚ) < ((2 ^ 53 : Int) : ℚ) := by exact_mod_cast hn
      push_cast at this
      exact_mod_cast this
    have hlog : Int.log 2 |(n : ℚ) * 2 ^ k| < 53 + k := by
      have := (Int.lt_zpow_iff_log_lt (b := 2) (by norm_num) (abs_pos.mpr hx)
        (x := 53 + k)).mp (by simpa using habs)
      exact this
    obtain ⟨d, hd⟩ : ∃ d : Nat, k - (Int.log 2 |(n : ℚ) * 2 ^ k| - 52) = (d : Int) :=
      ⟨(k - (Int.log 2 |(n : ℚ) * 2 ^ k| - 52)).toNat, by omega⟩
    have hscaled : (n : ℚ) * 2 ^ k / 2 ^ (Int.log 2 |(n : ℚ) * 2 ^ k| - 52) =
        ((n * 2 ^ d : Int) : ℚ) := by
      rw [mul_div_assoc, ← zpow_sub₀ (by norm_num), hd, zpow_natCast]
      push_cast
      rfl
    unfold fl
    rw [if_neg hx, hscaled, roundHalfEven_intCast, ← hscaled]
    field_simp

/-- Rounding a rounded value changes nothing. -/
theorem fl_idem (x : ℚ) : fl (fl x) = fl x := by
  by_cases hx : x = 0
  · subst hx
    rw [fl_zero, fl_zero]
  · obtain ⟨_, h2⟩ := scaled_bounds x hx
    have hb := roundHalfEven_bounds (x / 2 ^ (Int.log 2 |x| - 52))
    rw [abs_lt] at h2
    have hfl : fl x = (roundHalfEven (x / 2 ^ (Int.log 2 |x| - 52)) : ℚ) *
        2 ^ (Int.log 2 |x| - 52) := by
      unfold fl
      rw [if_neg hx]
    have hfloor_lt : Int.floor (x / 2 ^ (Int.log 2 |x| - 52)) < 2 ^ 53 := by
      rw [Int.floor_lt]
      push_cast
      exact h2.2
    have hfloor_ge : -(2 ^ 53 : Int) ≤ Int.floor (x / 2 ^ (Int.log 2 |x| - 52)) := by
      rw [Int.le_floor]
      push_cast
      exact h2.1.le
    have hm : |roundHalfEven (x / 2 ^ (Int.log 2 |x| - 52))| ≤ 2 ^ 53 := by
      rw [abs_le]
      constructor <;> omega
    rw [hfl]
    rcases lt_or_eq_of_le hm with hlt | heq
    · exact fl_representable _ _ hlt
    · -- the rounding reached the next binade: `± 2^53 * 2^k = ± 2^52 * 2^(k+1)`
      have hcases : roundHalfEven (x / 2 ^ (Int.log 2 |x| - 52)) = 2 ^ 53 ∨
          roundHalfEven (x / 2 ^ (Int.log 2 |x| - 52)) = -(2 ^ 53) := by
        rcases abs_cases (roundHalfEven (x / 2 ^ (Int.log 2 |x| - 52))) with ⟨h, _⟩ | ⟨h, _⟩
        · left; omega
        · right; omega
      have hre : ∀ s : Int, |s| < 2 ^ 53 →
          fl (((2 * s : Int) : ℚ) * 2 ^ (Int.log 2 |x| - 52)) =
            ((2 * s : Int) : ℚ) * 2 ^ (Int.log 2 |x| - 52) := by
        intro s hs
        have e : ((2 * s : Int) : ℚ) * 2 ^ (Int.log 2 |x| - 52) =
            (s : ℚ) * 2 ^ (Int.log 2 |x| - 52 + 1) := by
          rw [zpow_add₀ (by norm_num)]
          push_cast
          ring
        rw [e]
        exact fl_representable s _ hs
      rcases hcases with h | h
      · rw [h]
        exact hre (2 ^ 52) (by norm_num)
      · rw [h]
        exact hre (-(2 ^ 52)) (by norm_num)

theorem fl_hundred : fl 100 = 100 := by
  simpa using fl_representable 100 0 (by norm_num)

/-- The value `getConfidence64` computes when `samples_needed` is positive:
`100 * min(valid_samples, samples_needed) / samples_needed`, the product and the
quotient rounded. -/
theorem getConfidence64_eq (img : Image) (percent_of_image_sampled
    percent_of_samples_needed valid_samples : ℚ)
    (hsn : 0 < fl ((img.height : ℚ) * percent_of_samples_needed))
    (hvd : fl valid_samples = valid_samples) :
    getConfidence64 img percent_of_image_sampled percent_of_samples_needed valid_samples =
      some (fl (fl (min valid_samples (fl ((img.height : ℚ) * percent_of_samples_needed)) *
        100) / fl ((img.height : ℚ) * percent_of_samples_needed))) := by
  have hmin : (if valid_samples > fl ((img.height : ℚ) * percent_of_samples_needed) then
      fl ((img.height : ℚ) * percent_of_samples_needed) else valid_samples) =
      min valid_samples (fl ((img.height : ℚ) * percent_of_samples_needed)) := by
    split
    · rename_i h
      rw [min_eq_right h.le]
    · rename_i h
      rw [min_eq_left (not_lt.mp h)]
  have hfix : fl (min valid_samples (fl ((img.height : ℚ) * percent_of_samples_needed))) =
      min valid_samples (fl ((img.height : ℚ) * percent_of_samples_needed)) := by
    rcases min_choice valid_samples (fl ((img.height : ℚ) * percent_of_samples_needed)) with
      h | h
    · rw [h, hvd]
    · rw [h, fl_idem]
  unfold getConfidence64 mapRange64
  simp only [sub_zero, add_zero]
  rw [fl_idem, if_neg hsn.ne', hmin, hfix, fl_hundred, fl_idem]

/-- C17 (as amended): with `samplesNeeded = height * percent_of_samples_needed` (rounded)
positive and a count `validSampleCount ≥ 0`, `getConfidence` in binary64 is
`100 * min(validSampleCount, samplesNeeded) / samplesNeeded` with the product and the
quotient rounded; it lies in `[0, 100 (1 + 2^-53)²]`, is at least `100 (1 - 2^-53)²`
when `validSampleCount ≥ samplesNeeded`, and does not decrease with
`validSampleCount`.  The hypothesis `ConfidenceNormal` keeps the exact results in the
range where `fl` is the rounding of the hardware; the bounds do not need it. -/
theorem getConfidence64_value (img : Image) (percent_of_image_sampled
    percent_of_samples_needed valid_samples : ℚ)
    (hsn : 0 < fl ((img.height : ℚ) * percent_of_samples_needed))
    (hv : 0 ≤ valid_samples) (hvd : fl valid_samples = valid_samples)
    (hnormal : ConfidenceNormal img percent_of_samples_needed valid_samples) :
    ∃ c : ℚ,
      getConfidence64 img percent_of_image_sampled percent_of_samples_needed valid_samples =
        some c ∧
      c = fl (fl (min valid_samples (fl ((img.height : ℚ) * percent_of_samples_needed)) *
        100) / fl ((img.height : ℚ) * percent_of_samples_needed)) ∧
      0 ≤ c ∧ c ≤ 100 * (1 + unitRoundoff) ^ 2 ∧
      (fl ((img.height : ℚ) * percent_of_samples_needed) ≤ valid_samples →
        100 * (1 - unitRoundoff) ^ 2 ≤ c) ∧
      ∀ more c' : ℚ, valid_samples ≤ more → fl more = more →
        ConfidenceNormal img percent_of_samples_needed more →
        getConfidence64 img percent_of_image_sampled percent_of_samples_needed more =
          some c' → c ≤ c' := by
  have hu := unitRoundoff_pos
  have hu1 := unitRoundoff_lt_one
  generalize hs : fl ((img.height : ℚ) * percent_of_samples_needed) = s at hsn
  have heq : ∀ v : ℚ, fl v = v →
      getConfidence64 img percent_of_image_sampled percent_of_samples_needed v =
        some (fl (fl (min v s * 100) / s)) := by
    intro v hvd'
    have := getConfidence64_eq img percent_of_image_sampled percent_of_samples_needed v
      (by rw [hs]; exact hsn) hvd'
    rw [hs] at this
    exact this
  have hm0 : 0 ≤ min valid_samples s := le_min hv hsn.le
  have hms : min valid_samples s ≤ s := min_le_right _ _
  have hp0 : 0 ≤ min valid_samples s * 100 := by positivity
  have hy0 : 0 ≤ fl (min valid_samples s * 100) / s := div_nonneg (fl_nonneg hp0) hsn.le
  refine ⟨_, heq valid_samples hvd, rfl, fl_nonneg hy0, ?_, ?_, ?_⟩
  · have h1 : fl (min valid_samples s * 100) ≤ s * 100 * (1 + unitRoundoff) :=
      le_trans (fl_bounds hp0).2
        (mul_le_mul_of_nonneg_right (by linarith) (by linarith))
    have h2 : fl (min valid_samples s * 100) / s ≤ 100 * (1 + unitRoundoff) := by
      rw [div_le_iff₀ hsn]
      linarith
    calc fl (fl (min valid_samples s * 100) / s)
        ≤ fl (min valid_samples s * 100) / s * (1 + unitRoundoff) := (fl_bounds hy0).2
      _ ≤ 100 * (1 + unitRoundoff) * (1 + unitRoundoff) :=
          mul_le_mul_of_nonneg_right h2 (by linarith)
      _ = 100 * (1 + unitRoundoff) ^ 2 := by ring
  · intro hsat
    rw [min_eq_right hsat] at hy0 hp0 ⊢
    have h1 : s * 100 * (1 - unitRoundoff) ≤ fl (s * 100) := (fl_bounds hp0).1
    have h2 : 100 * (1 - unitRoundoff) ≤ fl (s * 100) / s := by
      rw [le_div_iff₀ hsn]
      linarith
    calc 100 * (1 - unitRoundoff) ^ 2 = 100 * (1 - unitRoundoff) * (1 - unitRoundoff) := by
          ring
      _ ≤ fl (s * 100) / s * (1 - unitRoundoff) :=
          mul_le_mul_of_nonneg_right h2 (by linarith)
      _ ≤ fl (fl (s * 100) / s) := (fl_bounds hy0).1
  · intro more c' hle hmd _ hc'
    rw [heq more hmd] at hc'
    have hc'' : fl (fl (min more s * 100) / s) = c' := Option.some.inj hc'
    rw [← hc'']
    apply fl_mono_nonneg hy0
    apply div_le_div_of_nonneg_right _ hsn.le
    apply fl_mono_nonneg hp0
    apply mul_le_mul_of_nonneg_right _ (by norm_num)
    exact min_le_min hle (le_refl s)

/-- The confidence of one valid sample in `bandImage`, in binary64. -/
theorem getConfidence64_value_witness :
    ∃ c : ℚ, getConfidence64 bandImage (1 / 4) (1 / 8) 1 = some c ∧ 0 ≤ c ∧
      c ≤ 100 * (1 + unitRoundoff) ^ 2 := by
  have hh : (bandImage.height : ℚ) = 12 := by norm_num [bandImage, rowsImage]
  have hs : fl ((bandImage.height : ℚ) * (1 / 8)) = 3 / 2 := by
    rw [hh]
    have := fl_representable 3 (-1) (by norm_num)
    norm_num at this ⊢
    exact this
  have hone : fl 1 = 1 := by simpa using fl_representable 1 0 (by norm_num)
  have hmin : min (1 : ℚ) (3 / 2) = 1 := by norm_num
  obtain ⟨c, h1, _, h3, h4, _⟩ := getConfidence64_value bandImage (1 / 4) (1 / 8) 1
    (by rw [hs]; norm_num) (by norm_num) hone
    (by
      unfold ConfidenceNormal
      rw [hs, hmin, one_mul, fl_hundred, hh]
      refine ⟨Or.inr ?_, Or.inr ?_, Or.inr ?_⟩ <;> norm_num [abs_le, le_abs])
  exact ⟨c, h1, h3, h4⟩

/-- C17 fails as stated: for twenty-nine rows and `percent_of_samples_needed` the
binary64 number `0.1`, `samplesNeeded` is `2.9000000000000004`, and three valid
samples, at least `samplesNeeded`, give the confidence `100 + 2^-46`, which is not
`100` and not in `[0, 100]`. -/
theorem getConfidence64_above_hundred :
    0 < fl ((tallImage.height : ℚ) * tenth64) ∧
    fl ((tallImage.height : ℚ) * tenth64) ≤ 3 ∧
    ConfidenceNormal tallImage tenth64 3 ∧
    getConfidence64 tallImage (1 / 4) tenth64 3 = some (100 + 1 / 2 ^ 46) := by
  have hh : (tallImage.height : ℚ) = 29 := by norm_num [tallImage, rowsImage]
  have hs : fl ((tallImage.height : ℚ) * tenth64) = 1632554864921805 / 562949953421312 := by
    rw [hh, fl_eval (29 * tenth64) 1 6530219459687220] <;>
      norm_num [tenth64, abs_lt, le_abs]
  have hmin : min (3 : ℚ) (1632554864921805 / 562949953421312) =
      1632554864921805 / 562949953421312 := by norm_num
  have ht : fl (1632554864921805 / 562949953421312 * 100) =
      5101733952880641 / 17592186044416 := by
    rw [fl_eval (1632554864921805 / 562949953421312 * 100) 8 5101733952880641] <;>
      norm_num [abs_lt, le_abs]
  have hr : fl (5101733952880641 / 17592186044416 / (1632554864921805 / 562949953421312)) =
      100 + 1 / 2 ^ 46 := by
    rw [fl_eval (5101733952880641 / 17592186044416 / (1632554864921805 / 562949953421312))
      6 7036874417766401] <;> norm_num [abs_lt, le_abs]
  have hthree : fl 3 = 3 := by simpa using fl_representable 3 0 (by norm_num)
  refine ⟨by rw [hs]; norm_num, by rw [hs]; norm_num, ?_, ?_⟩
  · unfold ConfidenceNormal
    rw [hs, hmin, ht, hh]
    refine ⟨Or.inr ?_, Or.inr ?_, Or.inr ?_⟩ <;> norm_num [tenth64, abs_le, le_abs]
  · rw [getConfidence64_eq tallImage (1 / 4) tenth64 3 (by rw [hs]; norm_num) hthree, hs,
      hmin, ht, hr]

theorem step_up {X Y B : ℚ} {j : Nat} (h1 : X ≤ Y * (1 + unitRoundoff))
    (h2 : Y ≤ B * (1 + unitRoundoff) ^ j) : X ≤ B * (1 + unitRoundoff) ^ (j + 1) := by
  have hu := unitRoundoff_pos
  calc X ≤ Y * (1 + unitRoundoff) := h1
    _ ≤ B * (1 + unitRoundoff) ^ j * (1 + unitRoundoff) :=
        mul_le_mul_of_nonneg_right h2 (by linarith)
    _ = B * (1 + unitRoundoff) ^ (j + 1) := by ring

theorem step_down {X Y B : ℚ} {j : Nat} (h1 : Y * (1 - unitRoundoff) ≤ X)
    (h2 : B * (1 - unitRoundoff) ^ j ≤ Y) : B * (1 - unitRoundoff) ^ (j + 1) ≤ X := by
  have hu := unitRoundoff_lt_one
  calc B * (1 - unitRoundoff) ^ (j + 1) = B * (1 - unitRoundoff) ^ j * (1 - unitRoundoff) := by
        ring
    _ ≤ Y * (1 - unitRoundoff) := mul_le_mul_of_nonneg_right h2 (by linarith)
    _ ≤ X := h1

theorem pow_up_le {B : ℚ} (hB : 0 ≤ B) {i j : Nat} (h : i ≤ j) :
    B * (1 + unitRoundoff) ^ i ≤ B * (1 + unitRoundoff) ^ j :=
  mul_le_mul_of_nonneg_left
    (pow_le_pow_right₀ (by linarith [unitRoundoff_pos]) h) hB

theorem pow_down_le {B : ℚ} (hB : 0 ≤ B) {i j : Nat} (h : i ≤ j) :
    B * (1 - unitRoundoff) ^ j ≤ B * (1 - unitRoundoff) ^ i :=
  mul_le_mul_of_nonneg_left
    (pow_le_pow_of_le_one (by linarith [unitRoundoff_lt_one])
      (by linarith [unitRoundoff_pos]) h) hB

/-- The binary64 angular speed away from the sentinel: its sign is the sign of the
angle, its magnitude `angle² / 10000` up to three roundings. -/
theorem getDesiredAngularSpeed64_bounds (a : ℚ) (ha : a ≠ 90) :
    a ^ 2 / 10000 * (1 - unitRoundoff) ^ 3 ≤ |getDesiredAngularSpeed64 a| ∧
    |getDesiredAngularSpeed64 a| ≤ a ^ 2 / 10000 * (1 + unitRoundoff) ^ 3 ∧
    (0 < a → 0 < getDesiredAngularSpeed64 a) ∧ (a < 0 → getDesiredAngularSpeed64 a < 0) ∧
    (a = 0 → getDesiredAngularSpeed64 a = 0) := by
  have hu := unitRoundoff_pos
  have hu1 := unitRoundoff_lt_one
  have h90 : ((STOP_SIGNAL_ANGLE : Int) : ℚ) = 90 := by norm_num [STOP_SIGNAL_ANGLE]
  have hsq : 0 ≤ a ^ 2 := sq_nonneg a
  have hA : 0 ≤ a ^ 2 / 10000 := by positivity
  have hf1 := fl_bounds hsq
  have hf1n : 0 ≤ fl (a ^ 2) / 10000 := div_nonneg (fl_nonneg hsq) (by norm_num)
  have hP := fl_bounds hf1n
  have hPlo : a ^ 2 / 10000 * (1 - unitRoundoff) ^ 2 ≤ fl (fl (a ^ 2) / 10000) := by
    apply step_down hP.1
    rw [pow_one]
    have := hf1.1
    linarith
  have hPhi : fl (fl (a ^ 2) / 10000) ≤ a ^ 2 / 10000 * (1 + unitRoundoff) ^ 2 := by
    apply step_up hP.2
    rw [pow_one]
    have := hf1.2
    linarith
  have hPn : 0 ≤ fl (fl (a ^ 2) / 10000) := fl_nonneg hf1n
  have hPpos : a ≠ 0 → 0 < fl (fl (a ^ 2) / 10000) := by
    intro h0
    have : 0 < a ^ 2 := by positivity
    exact fl_pos (div_pos (fl_pos this) (by norm_num))
  unfold getDesiredAngularSpeed64
  rw [h90, if_neg ha]
  by_cases hneg : a < 0
  · rw [if_pos hneg]
    have hb := abs_fl_bounds (fl (fl (a ^ 2) / 10000) * -1)
    have habs : |fl (fl (a ^ 2) / 10000) * -1| = fl (fl (a ^ 2) / 10000) := by
      rw [mul_neg_one, abs_neg, abs_of_nonneg hPn]
    rw [habs] at hb
    refine ⟨step_down hb.1 hPlo, step_up hb.2 hPhi, fun h => absurd h (not_lt.mpr hneg.le),
      fun _ => ?_, fun h => absurd h hneg.ne⟩
    apply fl_neg_of_neg
    have := hPpos hneg.ne
    linarith
  · rw [if_neg hneg, abs_of_nonneg hPn]
    refine ⟨le_trans (pow_down_le hA (by norm_num)) hPlo,
      le_trans hPhi (pow_up_le hA (by norm_num)), fun h => hPpos h.ne',
      fun h => absurd h hneg, fun h => ?_⟩
    subst h
    norm_num [fl_zero]

/-- The capping step `cap * z / fabs(z)` in binary64: the sign of `z`, the magnitude
`cap` up to two roundings. -/
theorem cap64_bounds (cap z : ℚ) (hcap : 0 < cap) (hz : z ≠ 0) :
    cap * (1 - unitRoundoff) ^ 2 ≤ |fl (fl (cap * z) / |z|)| ∧
    |fl (fl (cap * z) / |z|)| ≤ cap * (1 + unitRoundoff) ^ 2 ∧
    (0 < z → 0 < fl (fl (cap * z) / |z|)) ∧ (z < 0 → fl (fl (cap * z) / |z|) < 0) := by
  have hzpos : 0 < |z| := abs_pos.mpr hz
  have hw := abs_fl_bounds (cap * z)
  rw [abs_mul, abs_of_pos hcap] at hw
  have hq := abs_fl_bounds (fl (cap * z) / |z|)
  rw [abs_div, abs_abs] at hq
  have hlo : cap * (1 - unitRoundoff) ^ 1 ≤ |fl (cap * z)| / |z| := by
    rw [pow_one, le_div_iff₀ hzpos]
    linarith [hw.1]
  have hhi : |fl (cap * z)| / |z| ≤ cap * (1 + unitRoundoff) ^ 1 := by
    rw [pow_one, div_le_iff₀ hzpos]
    linarith [hw.2]
  refine ⟨step_down hq.1 hlo, step_up hq.2 hhi, fun h => ?_, fun h => ?_⟩
  · exact fl_pos (div_pos (fl_pos (mul_pos hcap h)) hzpos)
  · exact fl_neg_of_neg (div_neg_of_neg_of_pos
      (fl_neg_of_neg (mul_neg_of_pos_of_neg hcap h)) hzpos)

theorem roundoff_six : (1 + unitRoundoff) ^ 6 ≤ 1 + 1 / 2 ^ 50 := by
  unfold unitRoundoff
  norm_num

theorem roundoff_four : 1 - 1 / 2 ^ 50 ≤ (1 - unitRoundoff) ^ 4 := by
  unfold unitRoundoff
  norm_num

/-- What the four statements about `angular.z` need of a value `r`: the bounds on its
magnitude and its sign. -/
theorem angular_conclusions (a x cap multiplier r : ℚ)
    (h1 : |r| ≤ cap * (1 + unitRoundoff) ^ 2)
    (h2 : min x cap * (1 - 1 / 2 ^ 50) ≤ |r|) (h3 : |r| ≤ min x cap * (1 + 1 / 2 ^ 50))
    (hpos : 0 < a → r ≤ 0 ∧ (0 < multiplier → r < 0))
    (hneg : a < 0 → 0 ≤ r ∧ (0 < multiplier → 0 < r)) (hzero : a = 0 → r = 0) :
    |r| ≤ cap * (1 + unitRoundoff) ^ 2 ∧
    (∃ R : ℚ, r = -(SignType.sign a : ℚ) * R ∧ min x cap * (1 - 1 / 2 ^ 50) ≤ R ∧
      R ≤ min x cap * (1 + 1 / 2 ^ 50)) ∧
    r * a ≤ 0 ∧ (0 < multiplier → SignType.sign r = -SignType.sign a) := by
  refine ⟨h1, ⟨|r|, ?_, h2, h3⟩, ?_, ?_⟩
  · rcases lt_trichotomy a 0 with h | h | h
    · rw [sign_neg h, SignType.coe_neg_one, abs_of_nonneg (hneg h).1]
      ring
    · rw [hzero h, h]
      simp
    · rw [sign_pos h, SignType.coe_one, abs_of_nonpos (hpos h).1]
      ring
  · rcases lt_trichotomy a 0 with h | h | h
    · exact mul_nonpos_of_nonneg_of_nonpos (hneg h).1 h.le
    · rw [h, mul_zero]
    · exact mul_nonpos_of_nonpos_of_nonneg (hpos h).1 h.le
  · intro hm
    rcases lt_trichotomy a 0 with h | h | h
    · rw [sign_neg h, sign_pos ((hneg h).2 hm)]
      rfl
    · rw [hzero h, h]
      simp
    · rw [sign_pos h, sign_neg ((hpos h).2 hm)]

/-- C22 (as amended): for an integer angle, `angular_vel_multiplier ≥ 0` and
`angular_vel_cap > 0`, the `angular.z` of `imageCallBack` in binary64 is at most
`cap (1 + 2^-53)²` in magnitude; away from the angle `90` it is `-sign(angle) * R` with
`R` within a relative `2^-50` of `min(multiplier * angle² / 10000, cap)`; it never has
the sign of the angle, and for a positive multiplier its sign is opposite.  The
hypothesis `AngularNormal` keeps the exact results in the range where `fl` is the
rounding of the hardware; the bounds do not need it. -/
theorem angularZ64_spec (multiplier cap : ℚ) (angle : Int) (hm : 0 ≤ multiplier)
    (hcap : 0 < cap) (hnormal : AngularNormal multiplier cap angle) :
    |angularZ64 multiplier cap angle| ≤ cap * (1 + unitRoundoff) ^ 2 ∧
    (angle ≠ 90 → ∃ R : ℚ,
      angularZ64 multiplier cap angle = -(SignType.sign (angle : ℚ) : ℚ) * R ∧
      min (multiplier * (angle : ℚ) ^ 2 / 10000) cap * (1 - 1 / 2 ^ 50) ≤ R ∧
      R ≤ min (multiplier * (angle : ℚ) ^ 2 / 10000) cap * (1 + 1 / 2 ^ 50)) ∧
    angularZ64 multiplier cap angle * (angle : ℚ) ≤ 0 ∧
    (angle ≠ 90 → 0 < multiplier →
      SignType.sign (angularZ64 multiplier cap angle) = -SignType.sign (angle : ℚ)) := by
  have hu := unitRoundoff_pos
  have hu1 := unitRoundoff_lt_one
  have hone : (1 : ℚ) ≤ (1 + unitRoundoff) ^ 2 := one_le_pow₀ (by linarith)
  have hcapup : cap ≤ cap * (1 + unitRoundoff) ^ 2 := le_mul_of_one_le_right hcap.le hone
  by_cases h90 : angle = 90
  · subst h90
    have hS : getDesiredAngularSpeed64 ((90 : Int) : ℚ) = 0 := by
      unfold getDesiredAngularSpeed64
      rw [if_pos]
      norm_num [STOP_SIGNAL_ANGLE]
    have hz : angularZ64 multiplier cap (90 : Int) = 0 := by
      unfold angularZ64
      dsimp only
      rw [hS, mul_zero, fl_zero, abs_zero, if_neg (not_lt.mpr hcap.le)]
    rw [hz]
    exact ⟨by rw [abs_zero]; linarith, fun h => absurd rfl h, by simp,
      fun h => absurd rfl h⟩
  · have hq : (angle : ℚ) ≠ 90 := by
      intro h
      apply h90
      exact_mod_cast h
    obtain ⟨hSlo, hShi, hSpos, hSneg, hSzero⟩ := getDesiredAngularSpeed64_bounds _ hq
    have hres : angularZ64 multiplier cap angle =
        if |fl (-multiplier * getDesiredAngularSpeed64 (angle : ℚ))| > cap then
          fl (fl (cap * fl (-multiplier * getDesiredAngularSpeed64 (angle : ℚ))) /
            |fl (-multiplier * getDesiredAngularSpeed64 (angle : ℚ))|)
        else fl (-multiplier * getDesiredAngularSpeed64 (angle : ℚ)) := rfl
    rw [hres]
    generalize getDesiredAngularSpeed64 (angle : ℚ) = S at hSlo hShi hSpos hSneg hSzero ⊢
    generalize hx : multiplier * (angle : ℚ) ^ 2 / 10000 = x
    have hx0 : 0 ≤ x := by
      rw [← hx]
      positivity
    -- the product by the multiplier
    have hzb := abs_fl_bounds (-multiplier * S)
    have hmS : |-multiplier * S| = multiplier * |S| := by
      rw [abs_mul, abs_neg, abs_of_nonneg hm]
    rw [hmS] at hzb
    have hzlo : x * (1 - unitRoundoff) ^ 4 ≤ |fl (-multiplier * S)| := by
      apply step_down hzb.1
      have := mul_le_mul_of_nonneg_left hSlo hm
      calc x * (1 - unitRoundoff) ^ 3 =
            multiplier * ((angle : ℚ) ^ 2 / 10000 * (1 - unitRoundoff) ^ 3) := by
            rw [← hx]; ring
        _ ≤ multiplier * |S| := this
    have hzhi : |fl (-multiplier * S)| ≤ x * (1 + unitRoundoff) ^ 4 := by
      apply step_up hzb.2
      have := mul_le_mul_of_nonneg_left hShi hm
      calc multiplier * |S| ≤
            multiplier * ((angle : ℚ) ^ 2 / 10000 * (1 + unitRoundoff) ^ 3) := this
        _ = x * (1 + unitRoundoff) ^ 3 := by rw [← hx]; ring
    have hzsign_pos : 0 < (angle : ℚ) → fl (-multiplier * S) ≤ 0 ∧
        (0 < multiplier → fl (-multiplier * S) < 0) := by
      intro ha
      have hS := hSpos ha
      constructor
      · rcases eq_or_lt_of_le hm with h0 | hpos
        · rw [← h0, neg_zero, zero_mul, fl_zero]
        · exact (fl_neg_of_neg (by
            rw [neg_mul]
            exact neg_neg_of_pos (mul_pos hpos hS))).le
      · intro hpos
        exact fl_neg_of_neg (by
          rw [neg_mul]
          exact neg_neg_of_pos (mul_pos hpos hS))
    have hzsign_neg : (angle : ℚ) < 0 → 0 ≤ fl (-multiplier * S) ∧
        (0 < multiplier → 0 < fl (-multiplier * S)) := by
      intro ha
      have hS := hSneg ha
      constructor
      · exact fl_nonneg (by
          rw [neg_mul]
          exact neg_nonneg.mpr (mul_nonpos_of_nonneg_of_nonpos hm hS.le))
      · intro hpos
        exact fl_pos (by
          rw [neg_mul]
          exact neg_pos.mpr (mul_neg_of_pos_of_neg hpos hS))
    have hzzero : (angle : ℚ) = 0 → fl (-multiplier * S) = 0 := by
      intro ha
      rw [hSzero ha, mul_zero, fl_zero]
    generalize fl (-multiplier * S) = z at hzlo hzhi hzsign_pos hzsign_neg hzzero ⊢
    have hlow50 : (0 : ℚ) ≤ 1 - 1 / 2 ^ 50 := by norm_num
    have hmin0 : 0 ≤ min x cap := le_min hx0 hcap.le
    have hfour : ∀ B : ℚ, 0 ≤ B → B * (1 - 1 / 2 ^ 50) ≤ B * (1 - unitRoundoff) ^ 4 :=
      fun B hB => mul_le_mul_of_nonneg_left roundoff_four hB
    have hsix : ∀ B : ℚ, 0 ≤ B → B * (1 + unitRoundoff) ^ 6 ≤ B * (1 + 1 / 2 ^ 50) :=
      fun B hB => mul_le_mul_of_nonneg_left roundoff_six hB
    have hconc : ∀ r : ℚ, |r| ≤ cap * (1 + unitRoundoff) ^ 2 →
        min x cap * (1 - 1 / 2 ^ 50) ≤ |r| → |r| ≤ min x cap * (1 + 1 / 2 ^ 50) →
        ((0 : ℚ) < (angle : ℚ) → r ≤ 0 ∧ (0 < multiplier → r < 0)) →
        ((angle : ℚ) < 0 → 0 ≤ r ∧ (0 < multiplier → 0 < r)) → ((angle : ℚ) = 0 → r = 0) →
        |r| ≤ cap * (1 + unitRoundoff) ^ 2 ∧
        (angle ≠ 90 → ∃ R : ℚ, r = -(SignType.sign (angle : ℚ) : ℚ) * R ∧
          min x cap * (1 - 1 / 2 ^ 50) ≤ R ∧ R ≤ min x cap * (1 + 1 / 2 ^ 50)) ∧
        r * (angle : ℚ) ≤ 0 ∧
        (angle ≠ 90 → 0 < multiplier → SignType.sign r = -SignType.sign (angle : ℚ)) := by
      intro r h1 h2 h3 h4 h5 h6
      obtain ⟨c1, c2, c3, c4⟩ := angular_conclusions (angle : ℚ) x cap multiplier r h1 h2 h3
        h4 h5 h6
      exact ⟨c1, fun _ => c2, c3, fun _ => c4⟩
    by_cases hgt : |z| > cap
    · rw [if_pos hgt]
      have hz0 : z ≠ 0 := by
        intro h
        rw [h, abs_zero] at hgt
        linarith
      obtain ⟨hrlo, hrhi, hrpos, hrneg⟩ := cap64_bounds cap z hcap hz0
      apply hconc _ hrhi
      · calc min x cap * (1 - 1 / 2 ^ 50) ≤ cap * (1 - 1 / 2 ^ 50) :=
              mul_le_mul_of_nonneg_right (min_le_right _ _) hlow50
          _ ≤ cap * (1 - unitRoundoff) ^ 4 := hfour cap hcap.le
          _ ≤ cap * (1 - unitRoundoff) ^ 2 := pow_down_le hcap.le (by norm_num)
          _ ≤ _ := hrlo
      · rcases le_total cap x with hcx | hxc
        · rw [min_eq_right hcx]
          exact le_trans hrhi (le_trans (pow_up_le hcap.le (by norm_num)) (hsix cap hcap.le))
        · rw [min_eq_left hxc]
          have hstep : cap * (1 + unitRoundoff) ^ 2 ≤
              x * (1 + unitRoundoff) ^ 4 * (1 + unitRoundoff) ^ 2 :=
            mul_le_mul_of_nonneg_right (le_trans hgt.le hzhi) (by positivity)
          calc _ ≤ cap * (1 + unitRoundoff) ^ 2 := hrhi
            _ ≤ x * (1 + unitRoundoff) ^ 4 * (1 + unitRoundoff) ^ 2 := hstep
            _ = x * (1 + unitRoundoff) ^ 6 := by ring
            _ ≤ x * (1 + 1 / 2 ^ 50) := hsix x hx0
      · intro ha
        have hzneg : z < 0 := lt_of_le_of_ne (hzsign_pos ha).1 hz0
        exact ⟨(hrneg hzneg).le, fun _ => hrneg hzneg⟩
      · intro ha
        have hzpos : 0 < z := lt_of_le_of_ne (hzsign_neg ha).1 (Ne.symm hz0)
        exact ⟨(hrpos hzpos).le, fun _ => hrpos hzpos⟩
      · intro ha
        exact absurd (hzzero ha) hz0
    · rw [if_neg hgt]
      have hle : |z| ≤ cap := not_lt.mp hgt
      apply hconc z (le_trans hle hcapup) _ _ hzsign_pos hzsign_neg hzzero
      · calc min x cap * (1 - 1 / 2 ^ 50) ≤ x * (1 - 1 / 2 ^ 50) :=
              mul_le_mul_of_nonneg_right (min_le_left _ _) hlow50
          _ ≤ x * (1 - unitRoundoff) ^ 4 := hfour x hx0
          _ ≤ |z| := hzlo
      · rcases le_total x cap with hxc | hcx
        · rw [min_eq_left hxc]
          exact le_trans hzhi (le_trans (pow_up_le hx0 (by norm_num)) (hsix x hx0))
        · rw [min_eq_right hcx]
          calc |z| ≤ cap := hle
            _ ≤ cap * (1 + 1 / 2 ^ 50) := le_mul_of_one_le_right hcap.le (by norm_num)

/-- The binary64 angular speed of the angle `45`: the double nearest to `0.2025`. -/
theorem getDesiredAngularSpeed64_45 :
    getDesiredAngularSpeed64 ((45 : Int) : ℚ) = 1823957849085051 / 9007199254740992 := by
  have h2025 : fl 2025 = 2025 := by simpa using fl_representable 2025 0 (by norm_num)
  have hsq : (((45 : Int) : ℚ)) ^ 2 = 2025 := by norm_num
  unfold getDesiredAngularSpeed64
  rw [if_neg (by norm_num [STOP_SIGNAL_ANGLE]), if_neg (by norm_num), hsq, h2025,
    fl_eval (2025 / 10000) (-3) 7295831396340204] <;> norm_num [abs_lt, le_abs]

/-- The product by the multiplier `1` is exact. -/
theorem angular_product_45 :
    fl (-1 * getDesiredAngularSpeed64 ((45 : Int) : ℚ)) =
      -(1823957849085051 / 9007199254740992) := by
  rw [getDesiredAngularSpeed64_45]
  have := fl_representable (-1823957849085051) (-53) (by norm_num)
  norm_num at this ⊢
  exact this

/-- The turn rate of the angle `45` with the default multiplier and cap, in
binary64. -/
theorem angularZ64_spec_witness :
    |angularZ64 1 1 45| ≤ 1 * (1 + unitRoundoff) ^ 2 := by
  have hone : fl (1 * -(1823957849085051 / 9007199254740992)) =
      -(1823957849085051 / 9007199254740992) := by
    have := fl_representable (-1823957849085051) (-53) (by norm_num)
    norm_num at this ⊢
    exact this
  have hquot : fl (-(1823957849085051 / 9007199254740992) /
      |(-(1823957849085051 / 9007199254740992) : ℚ)|) = -1 := by
    have := fl_representable (-1) 0 (by norm_num)
    norm_num [abs_of_neg] at this ⊢
    exact this
  exact (angularZ64_spec 1 1 45 (by norm_num) (by norm_num)
    (by
      unfold AngularNormal
      rw [angular_product_45, hone]
      have h2025 : fl 2025 = 2025 := by simpa using fl_representable 2025 0 (by norm_num)
      have hsq : (((45 : Int) : ℚ)) ^ 2 = 2025 := by norm_num
      rw [hsq, h2025, getDesiredAngularSpeed64_45]
      refine ⟨Or.inr ?_, Or.inr ?_, Or.inr ?_, Or.inr ?_, Or.inr ?_⟩ <;>
        norm_num [abs_le, le_abs, abs_of_neg])).1

/-- C22 fails as stated: with the multiplier `1`, the cap the binary64 number `0.1` and
the angle `45`, the product `-0.2025` is above the cap in magnitude, and
`cap * z / fabs(z)` rounds to `-(cap + 2^-56)`, `-0.10000000000000002`, whose
magnitude is above the cap. -/
theorem angularZ64_above_cap :
    AngularNormal 1 tenth64 45 ∧
    angularZ64 1 tenth64 45 = -(tenth64 + 1 / 2 ^ 56) ∧
    tenth64 < |angularZ64 1 tenth64 45| := by
  have hw : fl (tenth64 * -(1823957849085051 / 9007199254740992)) =
      -(1459166279268041 / 72057594037927936) := by
    rw [fl_eval (tenth64 * -(1823957849085051 / 9007199254740992)) (-6)
      (-5836665117072164)] <;> norm_num [tenth64, abs_lt, le_abs]
  have habs : |(-(1823957849085051 / 9007199254740992) : ℚ)| =
      1823957849085051 / 9007199254740992 := by
    rw [abs_neg, abs_of_pos (by norm_num)]
  have hr : fl (-(1459166279268041 / 72057594037927936) /
      (1823957849085051 / 9007199254740992)) = -(tenth64 + 1 / 2 ^ 56) := by
    rw [fl_eval (-(1459166279268041 / 72057594037927936) /
      (1823957849085051 / 9007199254740992)) (-4) (-7205759403792795)] <;>
      norm_num [tenth64, abs_lt, le_abs]
  have hval : angularZ64 1 tenth64 45 = -(tenth64 + 1 / 2 ^ 56) := by
    unfold angularZ64
    dsimp only
    rw [angular_product_45, habs, if_pos (by norm_num [tenth64]), hw, hr]
  refine ⟨?_, hval, ?_⟩
  · unfold AngularNormal
    have h2025 : fl 2025 = 2025 := by simpa using fl_representable 2025 0 (by norm_num)
    have hsq : (((45 : Int) : ℚ)) ^ 2 = 2025 := by norm_num
    rw [angular_product_45, habs, hw, hsq, h2025, getDesiredAngularSpeed64_45]
    refine ⟨Or.inr ?_, Or.inr ?_, Or.inr ?_, Or.inr ?_, Or.inr ?_⟩ <;>
      norm_num [tenth64, abs_le, le_abs, abs_of_neg]
  · rw [hval, abs_neg, abs_of_pos (by norm_num [tenth64])]
    norm_num

end VisionDecision
